import Mathlib

/-!
Verification of the fastlz-rs FastLZ codec (src/compress.rs, src/decompress.rs,
src/util.rs) against its natural-language specification.

Bytes are modelled as `Nat` (values below 256 where the Rust type is `u8`;
casts `as u8` become `% 256`, `u32` wrapping arithmetic becomes `% 2^32`).
Byte buffers are `List Nat`.  The Rust output-sink traits become structures of
functions; fallible sink operations return the updated state together with an
`Option` error, mirroring the fact that the Rust methods mutate the sink before
reporting an error and that `?` aborts the enclosing function at the first
error.
-/

set_option maxHeartbeats 1000000
set_option maxRecDepth 100000

/-- Compression errors (src/compress.rs `CompressError`). -/
inductive CompressError where
  | OutputTooSmall
deriving DecidableEq, Repr

/-- Decompression errors (src/decompress.rs `DecompressError`). -/
inductive DecompressError where
  | InputTruncated
  | InvalidBackreference
  | InvalidCompressionLevel
  | OutputTooSmall
deriving DecidableEq, Repr

/-- Compression level (src/compress.rs `CompressionLevel`). -/
inductive CompressionLevel where
  | Default
  | Level1
  | Level2
deriving DecidableEq, Repr

/-- A bounded output buffer with a write cursor (src/util.rs and
src/decompress.rs `BufOutput`): `buf` is the caller-supplied byte region (its
length is the capacity, which never changes) and `pos` the write cursor. -/
structure BufOutput where
  pos : Nat
  buf : List Nat
deriving DecidableEq, Repr

/-- Write the bytes `xs` into `buf` starting at position `p`
(Rust `buf[p..p + xs.len()].copy_from_slice(xs)`). -/
def setRange (buf : List Nat) (p : Nat) (xs : List Nat) : List Nat :=
  buf.take p ++ xs ++ buf.drop (p + xs.length)

/-- Forward byte-by-byte copy (the `for i in 0..len` loops of the two
`put_backref` implementations in src/decompress.rs): copy `n` bytes, one at a
time in increasing order, from index `src` to index `dst`. -/
def brCopy (buf : List Nat) (src dst : Nat) : Nat → List Nat
  | 0 => buf
  | n + 1 => brCopy (buf.set dst (buf.getD src 0)) (src + 1) (dst + 1) n

/-! ## Compressor output sinks (src/compress.rs `OutputHelper`) -/

/-- src/compress.rs `OutputHelper for BufOutput::putc`. -/
def BufOutput.putc (s : BufOutput) (c : Nat) : BufOutput × Option CompressError :=
  if s.pos + 1 ≤ s.buf.length then
    (⟨s.pos + 1, s.buf.set s.pos c⟩, none)
  else
    (s, some .OutputTooSmall)

/-- src/compress.rs `OutputHelper for BufOutput::put_buf`: write as much as
fits, advance the cursor by that amount, and report overflow if truncated. -/
def BufOutput.put_buf (s : BufOutput) (b : List Nat) : BufOutput × Option CompressError :=
  if s.pos + b.length > s.buf.length then
    (⟨s.pos + (s.buf.length - s.pos), setRange s.buf s.pos (b.take (s.buf.length - s.pos))⟩,
      some .OutputTooSmall)
  else
    (⟨s.pos + b.length, setRange s.buf s.pos b⟩, none)

/-- src/compress.rs `OutputHelper for BufOutput::poke_l2`: `self.buf[0] |= 0b001_00000`. -/
def BufOutput.poke_l2 (s : BufOutput) : BufOutput :=
  ⟨s.pos, s.buf.set 0 (s.buf.getD 0 0 ||| 32)⟩

/-- src/compress.rs `OutputHelper for VecOutput::putc` (the growable sink is a
plain byte list). -/
def vecPutc (v : List Nat) (c : Nat) : List Nat × Option CompressError :=
  (v ++ [c], none)

/-- src/compress.rs `OutputHelper for VecOutput::put_buf`. -/
def vecPutBuf (v : List Nat) (b : List Nat) : List Nat × Option CompressError :=
  (v ++ b, none)

/-- src/compress.rs `OutputHelper for VecOutput::poke_l2`: `self.vec[0] |= 0b001_00000`. -/
def vecPokeL2 (v : List Nat) : List Nat :=
  match v with
  | [] => []
  | b :: r => (b ||| 32) :: r

/-- The compressor's output abstraction (src/compress.rs trait `OutputHelper`). -/
structure CSink (σ : Type) where
  putc : σ → Nat → σ × Option CompressError
  put_buf : σ → List Nat → σ × Option CompressError
  poke_l2 : σ → σ

/-- The bounded-buffer instance of `OutputHelper`. -/
def bufCSink : CSink BufOutput :=
  ⟨BufOutput.putc, BufOutput.put_buf, BufOutput.poke_l2⟩

/-- The growable (Vec) instance of `OutputHelper`. -/
def vecCSink : CSink (List Nat) :=
  ⟨vecPutc, vecPutBuf, vecPokeL2⟩

/-! ## Opcode writers (src/compress.rs `L1Output` / `L2Output`) -/

/-- `put_lits` of both `L1Output` and `L2Output` (the two Rust bodies are
textually identical): emit full 32-literal runs with opcode 31 while more than
32 literals remain, then one final opcode `len - 1` followed by the literals. -/
def writerPutLits (K : CSink σ) (s : σ) (lits : List Nat) : σ × Option CompressError :=
  if lits.length > 32 then
    match K.putc s 31 with
    | (s1, some e) => (s1, some e)
    | (s1, none) =>
      match K.put_buf s1 (lits.take 32) with
      | (s2, some e) => (s2, some e)
      | (s2, none) => writerPutLits K s2 (lits.drop 32)
  else
    match K.putc s (lits.length - 1) with
    | (s1, some e) => (s1, some e)
    | (s1, none) => K.put_buf s1 lits
termination_by lits.length
decreasing_by simp; omega

/-- src/compress.rs `L1Output::put_backref`: while `len > 0xff + 9` emit the
max-encodable 3-byte chunk `[0xE0 | (disp >> 8), 0xff - 2, disp as u8]` and
advance `len` by `0xff - 2 + 9`; then emit the final short (2-byte) or long
(3-byte) opcode. -/
def l1_put_backref (K : CSink σ) (s : σ) (disp len : Nat) : σ × Option CompressError :=
  if len > 255 + 9 then
    match K.putc s (224 ||| ((disp >>> 8) % 256)) with
    | (s1, some e) => (s1, some e)
    | (s1, none) =>
      match K.putc s1 (255 - 2) with
      | (s2, some e) => (s2, some e)
      | (s2, none) =>
        match K.putc s2 (disp % 256) with
        | (s3, some e) => (s3, some e)
        | (s3, none) => l1_put_backref K s3 disp (len - (255 - 2 + 9))
  else if len ≤ 8 then
    match K.putc s ((((len - 2) <<< 5) ||| (disp >>> 8)) % 256) with
    | (s1, some e) => (s1, some e)
    | (s1, none) => K.putc s1 (disp % 256)
  else
    match K.putc s (224 ||| ((disp >>> 8) % 256)) with
    | (s1, some e) => (s1, some e)
    | (s1, none) =>
      match K.putc s1 ((len - 9) % 256) with
      | (s2, some e) => (s2, some e)
      | (s2, none) => K.putc s2 (disp % 256)
termination_by len
decreasing_by omega

/-- The saturated length-extension loop of src/compress.rs
`L2Output::put_backref`: emit `min(len, 0xff)`, stop after the first emitted
byte that is not `0xff`, subtracting `0xff` from `len` otherwise. -/
def l2ExtLoop (K : CSink σ) (s : σ) (len : Nat) : σ × Option CompressError :=
  match K.putc s (min len 255) with
  | (s1, some e) => (s1, some e)
  | (s1, none) =>
    if min len 255 ≠ 255 then (s1, none)
    else l2ExtLoop K s1 (len - min len 255)
termination_by len
decreasing_by omega

/-- src/compress.rs `L2Output::put_backref`. -/
def l2_put_backref (K : CSink σ) (s : σ) (disp len : Nat) : σ × Option CompressError :=
  let earlydisp := min disp 8191
  let len1 := len - 2
  let earlylen := min len1 7
  match K.putc s (((earlylen <<< 5) ||| (earlydisp >>> 8)) % 256) with
  | (s1, some e) => (s1, some e)
  | (s1, none) =>
    match (if earlylen = 7 then l2ExtLoop K s1 (len1 - earlylen) else (s1, none)) with
    | (s2, some e) => (s2, some e)
    | (s2, none) =>
      match K.putc s2 (earlydisp % 256) with
      | (s3, some e) => (s3, some e)
      | (s3, none) =>
        if earlydisp = 8191 then
          match K.putc s3 (((disp - earlydisp) >>> 8) % 256) with
          | (s4, some e) => (s4, some e)
          | (s4, none) => K.putc s4 ((disp - earlydisp) % 256)
        else
          (s3, none)

/-- An opcode writer together with its compression constants
(src/compress.rs traits `OutputSink<CompressError>` and `CompressSink`). -/
structure CWriter (σ : Type) where
  put_lits : σ → List Nat → σ × Option CompressError
  put_backref : σ → Nat → Nat → σ × Option CompressError
  maxDisp : Nat
  isLv2 : Bool
  poke : σ → σ

/-- `L1Output` over a sink: `MAX_DISP = 8191`, `IS_LEVEL2 = false`, and its
`CompressSink::poke_l2` does nothing. -/
def l1Writer (K : CSink σ) : CWriter σ :=
  ⟨writerPutLits K, l1_put_backref K, 8191, false, fun s => s⟩

/-- `L2Output` over a sink: `MAX_DISP = 8191 + 65535`, `IS_LEVEL2 = true`, and
its `CompressSink::poke_l2` delegates to the sink. -/
def l2Writer (K : CSink σ) : CWriter σ :=
  ⟨writerPutLits K, l2_put_backref K, 8191 + 65535, true, K.poke_l2⟩

/-! ## Match finder (src/compress.rs `CompressState::compress_impl`) -/

/-- src/compress.rs `fastlz_hash`: Knuth multiplicative hash with 32-bit
wrapping multiplication and shift `32 - HTAB_LOG2 = 19`. -/
def fastlz_hash (v : Nat) : Nat :=
  ((v * 2654435769) % 4294967296) >>> (32 - 13)

/-- Point update of the hash table (Rust `htab[hash] = v`; the table is a
total map from hash values to input positions). -/
def htUpd (t : Nat → Nat) (k v : Nat) : Nat → Nat :=
  fun x => if x = k then v else t x

/-- src/compress.rs `InputHelper::peek4` value: the four bytes at position `i`
read as a little-endian `u32` (defined when `i + 4 ≤ S.length`, which the
main loop checks before using it). -/
def le4 (S : List Nat) (i : Nat) : Nat :=
  S.getD i 0 ||| (S.getD (i + 1) 0 <<< 8) ||| (S.getD (i + 2) 0 <<< 16) ||| (S.getD (i + 3) 0 <<< 24)

/-- The greedy match extension (the `zip`/`map_while`/`fold` expression in
`compress_impl`): the length of the longest common prefix of two byte lists. -/
def matchExt : List Nat → List Nat → Nat
  | a :: as_, b :: bs => if a = b then matchExt as_ bs + 1 else 0
  | _, _ => 0

/-- The main `while let Some(hash_head) = inp.peek4()` loop of
`CompressState::compress_impl`.  State: `i` is the cursor (`cur_pos`),
`anchor` is `lits_start_anchor_pos`, `ht` the hash table, `s` the writer
state.  The returned `Bool` starts from `ok` and records, for every hash-table
read performed, that the reference position is strictly before the cursor
(the source's `debug_assert!(cur_pos > ref_pos)`) and leaves at least three
readable bytes (`&orig_inp[ref_pos..]` and `ref_[..3]` stay in bounds).  The
returned `Nat` is the final `lits_start_anchor_pos` (the loop breaks leave the
trailing-literal emission to `compress_impl`). -/
def compressLoop (W : CWriter σ) (S : List Nat) (i anchor : Nat) (ht : Nat → Nat)
    (s : σ) (ok : Bool) : σ × Option CompressError × Bool × Nat :=
  if h4 : i + 4 ≤ S.length then
    let hash := fastlz_hash (le4 S i &&& 16777215)
    let refp := ht hash
    let ht1 := htUpd ht hash i
    let ok1 := ok && decide (refp < i ∧ refp + 3 ≤ S.length)
    let disp := i - refp - 1
    if disp ≤ W.maxDisp ∧ (S.drop i).take 3 = (S.drop refp).take 3 then
      if W.isLv2 = true ∧ 8191 ≤ disp ∧ S.length < i + 5 then
        (s, none, ok1, anchor)
      else if W.isLv2 = true ∧ 8191 ≤ disp ∧
          ¬((S.drop (i + 3)).take 2 = (S.drop (refp + 3)).take 2) then
        compressLoop W S (i + 1) anchor ht1 s ok1
      else
        let len0 := 3 + matchExt (S.drop (i + 3)) (S.drop (refp + 3))
        let len := if W.isLv2 = true ∧ 8191 ≤ disp ∧ len0 = S.length - i then len0 - 1 else len0
        match (if i - anchor > 0 then W.put_lits s ((S.drop anchor).take (i - anchor)) else (s, none)) with
        | (s1, some e) => (s1, some e, ok1, anchor)
        | (s1, none) =>
          match W.put_backref s1 disp len with
          | (s2, some e) => (s2, some e, ok1, anchor)
          | (s2, none) =>
            if h4b : (i + len - 2) + 4 ≤ S.length then
              let hh2 := le4 S (i + len - 2)
              let ht2 := htUpd ht1 (fastlz_hash (hh2 &&& 16777215)) (i + len - 2)
              let ht3 := htUpd ht2 (fastlz_hash ((hh2 >>> 8) &&& 16777215)) (i + len - 2 + 1)
              compressLoop W S (i + len) (i + len) ht3 s2 ok1
            else
              (s2, none, ok1, i + len)
    else
      compressLoop W S (i + 1) anchor ht1 s ok1
  else
    (s, none, ok, anchor)
termination_by S.length - i
decreasing_by
  all_goals simp_wf
  all_goals try (unfold_let len len0 at *)
  all_goals try (split <;> omega)
  all_goals omega

/-- src/compress.rs `CompressState::compress_impl`: empty input returns at
once; otherwise zero the hash table, skip one literal byte, run the main loop,
emit any leftover literals, and post-mark level 2. -/
def compress_impl (W : CWriter σ) (S : List Nat) (s : σ) : σ × Option CompressError × Bool :=
  if S.length = 0 then (s, none, true)
  else
    match compressLoop W S 1 0 (fun _ => 0) s true with
    | (s1, some e, ok, _) => (s1, some e, ok)
    | (s1, none, ok, an) =>
      if (S.drop an).length > 0 then
        match W.put_lits s1 (S.drop an) with
        | (s2, some e) => (s2, some e, ok)
        | (s2, none) => (W.poke s2, none, ok)
      else (W.poke s1, none, ok)

/-- src/compress.rs `CompressState::compress_to_buf` (the initial buffer
contents play the role of the preallocated output region; the `Bool` is the
assertion instrumentation of `compressLoop`). -/
def compress_to_buf (S : List Nat) (outp : List Nat) (level : CompressionLevel) :
    BufOutput × Option CompressError × Bool :=
  let lv := if level = CompressionLevel.Default then
    (if S.length < 65536 then CompressionLevel.Level1 else CompressionLevel.Level2) else level
  if lv = CompressionLevel.Level1 then compress_impl (l1Writer bufCSink) S ⟨0, outp⟩
  else compress_impl (l2Writer bufCSink) S ⟨0, outp⟩

/-- src/compress.rs `CompressState::compress_to_vec`. -/
def compress_to_vec (S : List Nat) (level : CompressionLevel) :
    List Nat × Option CompressError × Bool :=
  let lv := if level = CompressionLevel.Default then
    (if S.length < 65536 then CompressionLevel.Level1 else CompressionLevel.Level2) else level
  if lv = CompressionLevel.Level1 then compress_impl (l1Writer vecCSink) S []
  else compress_impl (l2Writer vecCSink) S []

/-! ## Decompressor output sinks (src/decompress.rs `OutputSink`) -/

/-- src/decompress.rs `OutputSink for BufOutput::put_lits`: write what fits,
advance, report `OutputTooSmall` on truncation. -/
def BufOutput.put_lits (s : BufOutput) (lits : List Nat) : BufOutput × Option DecompressError :=
  if s.pos + lits.length > s.buf.length then
    (⟨s.pos + (s.buf.length - s.pos), setRange s.buf s.pos (lits.take (s.buf.length - s.pos))⟩,
      some .OutputTooSmall)
  else
    (⟨s.pos + lits.length, setRange s.buf s.pos lits⟩, none)

/-- src/decompress.rs `OutputSink for BufOutput::put_backref`: reject
displacements reaching before the start of the output, truncate the copy to
the capacity, and copy forward one byte at a time. -/
def BufOutput.put_backref (s : BufOutput) (disp len : Nat) : BufOutput × Option DecompressError :=
  if disp + 1 > s.pos then (s, some .InvalidBackreference)
  else if s.pos + len > s.buf.length then
    (⟨s.pos + (s.buf.length - s.pos), brCopy s.buf (s.pos - disp - 1) s.pos (s.buf.length - s.pos)⟩,
      some .OutputTooSmall)
  else
    (⟨s.pos + len, brCopy s.buf (s.pos - disp - 1) s.pos len⟩, none)

/-- src/decompress.rs `OutputSink for VecOutput::put_lits`. -/
def vecPutLits (v : List Nat) (lits : List Nat) : List Nat × Option DecompressError :=
  (v ++ lits, none)

/-- src/decompress.rs `OutputSink for VecOutput::put_backref`: check the
displacement, resize by `len` zero bytes, then copy forward one byte at a
time. -/
def vecPutBackref (v : List Nat) (disp len : Nat) : List Nat × Option DecompressError :=
  if disp + 1 > v.length then (v, some .InvalidBackreference)
  else (brCopy (v ++ List.replicate len 0) (v.length - disp - 1) v.length len, none)

/-- The decompressor's output abstraction (src/decompress.rs trait `OutputSink`). -/
structure DSink (σ : Type) where
  put_lits : σ → List Nat → σ × Option DecompressError
  put_backref : σ → Nat → Nat → σ × Option DecompressError

/-- The bounded-buffer instance of the decompressor sink. -/
def bufDSink : DSink BufOutput :=
  ⟨BufOutput.put_lits, BufOutput.put_backref⟩

/-- The growable (Vec) instance of the decompressor sink. -/
def vecDSink : DSink (List Nat) :=
  ⟨vecPutLits, vecPutBackref⟩

/-! ## Decoders (src/decompress.rs) -/

/-- The level-2 length-extension read loop (src/decompress.rs
`decompress_lv2`, the inner `loop` on a long match): add bytes to `len`,
stopping after the first byte that is not `0xff`; `none` models
`InputTruncated`. -/
def readExtLen (inp : List Nat) (len : Nat) : Option (Nat × List Nat) :=
  match inp with
  | [] => none
  | b :: rest => if b = 255 then readExtLen rest (len + b) else some (len + b, rest)

/-- Any successful `readExtLen` consumes at least one input byte. -/
theorem readExtLen_length : ∀ (inp : List Nat) (n m : Nat) (rest : List Nat),
    readExtLen inp n = some (m, rest) → rest.length < inp.length := by
  intro inp
  induction inp with
  | nil => intro n m rest h; simp [readExtLen] at h
  | cons b tl ih =>
    intro n m rest h
    simp only [readExtLen] at h
    by_cases hb : b = 255
    · simp only [hb, if_pos rfl] at h
      have := ih _ _ _ h
      simp; omega
    · simp only [if_neg hb] at h
      cases h
      simp

/-- The main loop of src/decompress.rs `decompress_lv1`, after the first
control byte has been read and masked: `ctrl` is the current control byte and
`inp` the remaining input. -/
def lv1Loop (D : DSink σ) (ctrl : Nat) (inp : List Nat) (s : σ) : σ × Option DecompressError :=
  if ctrl >>> 5 = 0 then
    let len := (ctrl &&& 31) + 1
    if inp.length < len then (s, some .InputTruncated)
    else
      match D.put_lits s (inp.take len) with
      | (s1, some e) => (s1, some e)
      | (s1, none) =>
        match h2 : inp.drop len with
        | [] => (s1, none)
        | c :: rest => lv1Loop D c rest s1
  else if ctrl >>> 5 = 7 then
    match inp with
    | b :: lo :: rest =>
      match D.put_backref s ((((ctrl &&& 31) <<< 8)) ||| lo) (b + 9) with
      | (s1, some e) => (s1, some e)
      | (s1, none) =>
        match rest with
        | [] => (s1, none)
        | c :: rest2 => lv1Loop D c rest2 s1
    | _ => (s, some .InputTruncated)
  else
    match inp with
    | lo :: rest =>
      match D.put_backref s ((((ctrl &&& 31) <<< 8)) ||| lo) ((ctrl >>> 5) + 2) with
      | (s1, some e) => (s1, some e)
      | (s1, none) =>
        match rest with
        | [] => (s1, none)
        | c :: rest2 => lv1Loop D c rest2 s1
    | [] => (s, some .InputTruncated)
termination_by inp.length
decreasing_by
  · have hd : (inp.drop len).length = inp.length - len := by simp
    rw [h2] at hd
    simp at hd ⊢
    omega
  · simp; omega
  · simp; omega

/-- src/decompress.rs `decompress_lv1`: read the first control byte (the
caller guarantees nonempty input; an empty list is mapped to
`InputTruncated`), strip its top three bits, and run the loop. -/
def decompress_lv1 (D : DSink σ) (inp : List Nat) (s : σ) : σ × Option DecompressError :=
  match inp with
  | [] => (s, some .InputTruncated)
  | c :: rest => lv1Loop D (c &&& 31) rest s

/-- The main loop of src/decompress.rs `decompress_lv2`.  Differences from
level 1: a long match reads 0xff-terminated length-extension bytes, and after
reading the low displacement byte, a displacement equal to `0b11111_11111111`
(8191) causes two further big-endian displacement-extension bytes to be read
and added. -/
def lv2Loop (D : DSink σ) (ctrl : Nat) (inp : List Nat) (s : σ) : σ × Option DecompressError :=
  if ctrl >>> 5 = 0 then
    let len := (ctrl &&& 31) + 1
    if inp.length < len then (s, some .InputTruncated)
    else
      match D.put_lits s (inp.take len) with
      | (s1, some e) => (s1, some e)
      | (s1, none) =>
        match h2 : inp.drop len with
        | [] => (s1, none)
        | c :: rest => lv2Loop D c rest s1
  else
    match hx : (if ctrl >>> 5 = 7 then readExtLen inp ((ctrl >>> 5) + 2)
                else some ((ctrl >>> 5) + 2, inp)) with
    | none => (s, some .InputTruncated)
    | some (len, inp1) =>
      match inp1 with
      | [] => (s, some .InputTruncated)
      | lo :: inp2 =>
        if (((ctrl &&& 31) <<< 8) ||| lo) = 8191 then
          match inp2 with
          | hi :: lo2 :: inp3 =>
            match D.put_backref s (8191 + ((hi <<< 8) ||| lo2)) len with
            | (s1, some e) => (s1, some e)
            | (s1, none) =>
              match inp3 with
              | [] => (s1, none)
              | c :: rest => lv2Loop D c rest s1
          | _ => (s, some .InputTruncated)
        else
          match D.put_backref s (((ctrl &&& 31) <<< 8) ||| lo) len with
          | (s1, some e) => (s1, some e)
          | (s1, none) =>
            match inp2 with
            | [] => (s1, none)
            | c :: rest => lv2Loop D c rest s1
termination_by inp.length
decreasing_by
  · have hd : (inp.drop len).length = inp.length - len := by simp
    rw [h2] at hd
    simp at hd ⊢
    omega
  · split at hx
    · have hL := readExtLen_length _ _ _ _ hx
      simp at hL ⊢
      omega
    · cases hx
      simp
      omega
  · split at hx
    · have hL := readExtLen_length _ _ _ _ hx
      simp at hL ⊢
      omega
    · cases hx
      simp
      omega

/-- src/decompress.rs `decompress_lv2`: like `decompress_lv1` but running the
level-2 loop. -/
def decompress_lv2 (D : DSink σ) (inp : List Nat) (s : σ) : σ × Option DecompressError :=
  match inp with
  | [] => (s, some .InputTruncated)
  | c :: rest => lv2Loop D (c &&& 31) rest s

/-- src/decompress.rs `decompress_impl`: empty input succeeds with no output;
otherwise dispatch on the top three bits of the first byte: 0 is level 1, 1 is
level 2, anything else is `InvalidCompressionLevel`. -/
def decompress_impl (D : DSink σ) (inp : List Nat) (s : σ) : σ × Option DecompressError :=
  match inp with
  | [] => (s, none)
  | c :: _ =>
    if c >>> 5 = 0 then decompress_lv1 D inp s
    else if c >>> 5 = 1 then decompress_lv2 D inp s
    else (s, some .InvalidCompressionLevel)

/-- src/decompress.rs `decompress_to_buf` (the initial buffer contents are the
caller's output region; the result keeps the final sink state so that the
bytes written on error remain observable, as they are in Rust). -/
def decompress_to_buf (inp : List Nat) (outp : List Nat) : BufOutput × Option DecompressError :=
  decompress_impl bufDSink inp ⟨0, outp⟩

/-- src/decompress.rs `decompress_to_vec`. -/
def decompress_to_vec (inp : List Nat) : List Nat × Option DecompressError :=
  decompress_impl vecDSink inp []

/-! ## Arithmetic toolkit for the opcode bit layouts -/

/-- Oring a value shifted left by `k` bits with a `k`-bit value is addition of
disjoint bit ranges. -/
theorem natOrShift (a b k : Nat) (hb : b < 2 ^ k) : (a <<< k) ||| b = 2 ^ k * a + b := by
  apply Nat.eq_of_testBit_eq
  intro i
  rw [Nat.testBit_lor, Nat.testBit_shiftLeft, Nat.testBit_mul_pow_two_add a hb i]
  by_cases h : i < k
  · have hik : ¬(i ≥ k) := by omega
    simp [h, hik]
  · have hik : i ≥ k := by omega
    have hbi : b.testBit i = false :=
      Nat.testBit_lt_two_pow (lt_of_lt_of_le hb (Nat.pow_le_pow_right (by norm_num) hik))
    simp [h, hik, hbi]

/-- Masking with 31 takes the value modulo 32. -/
theorem natAnd31 (x : Nat) : x &&& 31 = x % 32 := by
  have := Nat.and_pow_two_sub_one_eq_mod x 5
  norm_num at this
  exact this

/-- Shifting right by 5 divides by 32. -/
theorem natShr5 (x : Nat) : x >>> 5 = x / 32 := by
  have := Nat.shiftRight_eq_div_pow x 5
  norm_num at this
  exact this

/-- Shifting right by 8 divides by 256. -/
theorem natShr8 (x : Nat) : x >>> 8 = x / 256 := by
  have := Nat.shiftRight_eq_div_pow x 8
  norm_num at this
  exact this

/-- Oring a value shifted left by 8 with a byte. -/
theorem natOrShift8 (a b : Nat) (hb : b < 256) : (a <<< 8) ||| b = 256 * a + b := by
  have := natOrShift a b 8 (by norm_num [hb])
  norm_num at this
  exact this

/-- Oring a value shifted left by 5 with a 5-bit value. -/
theorem natOrShift5 (a b : Nat) (hb : b < 32) : (a <<< 5) ||| b = 32 * a + b := by
  have := natOrShift a b 5 (by norm_num [hb])
  norm_num at this
  exact this

/-- Oring a value below 32 with the level-2 marker bit adds 32. -/
theorem natOr32 (x : Nat) (hx : x < 32) : x ||| 32 = 32 + x := by
  have h : (1 <<< 5) ||| x = 2 ^ 5 * 1 + x := natOrShift 1 x 5 (by norm_num [hx])
  have h32 : (1 : Nat) <<< 5 = 32 := by decide
  rw [h32] at h
  rw [Nat.lor_comm]
  omega

/-- Projection lemmas for the growable compressor sink. -/
theorem vecCSink_putc (v : List Nat) (c : Nat) : vecCSink.putc v c = (v ++ [c], none) := rfl

/-- Projection of `put_buf` for the growable compressor sink. -/
theorem vecCSink_put_buf (v b : List Nat) : vecCSink.put_buf v b = (v ++ b, none) := rfl

/-! ## Pure byte-emission views of the opcode writers -/

/-- The bytes emitted by `writerPutLits` (chunked literal-run encoding). -/
def litRunBytes (l : List Nat) : List Nat :=
  if l.length > 32 then 31 :: (l.take 32 ++ litRunBytes (l.drop 32))
  else (l.length - 1) :: l
termination_by l.length
decreasing_by simp; omega

/-- The bytes emitted by `l1_put_backref`. -/
def l1RefBytes (d n : Nat) : List Nat :=
  if n > 255 + 9 then
    (224 ||| ((d >>> 8) % 256)) :: (255 - 2) :: (d % 256) :: l1RefBytes d (n - (255 - 2 + 9))
  else if n ≤ 8 then
    [(((n - 2) <<< 5) ||| (d >>> 8)) % 256, d % 256]
  else
    [224 ||| ((d >>> 8) % 256), (n - 9) % 256, d % 256]
termination_by n
decreasing_by omega

/-- The bytes emitted by `l2ExtLoop` (saturated length-extension encoding). -/
def extLenBytes (n : Nat) : List Nat :=
  if min n 255 ≠ 255 then [min n 255]
  else min n 255 :: extLenBytes (n - min n 255)
termination_by n
decreasing_by omega

/-- The bytes emitted by `l2_put_backref`. -/
def l2RefBytes (d n : Nat) : List Nat :=
  ((min (n - 2) 7 <<< 5) ||| ((min d 8191) >>> 8)) % 256 ::
    ((if min (n - 2) 7 = 7 then extLenBytes (n - 2 - 7) else []) ++
      ((min d 8191) % 256 ::
        (if min d 8191 = 8191 then [((d - 8191) >>> 8) % 256, (d - 8191) % 256] else [])))

/-- On the growable sink, `writerPutLits` appends `litRunBytes` and never
fails. -/
theorem writerPutLits_vec : ∀ (fuel : Nat) (l : List Nat), l.length ≤ fuel → ∀ (v : List Nat),
    writerPutLits vecCSink v l = (v ++ litRunBytes l, none) := by
  intro fuel
  induction fuel with
  | zero =>
    intro l hl v
    have hnil : l = [] := List.length_eq_zero.mp (by omega)
    subst hnil
    rw [writerPutLits, litRunBytes]
    simp [vecCSink, vecPutc, vecPutBuf]
  | succ fuel ih =>
    intro l hl v
    rw [writerPutLits, litRunBytes]
    by_cases h : l.length > 32
    · have hdrop : (l.drop 32).length ≤ fuel := by simp; omega
      simp only [if_pos h, vecCSink_putc, vecCSink_put_buf]
      rw [ih _ hdrop]
      simp
    · simp only [if_neg h, vecCSink_putc, vecCSink_put_buf]
      simp

/-- On the growable sink, `l1_put_backref` appends `l1RefBytes` and never
fails. -/
theorem l1_put_backref_vec : ∀ (n : Nat) (d : Nat) (v : List Nat),
    l1_put_backref vecCSink v d n = (v ++ l1RefBytes d n, none) := by
  intro n
  induction n using Nat.strong_induction_on with
  | _ n ih =>
    intro d v
    rw [l1_put_backref, l1RefBytes]
    by_cases h : n > 255 + 9
    · simp only [if_pos h, vecCSink_putc]
      rw [ih (n - (255 - 2 + 9)) (by omega)]
      simp
    · by_cases h8 : n ≤ 8
      · simp only [if_neg h, if_pos h8, vecCSink_putc]
        simp
      · simp only [if_neg h, if_neg h8, vecCSink_putc]
        simp

/-- On the growable sink, `l2ExtLoop` appends `extLenBytes` and never fails. -/
theorem l2ExtLoop_vec : ∀ (n : Nat) (v : List Nat),
    l2ExtLoop vecCSink v n = (v ++ extLenBytes n, none) := by
  intro n
  induction n using Nat.strong_induction_on with
  | _ n ih =>
    intro v
    rw [l2ExtLoop, extLenBytes]
    by_cases h : min n 255 ≠ 255
    · simp [vecCSink_putc, if_pos h, h]
    · simp only [vecCSink_putc, if_neg h]
      push_neg at h
      rw [ih (n - min n 255) (by simp; omega)]
      simp [h]

/-- On the growable sink, `l2_put_backref` appends `l2RefBytes` and never
fails. -/
theorem l2_put_backref_vec (d n : Nat) (v : List Nat) :
    l2_put_backref vecCSink v d n = (v ++ l2RefBytes d n, none) := by
  rw [l2_put_backref, l2RefBytes]
  by_cases h7 : min (n - 2) 7 = 7
  · simp only [vecCSink_putc, h7, if_pos rfl]
    rw [l2ExtLoop_vec]
    by_cases hd : min d 8191 = 8191
    · simp [hd, vecCSink_putc]
    · simp [hd, vecCSink_putc]
  · simp only [vecCSink_putc, if_neg h7]
    by_cases hd : min d 8191 = 8191
    · simp [hd, vecCSink_putc, h7]
    · simp [hd, vecCSink_putc, h7]

/-! ## Properties of the forward byte-by-byte copy -/

/-- `brCopy` preserves the buffer length. -/
theorem brCopy_length : ∀ (n : Nat) (buf : List Nat) (src dst : Nat),
    (brCopy buf src dst n).length = buf.length := by
  intro n
  induction n with
  | zero => intro buf src dst; rfl
  | succ n ih => intro buf src dst; rw [brCopy, ih]; simp

/-- `brCopy` does not change entries outside `[dst, dst + n)`. -/
theorem brCopy_getD_outside : ∀ (n : Nat) (buf : List Nat) (src dst j : Nat),
    j < dst ∨ dst + n ≤ j → (brCopy buf src dst n).getD j 0 = buf.getD j 0 := by
  intro n
  induction n with
  | zero => intro buf src dst j _; rfl
  | succ n ih =>
    intro buf src dst j hj
    rw [brCopy, ih _ _ _ _ (by omega)]
    simp only [List.getD_eq_getElem?_getD]
    rw [List.getElem?_set_ne (by omega)]

/-- Each byte that `brCopy` writes equals the byte `dst - src` places before
it in the final buffer (the overlapping forward-copy characterisation). -/
theorem brCopy_getD_copied : ∀ (n : Nat) (buf : List Nat) (src dst : Nat),
    src < dst → dst + n ≤ buf.length → ∀ k, k < n →
    (brCopy buf src dst n).getD (dst + k) 0 = (brCopy buf src dst n).getD (src + k) 0 := by
  intro n
  induction n with
  | zero => intro buf src dst _ _ k hk; omega
  | succ n ih =>
    intro buf src dst hsd hlen k hk
    rcases Nat.eq_zero_or_pos k with hk0 | hkpos
    · subst hk0
      rw [brCopy]
      have hdst : (brCopy (buf.set dst (buf.getD src 0)) (src + 1) (dst + 1) n).getD (dst + 0) 0
          = (buf.set dst (buf.getD src 0)).getD dst 0 :=
        brCopy_getD_outside _ _ _ _ _ (by omega)
      have hsrc : (brCopy (buf.set dst (buf.getD src 0)) (src + 1) (dst + 1) n).getD (src + 0) 0
          = (buf.set dst (buf.getD src 0)).getD src 0 :=
        brCopy_getD_outside _ _ _ _ _ (by omega)
      rw [hdst, hsrc]
      simp only [List.getD_eq_getElem?_getD]
      rw [List.getElem?_set_self (by omega), List.getElem?_set_ne (by omega)]
      simp [List.getD_eq_getElem?_getD]
    · obtain ⟨k1, rfl⟩ : ∃ k1, k = k1 + 1 := ⟨k - 1, by omega⟩
      rw [brCopy]
      have := ih (buf.set dst (buf.getD src 0)) (src + 1) (dst + 1)
        (by omega) (by simp; omega) k1 (by omega)
      have hd : dst + 1 + k1 = dst + (k1 + 1) := by omega
      have hs : src + 1 + k1 = src + (k1 + 1) := by omega
      rw [hd, hs] at this
      exact this

/-- `setRange` preserves the length when the write stays in bounds. -/
theorem setRange_length (buf : List Nat) (p : Nat) (xs : List Nat)
    (h : p + xs.length ≤ buf.length) : (setRange buf p xs).length = buf.length := by
  rw [setRange]
  simp
  omega

/-- Entries before the written range are unchanged by `setRange`. -/
theorem setRange_getD_before (buf : List Nat) (p : Nat) (xs : List Nat) (j : Nat)
    (hj : j < p) (hp : p ≤ buf.length) : (setRange buf p xs).getD j 0 = buf.getD j 0 := by
  rw [setRange]
  rw [List.getD_append _ _ _ _ (by simp; omega)]
  rw [List.getD_append _ _ _ _ (by simp; omega)]
  simp only [List.getD_eq_getElem?_getD]
  rw [List.getElem?_take]
  simp [hj]

/-- The written range of `setRange` holds the new bytes. -/
theorem setRange_getD_in (buf : List Nat) (p : Nat) (xs : List Nat) (k : Nat)
    (hk : k < xs.length) (hp : p ≤ buf.length) :
    (setRange buf p xs).getD (p + k) 0 = xs.getD k 0 := by
  rw [setRange]
  rw [List.getD_append _ _ _ _ (by simp; omega)]
  have hlen : (List.take p buf).length = p := by simp; omega
  rw [List.getD_append_right _ _ _ _ (by omega)]
  rw [hlen]
  congr 1
  omega

/-! ## Claim C8: the match-finder hash -/

/-- C8: the hash is the Knuth multiplicative hash
`h(v) = ((v * 2654435769) mod 2^32) >>> 19` (32-bit wrapping multiplication,
shift by `32 - 13 = 19`), and it takes the spec's seven listed values. -/
theorem c8_hash_function :
    (∀ v : Nat, fastlz_hash v = ((v * 2654435769) % 2 ^ 32) >>> 19) ∧
    fastlz_hash 1 = 5062 ∧ fastlz_hash 2 = 1933 ∧ fastlz_hash 3 = 6996 ∧
    fastlz_hash 4 = 3867 ∧ fastlz_hash 170 = 538 ∧ fastlz_hash 187 = 4688 ∧
    fastlz_hash 255 = 4904 := by
  refine ⟨fun v => by norm_num [fastlz_hash], by decide, by decide, by decide, by decide,
    by decide, by decide, by decide⟩

/-! ## Claim C7: decompressor entry dispatch -/

/-- C7: the decompressor entry point returns success with no output for empty
input; for nonempty input it dispatches on the top three bits of the first
byte: 0 runs the level-1 decoder, 1 the level-2 decoder, and anything else
returns `InvalidCompressionLevel` with the sink untouched. -/
theorem c7_dispatch (σ : Type) (D : DSink σ) (s : σ) (c : Nat) (r : List Nat) :
    decompress_impl D ([] : List Nat) s = (s, none) ∧
    (c >>> 5 = 0 → decompress_impl D (c :: r) s = decompress_lv1 D (c :: r) s) ∧
    (c >>> 5 = 1 → decompress_impl D (c :: r) s = decompress_lv2 D (c :: r) s) ∧
    (2 ≤ c >>> 5 →
      decompress_impl D (c :: r) s = (s, some DecompressError.InvalidCompressionLevel)) := by
  refine ⟨rfl, fun h0 => ?_, fun h1 => ?_, fun h2 => ?_⟩
  · simp [decompress_impl, h0]
  · simp [decompress_impl, h1]
  · have hne0 : ¬(c >>> 5 = 0) := by omega
    have hne1 : ¬(c >>> 5 = 1) := by omega
    simp [decompress_impl, hne0, hne1]

/-- Witness for C7 at concrete inputs: `[0x47]` has top bits `010` and is
rejected with no output; `[0x01, 7]` (top bits `000`) runs the level-1
decoder. -/
theorem c7_dispatch_witness :
    decompress_impl vecDSink ([] : List Nat) [] = ([], none) ∧
    (2 ≤ 71 >>> 5 ∧
      decompress_impl vecDSink [71] [] = ([], some DecompressError.InvalidCompressionLevel)) ∧
    decompress_impl vecDSink [1, 7] [] = decompress_lv1 vecDSink [1, 7] [] :=
  ⟨(c7_dispatch _ vecDSink [] 71 []).1,
    ⟨by decide, (c7_dispatch _ vecDSink [] 71 []).2.2.2 (by decide)⟩,
    (c7_dispatch _ vecDSink [] 1 [7]).2.1 (by decide)⟩

/-! ## Claim C6: decoder `put_backref` semantics -/

/-- C6: for both decoder sinks, `put_backref` fails with
`InvalidBackreference` exactly when `disp + 1` exceeds the bytes already
written, leaving the sink unchanged; otherwise it copies forward one byte at a
time from `disp + 1` positions back, so each written byte equals the byte
`disp + 1` before it in the final output (the overlapping repeating-pattern
semantics).  On the bounded sink the copy is truncated at the capacity. -/
theorem c6_put_backref (st : BufOutput) (v : List Nat) (disp len : Nat)
    (hpos : st.pos ≤ st.buf.length) :
    ((BufOutput.put_backref st disp len).2 = some DecompressError.InvalidBackreference ↔
      disp + 1 > st.pos) ∧
    (disp + 1 > st.pos → BufOutput.put_backref st disp len = (st, some DecompressError.InvalidBackreference)) ∧
    ((vecPutBackref v disp len).2 = some DecompressError.InvalidBackreference ↔
      disp + 1 > v.length) ∧
    (disp + 1 > v.length → vecPutBackref v disp len = (v, some DecompressError.InvalidBackreference)) ∧
    (disp + 1 ≤ v.length →
      (vecPutBackref v disp len).2 = none ∧
      (vecPutBackref v disp len).1.length = v.length + len ∧
      (∀ j, j < v.length → (vecPutBackref v disp len).1.getD j 0 = v.getD j 0) ∧
      (∀ k, k < len → (vecPutBackref v disp len).1.getD (v.length + k) 0 =
        (vecPutBackref v disp len).1.getD (v.length + k - (disp + 1)) 0)) ∧
    (disp + 1 ≤ st.pos → st.pos + len ≤ st.buf.length →
      (BufOutput.put_backref st disp len).2 = none ∧
      (BufOutput.put_backref st disp len).1.pos = st.pos + len ∧
      (BufOutput.put_backref st disp len).1.buf.length = st.buf.length ∧
      (∀ k, k < len → (BufOutput.put_backref st disp len).1.buf.getD (st.pos + k) 0 =
        (BufOutput.put_backref st disp len).1.buf.getD (st.pos + k - (disp + 1)) 0)) := by
  constructor
  · rw [BufOutput.put_backref]
    by_cases h : disp + 1 > st.pos
    · simp [h]
    · simp only [if_neg h]
      by_cases h2 : st.pos + len > st.buf.length <;> simp [h2, h]
  constructor
  · intro h
    rw [BufOutput.put_backref, if_pos h]
  constructor
  · rw [vecPutBackref]
    by_cases h : disp + 1 > v.length <;> simp [h]
  constructor
  · intro h
    rw [vecPutBackref, if_pos h]
  constructor
  · intro h
    rw [vecPutBackref, if_neg (by omega)]
    refine ⟨rfl, ?_, ?_, ?_⟩
    · simp [brCopy_length]
    · intro j hj
      rw [brCopy_getD_outside _ _ _ _ _ (Or.inl hj)]
      rw [List.getD_append _ _ _ _ hj]
    · intro k hk
      have := brCopy_getD_copied len (v ++ List.replicate len 0) (v.length - disp - 1) v.length
        (by omega) (by simp) k hk
      rw [this]
      congr 1
      omega
  · intro h hcap
    rw [BufOutput.put_backref, if_neg (by omega), if_neg (by omega)]
    refine ⟨rfl, rfl, by simp [brCopy_length], ?_⟩
    intro k hk
    have := brCopy_getD_copied len st.buf (st.pos - disp - 1) st.pos (by omega) (by omega) k hk
    rw [this]
    congr 1
    omega

/-- Witness for C6 at a concrete state: three bytes written into a bounded
buffer of five, an overlapping copy `disp = 0, len = 2`, and a growable sink
`[1, 2, 3]` with `disp = 1, len = 4`. -/
theorem c6_put_backref_witness :
    (3 : Nat) ≤ ([9, 9, 9, 0, 0] : List Nat).length ∧
    ((BufOutput.put_backref ⟨3, [9, 9, 9, 0, 0]⟩ 5 2).2 = some DecompressError.InvalidBackreference ↔
      5 + 1 > 3) ∧
    ((vecPutBackref [1, 2, 3] 1 4).2 = none ∧ (vecPutBackref [1, 2, 3] 1 4).1.length = 3 + 4) :=
  ⟨by decide,
    (by
      have h := c6_put_backref ⟨3, [9, 9, 9, 0, 0]⟩ [1, 2, 3] 5 2 (by decide)
      exact h.1),
    (by
      have h := c6_put_backref ⟨3, [9, 9, 9, 0, 0]⟩ [1, 2, 3] 1 4 (by decide)
      exact ⟨(h.2.2.2.2.1 (by decide)).1, (h.2.2.2.2.1 (by decide)).2.1⟩)⟩

/-! ## Claim C9: bounded-sink cursor invariant -/

/-- C9: for the bounded sinks of both the compressor (`putc`, `put_buf`) and
the decompressor (`put_lits`, `put_backref`), the invariant
`pos ≤ buf.length` holds initially (`pos = 0`) and is preserved by every
operation, whether it succeeds or reports an error; the capacity
(`buf.length`) never changes, and the cursor advances by exactly the number
of bytes the operation wrote (`min(requested, capacity - pos)`, zero for a
rejected backreference), so `pos` counts the bytes written so far and the
internal `buf.len() - pos` subtractions never underflow. -/
theorem c9_bounded_sink_invariant (st : BufOutput) (c : Nat) (b lits : List Nat)
    (disp len : Nat) (hpos : st.pos ≤ st.buf.length) :
    (BufOutput.mk 0 b).pos ≤ (BufOutput.mk 0 b).buf.length ∧
    ((st.putc c).1.pos ≤ (st.putc c).1.buf.length ∧
      (st.putc c).1.buf.length = st.buf.length ∧
      (st.putc c).1.pos = st.pos + min 1 (st.buf.length - st.pos)) ∧
    ((st.put_buf b).1.pos ≤ (st.put_buf b).1.buf.length ∧
      (st.put_buf b).1.buf.length = st.buf.length ∧
      (st.put_buf b).1.pos = st.pos + min b.length (st.buf.length - st.pos)) ∧
    ((st.put_lits lits).1.pos ≤ (st.put_lits lits).1.buf.length ∧
      (st.put_lits lits).1.buf.length = st.buf.length ∧
      (st.put_lits lits).1.pos = st.pos + min lits.length (st.buf.length - st.pos)) ∧
    ((st.put_backref disp len).1.pos ≤ (st.put_backref disp len).1.buf.length ∧
      (st.put_backref disp len).1.buf.length = st.buf.length ∧
      (st.put_backref disp len).1.pos =
        st.pos + (if disp + 1 > st.pos then 0 else min len (st.buf.length - st.pos))) := by
  refine ⟨by simp, ?_, ?_, ?_, ?_⟩
  · rw [BufOutput.putc]
    by_cases h : st.pos + 1 ≤ st.buf.length
    · simp only [if_pos h]
      refine ⟨by simp; omega, by simp, by omega⟩
    · simp only [if_neg h]
      refine ⟨hpos, by simp, by omega⟩
  · rw [BufOutput.put_buf]
    by_cases h : st.pos + b.length > st.buf.length
    · simp only [if_pos h]
      have hl : (setRange st.buf st.pos (b.take (st.buf.length - st.pos))).length = st.buf.length :=
        setRange_length _ _ _ (by simp; omega)
      refine ⟨by simp [hl]; omega, by simp [hl], by simp; omega⟩
    · simp only [if_neg h]
      have hl : (setRange st.buf st.pos b).length = st.buf.length :=
        setRange_length _ _ _ (by omega)
      refine ⟨by simp [hl]; omega, by simp [hl], by simp; omega⟩
  · rw [BufOutput.put_lits]
    by_cases h : st.pos + lits.length > st.buf.length
    · simp only [if_pos h]
      have hl : (setRange st.buf st.pos (lits.take (st.buf.length - st.pos))).length = st.buf.length :=
        setRange_length _ _ _ (by simp; omega)
      refine ⟨by simp [hl]; omega, by simp [hl], by simp; omega⟩
    · simp only [if_neg h]
      have hl : (setRange st.buf st.pos lits).length = st.buf.length :=
        setRange_length _ _ _ (by omega)
      refine ⟨by simp [hl]; omega, by simp [hl], by simp; omega⟩
  · rw [BufOutput.put_backref]
    by_cases hd : disp + 1 > st.pos
    · simp only [if_pos hd]
      refine ⟨hpos, by simp, by simp [hd]⟩
    · simp only [if_neg hd]
      by_cases h : st.pos + len > st.buf.length
      · simp only [if_pos h]
        refine ⟨by simp [brCopy_length]; omega, by simp [brCopy_length], by simp [hd]; omega⟩
      · simp only [if_neg h]
        refine ⟨by simp [brCopy_length]; omega, by simp [brCopy_length], by simp [hd]; omega⟩

/-- Witness for C9 at a concrete state (`pos = 1`, capacity 2, an overflowing
`put_buf`). -/
theorem c9_bounded_sink_invariant_witness :
    (1 : Nat) ≤ ([5, 0] : List Nat).length ∧
    ((BufOutput.mk 1 [5, 0]).put_buf [7, 8]).1.pos ≤
      ((BufOutput.mk 1 [5, 0]).put_buf [7, 8]).1.buf.length ∧
    ((BufOutput.mk 1 [5, 0]).put_buf [7, 8]).1.pos = 1 + min 2 (2 - 1) :=
  ⟨by decide,
    (c9_bounded_sink_invariant ⟨1, [5, 0]⟩ 0 [7, 8] [] 0 0 (by decide)).2.2.1.1,
    (c9_bounded_sink_invariant ⟨1, [5, 0]⟩ 0 [7, 8] [] 0 0 (by decide)).2.2.1.2.2⟩

/-! ## Claim C5: level-1 backreference chunking (corrected) -/

/-- The level-1 chunk loop decomposition: for `len > 264` the writer emits
some positive number `k` of identical maximal three-byte chunks, each
advancing `len` by `0xFF - 2 + 9 = 262` (not 264), leaving a residual final
backreference of length `r ∈ [3, 264]`. -/
theorem l1RefBytes_chunks : ∀ (n : Nat), 264 < n → ∀ (d : Nat),
    ∃ k r, 1 ≤ k ∧ 3 ≤ r ∧ r ≤ 264 ∧ n = 262 * k + r ∧
      l1RefBytes d n =
        (List.replicate k [224 ||| ((d >>> 8) % 256), 253, d % 256]).join ++ l1RefBytes d r := by
  intro n
  induction n using Nat.strong_induction_on with
  | _ n ih =>
    intro hn d
    rw [l1RefBytes, if_pos (by omega : n > 255 + 9)]
    by_cases h : 264 < n - (255 - 2 + 9)
    · obtain ⟨k, r, hk, hr3, hr264, hsum, heq⟩ := ih (n - (255 - 2 + 9)) (by omega) h d
      refine ⟨k + 1, r, by omega, hr3, hr264, by omega, ?_⟩
      rw [heq]
      simp [List.replicate_succ]
    · refine ⟨1, n - 262, by omega, by omega, by omega, by omega, ?_⟩
      have : n - (255 - 2 + 9) = n - 262 := by omega
      rw [this]
      simp [List.replicate_succ]

/-- C5 counterexample: the claim's arithmetic `0xFF - 2 + 9 = 264` is wrong.
`put_backref(1, 265)` emits `[0xE0, 0xFD, 0x01, 0x20, 0x01]`: the maximal
chunk encodes length `0xFD + 9 = 262`, and the residual record `[0x20, 0x01]`
encodes length 3 = 265 - 262; under the claimed advance of 264 the residual
would be 1, which is not even encodable (minimum 3). -/
theorem c5_chunk_advance_counterexample :
    (l1_put_backref vecCSink [] 1 265).1 = [224, 253, 1, 32, 1] ∧
    253 + 9 = 262 ∧ 265 - 262 = 3 ∧ ¬(253 + 9 = 264) := by
  refine ⟨?_, by norm_num, by norm_num, by norm_num⟩
  rw [l1_put_backref_vec]
  simp [l1RefBytes]

/-- C5 amended: for every `disp ≤ 8191` and `len > 264`, the level-1 writer
emits `k ≥ 1` identical maximal chunks with the same displacement, each
advancing `len` by `0xFF - 2 + 9 = 262` bytes, and the residual final chunk
length lies in `[3, 264]`. -/
theorem c5_l1_chunking (d n : Nat) (hd : d ≤ 8191) (hn : 264 < n) :
    ∃ k r, 1 ≤ k ∧ 3 ≤ r ∧ r ≤ 264 ∧ n = 262 * k + r ∧
      (l1_put_backref vecCSink [] d n).1 =
        (List.replicate k [224 ||| ((d >>> 8) % 256), 253, d % 256]).join
          ++ (l1_put_backref vecCSink [] d r).1 := by
  obtain ⟨k, r, hk, hr3, hr264, hsum, heq⟩ := l1RefBytes_chunks n hn d
  refine ⟨k, r, hk, hr3, hr264, hsum, ?_⟩
  rw [l1_put_backref_vec, l1_put_backref_vec]
  simpa using heq

/-- Witness for C5 at `disp = 1`, `len = 527` (two maximal chunks, residual
3). -/
theorem c5_l1_chunking_witness :
    (1 : Nat) ≤ 8191 ∧ 264 < 527 ∧
    ∃ k r, 1 ≤ k ∧ 3 ≤ r ∧ r ≤ 264 ∧ 527 = 262 * k + r ∧
      (l1_put_backref vecCSink [] 1 527).1 =
        (List.replicate k [224 ||| ((1 >>> 8) % 256), 253, 1 % 256]).join
          ++ (l1_put_backref vecCSink [] 1 r).1 :=
  ⟨by decide, by decide, c5_l1_chunking 1 527 (by decide) (by decide)⟩

/-! ## Claim C3: level-2 displacement-extension bytes (corrected) -/

/-- Modelled from the spec: the claim's reading of the level-2 decoder, in
which the two big-endian displacement-extension bytes are read only in a long
backreference record (top three bits `0b111` with `(byte0 & 0x1F) = 0x1F` and
`disp_lo = 0xFF`), and never in a short record.  This definition follows the
spec's words and deviates from src/decompress.rs `decompress_lv2`, which
reads the extension bytes whenever the assembled 13-bit displacement equals
`0x1FFF`, for short records as well. -/
def lv2LoopSpec (D : DSink σ) (ctrl : Nat) (inp : List Nat) (s : σ) : σ × Option DecompressError :=
  if ctrl >>> 5 = 0 then
    let len := (ctrl &&& 31) + 1
    if inp.length < len then (s, some .InputTruncated)
    else
      match D.put_lits s (inp.take len) with
      | (s1, some e) => (s1, some e)
      | (s1, none) =>
        match h2 : inp.drop len with
        | [] => (s1, none)
        | c :: rest => lv2LoopSpec D c rest s1
  else
    match hx : (if ctrl >>> 5 = 7 then readExtLen inp ((ctrl >>> 5) + 2)
                else some ((ctrl >>> 5) + 2, inp)) with
    | none => (s, some .InputTruncated)
    | some (len, inp1) =>
      match inp1 with
      | [] => (s, some .InputTruncated)
      | lo :: inp2 =>
        if ctrl >>> 5 = 7 ∧ ctrl &&& 31 = 31 ∧ lo = 255 then
          match inp2 with
          | hi :: lo2 :: inp3 =>
            match D.put_backref s (8191 + ((hi <<< 8) ||| lo2)) len with
            | (s1, some e) => (s1, some e)
            | (s1, none) =>
              match inp3 with
              | [] => (s1, none)
              | c :: rest => lv2LoopSpec D c rest s1
          | _ => (s, some .InputTruncated)
        else
          match D.put_backref s (((ctrl &&& 31) <<< 8) ||| lo) len with
          | (s1, some e) => (s1, some e)
          | (s1, none) =>
            match inp2 with
            | [] => (s1, none)
            | c :: rest => lv2LoopSpec D c rest s1
termination_by inp.length
decreasing_by
  · have hd : (inp.drop len).length = inp.length - len := by simp
    rw [h2] at hd
    simp at hd ⊢
    omega
  · split at hx
    · have hL := readExtLen_length _ _ _ _ hx
      simp at hL ⊢
      omega
    · cases hx
      simp
      omega
  · split at hx
    · have hL := readExtLen_length _ _ _ _ hx
      simp at hL ⊢
      omega
    · cases hx
      simp
      omega

/-- Modelled from the spec: the level-2 decoder as the claim describes it
(see `lv2LoopSpec`). -/
def decompress_lv2_spec (D : DSink σ) (inp : List Nat) (s : σ) : σ × Option DecompressError :=
  match inp with
  | [] => (s, some .InputTruncated)
  | c :: rest => lv2LoopSpec D (c &&& 31) rest s

/-! ## Single-record unfolding lemmas for the decoder loops -/

/-- The trailing `if let Ok(c) = inp.getc()` step of the level-1 decoder
loop: stop successfully at end of input, otherwise read the next control
byte and continue. -/
def lv1Cont (D : DSink σ) (inp : List Nat) (s : σ) : σ × Option DecompressError :=
  match inp with
  | [] => (s, none)
  | c :: r => lv1Loop D c r s

/-- The trailing control-byte step of the level-2 decoder loop. -/
def lv2Cont (D : DSink σ) (inp : List Nat) (s : σ) : σ × Option DecompressError :=
  match inp with
  | [] => (s, none)
  | c :: r => lv2Loop D c r s

/-- One literal-run record of the level-1 decoder. -/
theorem lv1Loop_lit (D : DSink σ) (ctrl : Nat) (inp : List Nat) (s : σ)
    (h0 : ctrl >>> 5 = 0) (hl : (ctrl &&& 31) + 1 ≤ inp.length) :
    lv1Loop D ctrl inp s =
      match D.put_lits s (inp.take ((ctrl &&& 31) + 1)) with
      | (s1, some e) => (s1, some e)
      | (s1, none) => lv1Cont D (inp.drop ((ctrl &&& 31) + 1)) s1 := by
  rw [lv1Loop.eq_def, if_pos h0, if_neg (by omega : ¬inp.length < (ctrl &&& 31) + 1)]
  rcases hput : D.put_lits s (inp.take ((ctrl &&& 31) + 1)) with ⟨s1, e⟩
  cases e with
  | some e => simp
  | none =>
    simp only
    generalize inp.drop ((ctrl &&& 31) + 1) = tail
    cases tail with
    | nil => rw [lv1Cont]
    | cons c r => rw [lv1Cont]

/-- A truncated literal run fails with `InputTruncated`. -/
theorem lv1Loop_lit_trunc (D : DSink σ) (ctrl : Nat) (inp : List Nat) (s : σ)
    (h0 : ctrl >>> 5 = 0) (hl : inp.length < (ctrl &&& 31) + 1) :
    lv1Loop D ctrl inp s = (s, some DecompressError.InputTruncated) := by
  rw [lv1Loop.eq_def, if_pos h0, if_pos hl]

/-- One short backreference record of the level-1 decoder. -/
theorem lv1Loop_short (D : DSink σ) (ctrl lo : Nat) (rest : List Nat) (s : σ)
    (h1 : ctrl >>> 5 ≠ 0) (h7 : ctrl >>> 5 ≠ 7) :
    lv1Loop D ctrl (lo :: rest) s =
      match D.put_backref s (((ctrl &&& 31) <<< 8) ||| lo) ((ctrl >>> 5) + 2) with
      | (s1, some e) => (s1, some e)
      | (s1, none) => lv1Cont D rest s1 := by
  rw [lv1Loop.eq_def, if_neg h1, if_neg h7]
  simp only
  rcases hput : D.put_backref s (((ctrl &&& 31) <<< 8) ||| lo) ((ctrl >>> 5) + 2) with ⟨s1, e⟩
  cases e with
  | some e => simp
  | none =>
    simp only
    cases rest with
    | nil => rw [lv1Cont]
    | cons c r => rw [lv1Cont]

/-- One long backreference record of the level-1 decoder. -/
theorem lv1Loop_long (D : DSink σ) (ctrl b lo : Nat) (rest : List Nat) (s : σ)
    (h7 : ctrl >>> 5 = 7) :
    lv1Loop D ctrl (b :: lo :: rest) s =
      match D.put_backref s (((ctrl &&& 31) <<< 8) ||| lo) (b + 9) with
      | (s1, some e) => (s1, some e)
      | (s1, none) => lv1Cont D rest s1 := by
  rw [lv1Loop.eq_def, if_neg (by omega : ¬ctrl >>> 5 = 0), if_pos h7]
  simp only
  rcases hput : D.put_backref s (((ctrl &&& 31) <<< 8) ||| lo) (b + 9) with ⟨s1, e⟩
  cases e with
  | some e => simp
  | none =>
    simp only
    cases rest with
    | nil => rw [lv1Cont]
    | cons c r => rw [lv1Cont]

/-- One literal-run record of the level-2 decoder. -/
theorem lv2Loop_lit (D : DSink σ) (ctrl : Nat) (inp : List Nat) (s : σ)
    (h0 : ctrl >>> 5 = 0) (hl : (ctrl &&& 31) + 1 ≤ inp.length) :
    lv2Loop D ctrl inp s =
      match D.put_lits s (inp.take ((ctrl &&& 31) + 1)) with
      | (s1, some e) => (s1, some e)
      | (s1, none) => lv2Cont D (inp.drop ((ctrl &&& 31) + 1)) s1 := by
  rw [lv2Loop.eq_def, if_pos h0, if_neg (by omega : ¬inp.length < (ctrl &&& 31) + 1)]
  rcases hput : D.put_lits s (inp.take ((ctrl &&& 31) + 1)) with ⟨s1, e⟩
  cases e with
  | some e => simp
  | none =>
    simp only
    generalize inp.drop ((ctrl &&& 31) + 1) = tail
    cases tail with
    | nil => rw [lv2Cont]
    | cons c r => rw [lv2Cont]

/-- One short backreference record of the level-2 decoder whose displacement
field is not the saturated value 8191: it consumes exactly the low
displacement byte. -/
theorem lv2Loop_near (D : DSink σ) (ctrl lo : Nat) (rest : List Nat) (s : σ)
    (h1 : ctrl >>> 5 ≠ 0) (h7 : ctrl >>> 5 ≠ 7)
    (hd : ((ctrl &&& 31) <<< 8) ||| lo ≠ 8191) :
    lv2Loop D ctrl (lo :: rest) s =
      match D.put_backref s (((ctrl &&& 31) <<< 8) ||| lo) ((ctrl >>> 5) + 2) with
      | (s1, some e) => (s1, some e)
      | (s1, none) => lv2Cont D rest s1 := by
  rw [lv2Loop.eq_def]
  simp only [if_neg h1]
  split
  · rename_i hx
    rw [if_neg h7] at hx
    exact absurd hx (by simp)
  · rename_i len inp1 hx
    rw [if_neg h7] at hx
    injection hx with hpair
    injection hpair with hlen hinp
    subst hlen
    subst hinp
    simp only [if_neg hd]
    rcases hput : D.put_backref s (((ctrl &&& 31) <<< 8) ||| lo) ((ctrl >>> 5) + 2) with ⟨s1, e⟩
    cases e with
    | some e => simp
    | none =>
      simp only
      cases rest with
      | nil => rw [lv2Cont]
      | cons c r => rw [lv2Cont]

/-- One short backreference record of the level-2 decoder whose displacement
field is the saturated value 8191: the decoder additionally consumes two
big-endian displacement-extension bytes and adds them to the displacement. -/
theorem lv2Loop_far (D : DSink σ) (ctrl lo hi lo2 : Nat) (rest : List Nat) (s : σ)
    (h1 : ctrl >>> 5 ≠ 0) (h7 : ctrl >>> 5 ≠ 7)
    (hd : ((ctrl &&& 31) <<< 8) ||| lo = 8191) :
    lv2Loop D ctrl (lo :: hi :: lo2 :: rest) s =
      match D.put_backref s (8191 + ((hi <<< 8) ||| lo2)) ((ctrl >>> 5) + 2) with
      | (s1, some e) => (s1, some e)
      | (s1, none) => lv2Cont D rest s1 := by
  rw [lv2Loop.eq_def]
  simp only [if_neg h1]
  split
  · rename_i hx
    rw [if_neg h7] at hx
    exact absurd hx (by simp)
  · rename_i len inp1 hx
    rw [if_neg h7] at hx
    injection hx with hpair
    injection hpair with hlen hinp
    subst hlen
    subst hinp
    simp only [if_pos hd]
    rcases hput : D.put_backref s (8191 + ((hi <<< 8) ||| lo2)) ((ctrl >>> 5) + 2) with ⟨s1, e⟩
    cases e with
    | some e => simp
    | none =>
      simp only
      cases rest with
      | nil => rw [lv2Cont]
      | cons c r => rw [lv2Cont]

/-- One long backreference record of the level-2 decoder (with length
extension) whose displacement field is not saturated. -/
theorem lv2Loop_long (D : DSink σ) (ctrl lo len : Nat) (inp rest : List Nat) (s : σ)
    (h7 : ctrl >>> 5 = 7)
    (hext : readExtLen inp ((ctrl >>> 5) + 2) = some (len, lo :: rest))
    (hd : ((ctrl &&& 31) <<< 8) ||| lo ≠ 8191) :
    lv2Loop D ctrl inp s =
      match D.put_backref s (((ctrl &&& 31) <<< 8) ||| lo) len with
      | (s1, some e) => (s1, some e)
      | (s1, none) => lv2Cont D rest s1 := by
  rw [lv2Loop.eq_def]
  simp only [if_neg (by omega : ¬ctrl >>> 5 = 0)]
  split
  · rename_i hx
    rw [if_pos h7, hext] at hx
    exact absurd hx (by simp)
  · rename_i len1 inp1 hx
    rw [if_pos h7, hext] at hx
    injection hx with hpair
    injection hpair with hlen hinp
    subst hlen
    subst hinp
    simp only [if_neg hd]
    rcases hput : D.put_backref s (((ctrl &&& 31) <<< 8) ||| lo) len with ⟨s1, e⟩
    cases e with
    | some e => simp
    | none =>
      simp only
      cases rest with
      | nil => rw [lv2Cont]
      | cons c r => rw [lv2Cont]

/-- One long backreference record of the level-2 decoder with saturated
displacement field: both the length-extension bytes and the two
displacement-extension bytes are consumed. -/
theorem lv2Loop_long_far (D : DSink σ) (ctrl lo hi lo2 len : Nat) (inp rest : List Nat) (s : σ)
    (h7 : ctrl >>> 5 = 7)
    (hext : readExtLen inp ((ctrl >>> 5) + 2) = some (len, lo :: hi :: lo2 :: rest))
    (hd : ((ctrl &&& 31) <<< 8) ||| lo = 8191) :
    lv2Loop D ctrl inp s =
      match D.put_backref s (8191 + ((hi <<< 8) ||| lo2)) len with
      | (s1, some e) => (s1, some e)
      | (s1, none) => lv2Cont D rest s1 := by
  rw [lv2Loop.eq_def]
  simp only [if_neg (by omega : ¬ctrl >>> 5 = 0)]
  split
  · rename_i hx
    rw [if_pos h7, hext] at hx
    exact absurd hx (by simp)
  · rename_i len1 inp1 hx
    rw [if_pos h7, hext] at hx
    injection hx with hpair
    injection hpair with hlen hinp
    subst hlen
    subst hinp
    simp only [if_pos hd]
    rcases hput : D.put_backref s (8191 + ((hi <<< 8) ||| lo2)) len with ⟨s1, e⟩
    cases e with
    | some e => simp
    | none =>
      simp only
      cases rest with
      | nil => rw [lv2Cont]
      | cons c r => rw [lv2Cont]

/-- Projection of `put_lits` for the growable decoder sink. -/
theorem vecDSink_put_lits (v l : List Nat) : vecDSink.put_lits v l = (v ++ l, none) := rfl

/-- Projection of `put_backref` for the growable decoder sink. -/
theorem vecDSink_put_backref (v : List Nat) (d n : Nat) :
    vecDSink.put_backref v d n = vecPutBackref v d n := rfl

/-- A short level-2 backreference with saturated displacement field but fewer
than two remaining bytes fails with `InputTruncated` (the decoder insists on
reading the two extension bytes). -/
theorem lv2Loop_far_trunc (D : DSink σ) (ctrl lo : Nat) (inp2 : List Nat) (s : σ)
    (h1 : ctrl >>> 5 ≠ 0) (h7 : ctrl >>> 5 ≠ 7)
    (hd : ((ctrl &&& 31) <<< 8) ||| lo = 8191) (hlen : inp2.length < 2) :
    lv2Loop D ctrl (lo :: inp2) s = (s, some DecompressError.InputTruncated) := by
  rw [lv2Loop.eq_def]
  simp only [if_neg h1]
  split
  · rename_i hx
    rw [if_neg h7] at hx
  · rename_i len inp1 hx
    rw [if_neg h7] at hx
    injection hx with hpair
    injection hpair with hlen2 hinp
    subst hlen2
    subst hinp
    simp only [if_pos hd]
    cases inp2 with
    | nil => simp
    | cons hi t =>
      cases t with
      | nil => simp
      | cons lo2 t2 => exact absurd hlen (by simp)

/-- One literal-run record of the spec-modelled level-2 decoder. -/
theorem lv2LoopSpec_lit (D : DSink σ) (ctrl : Nat) (inp : List Nat) (s : σ)
    (h0 : ctrl >>> 5 = 0) (hl : (ctrl &&& 31) + 1 ≤ inp.length) :
    lv2LoopSpec D ctrl inp s =
      match D.put_lits s (inp.take ((ctrl &&& 31) + 1)) with
      | (s1, some e) => (s1, some e)
      | (s1, none) =>
        match inp.drop ((ctrl &&& 31) + 1) with
        | [] => (s1, none)
        | c :: r => lv2LoopSpec D c r s1 := by
  rw [lv2LoopSpec.eq_def, if_pos h0, if_neg (by omega : ¬inp.length < (ctrl &&& 31) + 1)]
  rcases hput : D.put_lits s (inp.take ((ctrl &&& 31) + 1)) with ⟨s1, e⟩
  cases e with
  | some e => simp
  | none =>
    simp only
    generalize inp.drop ((ctrl &&& 31) + 1) = tail
    cases tail with
    | nil => simp
    | cons c r => simp

/-- A short backreference record of the spec-modelled level-2 decoder never
reads displacement-extension bytes, saturated field or not. -/
theorem lv2LoopSpec_short (D : DSink σ) (ctrl lo : Nat) (rest : List Nat) (s : σ)
    (h1 : ctrl >>> 5 ≠ 0) (h7 : ctrl >>> 5 ≠ 7) :
    lv2LoopSpec D ctrl (lo :: rest) s =
      match D.put_backref s (((ctrl &&& 31) <<< 8) ||| lo) ((ctrl >>> 5) + 2) with
      | (s1, some e) => (s1, some e)
      | (s1, none) =>
        match rest with
        | [] => (s1, none)
        | c :: r => lv2LoopSpec D c r s1 := by
  rw [lv2LoopSpec.eq_def]
  simp only [if_neg h1]
  split
  · rename_i hx
    rw [if_neg h7] at hx
    exact absurd hx (by simp)
  · rename_i len inp1 hx
    rw [if_neg h7] at hx
    injection hx with hpair
    injection hpair with hlen hinp
    subst hlen
    subst hinp
    simp only [if_neg (by simp [h7] : ¬(ctrl >>> 5 = 7 ∧ ctrl &&& 31 = 31 ∧ lo = 255))]
    rcases hput : D.put_backref s (((ctrl &&& 31) <<< 8) ||| lo) ((ctrl >>> 5) + 2) with ⟨s1, e⟩
    cases e with
    | some e => simp
    | none =>
      simp only
      cases rest with
      | nil => simp
      | cons c r => simp

/-- C3 counterexample: on the level-2 stream `[0x20, 'A', 0x3F, 0xFF]` the
final record `[0x3F, 0xFF]` is a short backreference (top three bits `001`)
whose two bytes are fully present, yet the real decoder assembles the
displacement field `0x1FFF` and demands two further displacement-extension
bytes, failing with `InputTruncated`; a decoder behaving as the claim states
(the spec-modelled `decompress_lv2_spec`, which reads extension bytes only on
long matches) treats the record as complete and fails with
`InvalidBackreference` instead.  Short records therefore do not always occupy
exactly 2 bytes, and the extension bytes are not read only on long matches. -/
theorem c3_counterexample :
    decompress_to_vec [32, 65, 63, 255] = ([65], some DecompressError.InputTruncated) ∧
    decompress_lv2_spec vecDSink [32, 65, 63, 255] ([] : List Nat) =
      ([65], some DecompressError.InvalidBackreference) ∧
    decompress_to_vec [32, 65, 63, 255] ≠
      decompress_lv2_spec vecDSink [32, 65, 63, 255] ([] : List Nat) := by
  have h310 : (32 : Nat) &&& 31 = 0 := by decide
  have e1 : decompress_to_vec [32, 65, 63, 255] = lv2Loop vecDSink 0 [65, 63, 255] [] := by
    simp [decompress_to_vec, decompress_impl, decompress_lv2, h310]
  have e2 : lv2Loop vecDSink 0 [65, 63, 255] ([] : List Nat) =
      lv2Loop vecDSink 63 [255] [65] := by
    rw [lv2Loop_lit vecDSink 0 [65, 63, 255] [] (by decide) (by decide)]
    rw [vecDSink_put_lits]
    simp only
    norm_num
    rw [lv2Cont]
  have e3 : lv2Loop vecDSink 63 [255] ([65] : List Nat) =
      ([65], some DecompressError.InputTruncated) :=
    lv2Loop_far_trunc vecDSink 63 255 [] [65] (by decide) (by decide) (by decide) (by decide)
  have espec : decompress_lv2_spec vecDSink [32, 65, 63, 255] ([] : List Nat) =
      ([65], some DecompressError.InvalidBackreference) := by
    have s1 : decompress_lv2_spec vecDSink [32, 65, 63, 255] ([] : List Nat) =
        lv2LoopSpec vecDSink 0 [65, 63, 255] [] := by
      simp [decompress_lv2_spec, h310]
    have s2 : lv2LoopSpec vecDSink 0 [65, 63, 255] ([] : List Nat) =
        lv2LoopSpec vecDSink 63 [255] [65] := by
      rw [lv2LoopSpec_lit vecDSink 0 [65, 63, 255] [] (by decide) (by decide)]
      rw [vecDSink_put_lits]
      simp only
      norm_num
    have s3 : lv2LoopSpec vecDSink 63 [255] ([65] : List Nat) =
        ([65], some DecompressError.InvalidBackreference) := by
      rw [lv2LoopSpec_short vecDSink 63 255 [] [65] (by decide) (by decide)]
      rw [vecDSink_put_backref]
      have hb : vecPutBackref [65] (((63 &&& 31) <<< 8) ||| 255) ((63 >>> 5) + 2) =
          ([65], some DecompressError.InvalidBackreference) := by decide
      rw [hb]
    rw [s1, s2, s3]
  refine ⟨by rw [e1, e2, e3], espec, ?_⟩
  rw [e1, e2, e3, espec]
  simp

/-- C3 amended: in the level-2 decoder a backreference record reads the two
big-endian displacement-extension bytes exactly when the assembled 13-bit
displacement field equals `0x1FFF = 8191`, for short records (top three bits
`001`..`110`) just as for long ones.  A short record whose displacement field
is not `0x1FFF` consumes exactly one byte after the control byte (2 bytes in
total); one whose field is `0x1FFF` consumes three (4 bytes in total), the
last two being added big-endian to the displacement. -/
theorem c3_short_backref_extension (σ : Type) (D : DSink σ) (s : σ) (ctrl lo hi lo2 : Nat)
    (rest : List Nat) (h1 : 1 ≤ ctrl >>> 5) (h6 : ctrl >>> 5 ≤ 6) :
    ((((ctrl &&& 31) <<< 8) ||| lo) ≠ 8191 →
      lv2Loop D ctrl (lo :: rest) s =
        match D.put_backref s (((ctrl &&& 31) <<< 8) ||| lo) ((ctrl >>> 5) + 2) with
        | (s1, some e) => (s1, some e)
        | (s1, none) => lv2Cont D rest s1) ∧
    ((((ctrl &&& 31) <<< 8) ||| lo) = 8191 →
      lv2Loop D ctrl (lo :: hi :: lo2 :: rest) s =
        match D.put_backref s (8191 + ((hi <<< 8) ||| lo2)) ((ctrl >>> 5) + 2) with
        | (s1, some e) => (s1, some e)
        | (s1, none) => lv2Cont D rest s1) :=
  ⟨fun hd => lv2Loop_near D ctrl lo rest s (by omega) (by omega) hd,
   fun hd => lv2Loop_far D ctrl lo hi lo2 rest s (by omega) (by omega) hd⟩

/-- Witness for C3 (amended) at concrete records: control byte `0x21` (short,
length 3) with `lo = 1` consumes only that byte; control byte `0x3F` with
`lo = 0xFF` assembles displacement `0x1FFF` and also consumes the extension
bytes `[0x01, 0x00]`. -/
theorem c3_short_backref_extension_witness :
    ((1 ≤ 33 >>> 5 ∧ 33 >>> 5 ≤ 6 ∧ (((33 &&& 31) <<< 8) ||| 1) ≠ 8191) ∧
      lv2Loop vecDSink 33 [1] [65, 66] =
        match vecDSink.put_backref [65, 66] (((33 &&& 31) <<< 8) ||| 1) ((33 >>> 5) + 2) with
        | (s1, some e) => (s1, some e)
        | (s1, none) => lv2Cont vecDSink [] s1) ∧
    ((1 ≤ 63 >>> 5 ∧ 63 >>> 5 ≤ 6 ∧ (((63 &&& 31) <<< 8) ||| 255) = 8191) ∧
      lv2Loop vecDSink 63 [255, 1, 0] [65, 66] =
        match vecDSink.put_backref [65, 66] (8191 + ((1 <<< 8) ||| 0)) ((63 >>> 5) + 2) with
        | (s1, some e) => (s1, some e)
        | (s1, none) => lv2Cont vecDSink [] s1) :=
  ⟨⟨⟨by decide, by decide, by decide⟩,
    (c3_short_backref_extension _ vecDSink [65, 66] 33 1 0 0 [] (by decide) (by decide)).1
      (by decide)⟩,
   ⟨⟨by decide, by decide, by decide⟩,
    (c3_short_backref_extension _ vecDSink [65, 66] 63 255 1 0 [] (by decide) (by decide)).2
      (by decide)⟩⟩

/-! ## The record trace of the compression loop -/

/-- An emitted compression record: a literal run or a backreference. -/
inductive FRec where
  | lit (l : List Nat)
  | ref (disp len : Nat)
deriving DecidableEq, Repr

/-- The record writer: an instance of the writer interface that simply logs
the emitted records (it shares the main loop with the byte writers, whose
behaviour is recovered from the log by `runRecs`). -/
def recWriter (maxd : Nat) (lv2 : Bool) : CWriter (List FRec) :=
  ⟨fun s l => (s ++ [FRec.lit l], none),
   fun s d n => (s ++ [FRec.ref d n], none),
   maxd, lv2, fun s => s⟩

/-- Emit a single record through a writer. -/
def emitRec (W : CWriter σ) (s : σ) : FRec → σ × Option CompressError
  | .lit l => W.put_lits s l
  | .ref d n => W.put_backref s d n

/-- Replay a record list through a writer, aborting at the first error (the
`?` semantics of the Rust code). -/
def runRecs (W : CWriter σ) (s : σ) : List FRec → σ × Option CompressError
  | [] => (s, none)
  | r :: rs =>
    match emitRec W s r with
    | (s1, some e) => (s1, some e)
    | (s1, none) => runRecs W s1 rs

/-- Replaying a concatenation is replaying in sequence. -/
theorem runRecs_append (W : CWriter σ) : ∀ (xs ys : List FRec) (s : σ),
    runRecs W s (xs ++ ys) =
      match runRecs W s xs with
      | (s1, some e) => (s1, some e)
      | (s1, none) => runRecs W s1 ys := by
  intro xs
  induction xs with
  | nil => intro ys s; rfl
  | cons r rs ih =>
    intro ys s
    rw [List.cons_append, runRecs, runRecs]
    rcases emitRec W s r with ⟨s1, e⟩
    cases e with
    | some e => simp
    | none => simp only; rw [ih]

/-! ## Claim C10: hash-table reads stay behind the cursor and in bounds -/

/-- The hash-table invariant of the main loop: every stored entry is strictly
before the cursor, and is either the initial 0 or a position with at least
three readable bytes after it. -/
def HtInv (S : List Nat) (i : Nat) (ht : Nat → Nat) : Prop :=
  ∀ h, ht h < i ∧ (ht h = 0 ∨ ht h + 3 ≤ S.length)

/-- Hash-table entries stay valid when the cursor moves forward. -/
theorem HtInv_mono (S : List Nat) (ht : Nat → Nat) (i j : Nat)
    (hinv : HtInv S i ht) (hij : i ≤ j) : HtInv S j ht := by
  intro h
  have := hinv h
  exact ⟨by omega, this.2⟩

/-- Updating one entry with an in-range position preserves the invariant. -/
theorem HtInv_upd (S : List Nat) (ht : Nat → Nat) (i j k v : Nat)
    (hinv : HtInv S i ht) (hij : i ≤ j) (hv : v < j)
    (hvb : v = 0 ∨ v + 3 ≤ S.length) : HtInv S j (htUpd ht k v) := by
  intro h
  rw [htUpd]
  by_cases hh : h = k
  · simp only [if_pos hh]
    exact ⟨hv, hvb⟩
  · simp only [if_neg hh]
    have := hinv h
    exact ⟨by omega, this.2⟩

/-- The invariant is preserved and every hash-table read passes the loop's
assertion checks: from any state satisfying `HtInv` with `1 ≤ i`, the
instrumentation flag of `compressLoop` is left untouched. -/
theorem compressLoop_ok (W : CWriter σ) (S : List Nat) :
    ∀ (m i anchor : Nat) (ht : Nat → Nat) (s : σ) (ok : Bool),
    S.length - i ≤ m → 1 ≤ i → HtInv S i ht →
    (compressLoop W S i anchor ht s ok).2.2.1 = ok := by
  intro m
  induction m with
  | zero =>
    intro i anchor ht s ok hm h1 hinv
    rw [compressLoop.eq_def, dif_neg (by omega : ¬i + 4 ≤ S.length)]
  | succ m ih =>
    intro i anchor ht s ok hm h1 hinv
    rw [compressLoop.eq_def]
    by_cases h4 : i + 4 ≤ S.length
    · rw [dif_pos h4]
      simp only
      set hashv := fastlz_hash (le4 S i &&& 16777215) with hhash
      set refp := ht hashv with hrefp
      have href := hinv hashv
      have hok1 : (ok && decide (refp < i ∧ refp + 3 ≤ S.length)) = ok := by
        have hc : refp < i ∧ refp + 3 ≤ S.length := by
          refine ⟨href.1, ?_⟩
          rcases href.2 with h | h
          · omega
          · exact h
        simp [hc]
      have hinv1 : HtInv S (i + 1) (htUpd ht hashv i) :=
        HtInv_upd S ht i (i + 1) hashv i hinv (by omega) (by omega) (Or.inr (by omega))
      generalize hM : 3 + matchExt (List.drop (i + 3) S) (List.drop (refp + 3) S) = len0v
      have hM3 : 3 ≤ len0v := by omega
      split
      · -- accepted candidate
        split
        · -- level-2 far-match break
          exact hok1
        · split
          · -- far-match five-byte check failed: advance one byte
            rw [ih (i + 1) anchor _ s _ (by omega) (by omega) hinv1]
            exact hok1
          · -- emit the match
            split
            · -- pending-literal emission failed
              exact hok1
            · rename_i s1 hl
              split
              · -- backreference emission failed
                exact hok1
              · rename_i s2 hb
                split
                · -- far match at end of input: backreference length decremented
                  split
                  · -- straddle rehash and continue
                    rename_i h4b
                    conv_rhs => rw [← hok1]
                    apply ih
                    · omega
                    · omega
                    · refine HtInv_upd S _ (i + (len0v - 1)) (i + (len0v - 1)) _ _ ?_
                        (by omega) (by omega) (Or.inr (by omega))
                      refine HtInv_upd S _ (i + (len0v - 1)) (i + (len0v - 1)) _ _ ?_
                        (by omega) (by omega) (Or.inr (by omega))
                      exact HtInv_mono S _ (i + 1) _ hinv1 (by omega)
                  · -- straddle hashes unavailable: stop
                    exact hok1
                · -- full greedy length
                  split
                  · -- straddle rehash and continue
                    rename_i h4b
                    conv_rhs => rw [← hok1]
                    apply ih
                    · omega
                    · omega
                    · refine HtInv_upd S _ (i + len0v) (i + len0v) _ _ ?_
                        (by omega) (by omega) (Or.inr (by omega))
                      refine HtInv_upd S _ (i + len0v) (i + len0v) _ _ ?_
                        (by omega) (by omega) (Or.inr (by omega))
                      exact HtInv_mono S _ (i + 1) _ hinv1 (by omega)
                  · -- straddle hashes unavailable: stop
                    exact hok1
      · -- candidate rejected: advance one byte
        rw [ih (i + 1) anchor _ s _ (by omega) (by omega) hinv1]
        exact hok1
    · rw [dif_neg h4]

/-- The instrumentation flag of a whole compression run is always true. -/
theorem compress_impl_ok (W : CWriter σ) (S : List Nat) (s : σ) :
    (compress_impl W S s).2.2 = true := by
  rw [compress_impl]
  by_cases h0 : S.length = 0
  · simp [h0]
  · rw [if_neg h0]
    have hloop := compressLoop_ok W S S.length 1 0 (fun _ => 0) s true
      (by omega) (by omega) (fun h => ⟨Nat.zero_lt_one, Or.inl rfl⟩)
    rcases hres : compressLoop W S 1 0 (fun _ => 0) s true with ⟨s1, e, okv, an⟩
    rw [hres] at hloop
    simp only at hloop
    subst hloop
    cases e with
    | some e => simp
    | none =>
      simp only
      by_cases hl : (S.drop an).length > 0
      · rw [if_pos hl]
        rcases W.put_lits s1 (S.drop an) with ⟨s2, e2⟩
        cases e2 <;> simp
      · rw [if_neg hl]

/-- C10: in the compression main loop, at every iteration and for every
input, the value read from the hash table is strictly before the cursor (the
source's `debug_assert!(cur_pos > ref_pos)`) and leaves at least three
readable input bytes, so `cur_pos - ref_pos - 1` never underflows and
`orig_inp[ref_pos..]` with its three-byte comparison stays in bounds: the
instrumentation flag recording exactly these checks at every hash-table read
is true for every complete compression run, at both levels and for both
sinks. -/
theorem c10_hashtable_reads (S b0 : List Nat) (level : CompressionLevel) :
    (compress_to_vec S level).2.2 = true ∧ (compress_to_buf S b0 level).2.2 = true := by
  constructor
  · rw [compress_to_vec]
    split <;> split <;> exact compress_impl_ok _ _ _
  · rw [compress_to_buf]
    split <;> split <;> exact compress_impl_ok _ _ _

/-! ## Claim C4: level-2 far-match end-of-stream rule -/

/-- Projection lemma for the record writer. -/
theorem recWriter_put_lits (maxd : Nat) (lv2 : Bool) (s : List FRec) (l : List Nat) :
    (recWriter maxd lv2).put_lits s l = (s ++ [FRec.lit l], none) := rfl

/-- Projection lemma for the record writer. -/
theorem recWriter_put_backref (maxd : Nat) (lv2 : Bool) (s : List FRec) (d n : Nat) :
    (recWriter maxd lv2).put_backref s d n = (s ++ [FRec.ref d n], none) := rfl

/-- Projection lemma for the record writer. -/
theorem recWriter_maxDisp (maxd : Nat) (lv2 : Bool) : (recWriter maxd lv2).maxDisp = maxd := rfl

/-- Projection lemma for the record writer. -/
theorem recWriter_isLv2 (maxd : Nat) (lv2 : Bool) : (recWriter maxd lv2).isLv2 = lv2 := rfl

/-- A common prefix of length at least two gives equal two-byte takes. -/
theorem matchExt_take2 : ∀ (xs ys : List Nat), 2 ≤ matchExt xs ys →
    xs.take 2 = ys.take 2 := by
  intro xs ys h
  match xs, ys with
  | [], _ => simp [matchExt] at h
  | a :: as_, [] => simp [matchExt] at h
  | a :: as_, b :: bs =>
    rw [matchExt] at h
    by_cases hab : a = b
    · rw [if_pos hab] at h
      subst hab
      match as_, bs with
      | [], _ => simp [matchExt] at h
      | a2 :: as2, [] => simp [matchExt] at h
      | a2 :: as2, b2 :: bs2 =>
        rw [matchExt] at h
        by_cases hab2 : a2 = b2
        · subst hab2
          simp
        · rw [if_neg hab2] at h
          omega
    · rw [if_neg hab] at h
      omega

/-- C4: if at cursor `i` the hash table yields reference `r` with an accepted
level-2 match of displacement `i - r - 1 ≥ 8191` whose greedy extension
reaches exactly the end of the input, then the loop emits a single
backreference whose length is one less than the greedy match length and stops
with the literal anchor at `S.length - 1`, so the final input byte is left to
be emitted as a trailing literal. -/
theorem c4_far_match_eos (S : List Nat) (i r : Nat) (ht : Nat → Nat) (ok : Bool)
    (h4 : i + 4 ≤ S.length)
    (hr : ht (fastlz_hash (le4 S i &&& 16777215)) = r)
    (hm3 : (S.drop i).take 3 = (S.drop r).take 3)
    (hdisp : 8191 ≤ i - r - 1)
    (hmax : i - r - 1 ≤ 8191 + 65535)
    (h5 : i + 5 ≤ S.length)
    (hlen : i + (3 + matchExt (S.drop (i + 3)) (S.drop (r + 3))) = S.length) :
    compressLoop (recWriter (8191 + 65535) true) S i i ht [] ok =
      ([FRec.ref (i - r - 1) (3 + matchExt (S.drop (i + 3)) (S.drop (r + 3)) - 1)],
        none, ok, S.length - 1) := by
  have hri : r + 8192 ≤ i := by omega
  have hext2 : 2 ≤ matchExt (S.drop (i + 3)) (S.drop (r + 3)) := by omega
  have hg := matchExt_take2 _ _ hext2
  rw [compressLoop.eq_def, dif_pos h4]
  simp only [hr]
  split
  · split
    · rename_i hbr
      exact absurd hbr.2.2 (by omega)
    · split
      · rename_i hgf
        exact absurd hg hgf.2.2
      · rw [if_neg (by omega : ¬i - i > 0)]
        dsimp only
        simp only [recWriter_put_backref, List.nil_append]
        split
        · split
          · rename_i hstr
            exact absurd hstr (by omega)
          · have hok : (ok && decide (r < i ∧ r + 3 ≤ S.length)) = ok := by
              have hc : r < i ∧ r + 3 ≤ S.length := ⟨by omega, by omega⟩
              simp [hc]
            rw [hok]
            have han : i + (3 + matchExt (List.drop (i + 3) S) (List.drop (r + 3) S) - 1) =
                S.length - 1 := by omega
            rw [han]
        · rename_i hlf
          exact absurd ⟨rfl, by omega, by omega⟩ hlf
  · rename_i hrej
    exact absurd ⟨by rw [recWriter_maxDisp]; omega, hm3⟩ hrej

/-- `matchExt` on two runs of the same byte is the length of the shorter. -/
theorem matchExt_replicate (x : Nat) : ∀ (a b : Nat),
    matchExt (List.replicate a x) (List.replicate b x) = min a b := by
  intro a
  induction a with
  | zero => intro b; simp [matchExt]
  | succ a ih =>
    intro b
    cases b with
    | zero => simp [List.replicate_succ, matchExt]
    | succ b =>
      rw [List.replicate_succ, List.replicate_succ, matchExt, if_pos rfl, ih]
      omega

/-- Witness for C4 on the 8197-byte constant input: at cursor 8192 with
reference position 0 the displacement is 8191, the greedy match (length 5)
ends exactly at the input end, and the loop emits a backreference of length 4
with the anchor left at byte 8196. -/
theorem c4_far_match_eos_witness :
    8192 + 4 ≤ (List.replicate 8197 7 : List Nat).length ∧
    8191 ≤ 8192 - 0 - 1 ∧
    8192 + (3 + matchExt ((List.replicate 8197 7 : List Nat).drop (8192 + 3))
      ((List.replicate 8197 7 : List Nat).drop (0 + 3))) =
      (List.replicate 8197 7 : List Nat).length ∧
    compressLoop (recWriter (8191 + 65535) true) (List.replicate 8197 7) 8192 8192
      (fun _ => 0) [] true = ([FRec.ref 8191 4], none, true, 8196) := by
  have hlen : (List.replicate 8197 7 : List Nat).length = 8197 := List.length_replicate 8197 7
  have hm : matchExt ((List.replicate 8197 7 : List Nat).drop (8192 + 3))
      ((List.replicate 8197 7 : List Nat).drop (0 + 3)) = 2 := by
    rw [List.drop_replicate, List.drop_replicate, matchExt_replicate]
    omega
  have h := c4_far_match_eos (List.replicate 8197 7) 8192 0 (fun _ => 0) true
    (by rw [hlen]; omega) rfl
    (by rw [List.drop_replicate, List.drop_replicate, List.take_replicate,
        List.take_replicate]
        norm_num)
    (by norm_num) (by norm_num)
    (by rw [hlen]; try omega)
    (by rw [hm, hlen])
  refine ⟨by rw [hlen]; try omega, by norm_num, by rw [hm, hlen], ?_⟩
  rw [h, hm, hlen]

/-! ## Replay semantics for compressor records

`play` is the meaning a decoder's growable sink gives to a record list:
literal runs are appended, and a backreference extends the output forward one
byte at a time from `disp + 1` bytes before the end (`lzext`), exactly as the
`put_backref` implementations in src/decompress.rs copy. -/

/-- Forward self-extending copy: append `n` bytes read (with default 0) from
the sliding index `src` of the growing list. -/
def lzext (out : List Nat) (src : Nat) : Nat → List Nat
  | 0 => out
  | n + 1 => lzext (out ++ [out.getD src 0]) (src + 1) n

/-- Replay a record list over a growing output. -/
def play (v : List Nat) : List FRec → List Nat
  | [] => v
  | .lit l :: rs => play (v ++ l) rs
  | .ref d n :: rs => play (lzext v (v.length - d - 1) n) rs

/-- The number of output bytes a record list stands for. -/
def recsAdv : List FRec → Nat
  | [] => 0
  | .lit l :: rs => l.length + recsAdv rs
  | .ref _ n :: rs => n + recsAdv rs

/-- Well-formedness of a record list decoded at output position `pos`:
literal runs are nonempty, backreferences are at least 3 bytes long, reach
back no further than the start of the output, and fit in `maxd`. -/
def recsOK (maxd : Nat) : Nat → List FRec → Prop
  | _, [] => True
  | pos, .lit l :: rs => l ≠ [] ∧ recsOK maxd (pos + l.length) rs
  | pos, .ref d n :: rs => 3 ≤ n ∧ d ≤ maxd ∧ d + 1 ≤ pos ∧ recsOK maxd (pos + n) rs

/-- `lzext` only appends. -/
theorem lzext_ext : ∀ (n : Nat) (v : List Nat) (s : Nat), ∃ w, lzext v s n = v ++ w := by
  intro n
  induction n with
  | zero => intro v s; exact ⟨[], by simp [lzext]⟩
  | succ n ih =>
    intro v s
    obtain ⟨w, hw⟩ := ih (v ++ [v.getD s 0]) (s + 1)
    exact ⟨v.getD s 0 :: w, by rw [lzext, hw]; simp⟩

/-- `lzext` adds exactly `n` bytes. -/
theorem lzext_length : ∀ (n : Nat) (v : List Nat) (s : Nat),
    (lzext v s n).length = v.length + n := by
  intro n
  induction n with
  | zero => intro v s; rfl
  | succ n ih => intro v s; rw [lzext, ih]; simp; omega

/-- Two consecutive `lzext` runs with contiguous source windows fuse. -/
theorem lzext_comp : ∀ (a : Nat) (v : List Nat) (s b : Nat),
    lzext (lzext v s a) (s + a) b = lzext v s (a + b) := by
  intro a
  induction a with
  | zero => intro v s b; simp [lzext]
  | succ a ih =>
    intro v s b
    rw [lzext, show s + (a + 1) = (s + 1) + a by omega, ih]
    rw [show a + 1 + b = (a + b) + 1 by omega, lzext]

/-- Truncating an `lzext` run to its first `k` extension bytes replays the
shorter run. -/
theorem lzext_take (n k : Nat) (v : List Nat) (s : Nat) (hk : k ≤ n) :
    (lzext v s n).take (v.length + k) = lzext v s k := by
  have hc : lzext v s n = lzext (lzext v s k) (s + k) (n - k) := by
    rw [lzext_comp, show k + (n - k) = n by omega]
  obtain ⟨w, hw⟩ := lzext_ext (n - k) (lzext v s k) (s + k)
  rw [hc, hw, List.take_append_eq_append_take, lzext_length,
    show v.length + k - (v.length + k) = 0 by omega]
  simp [List.take_of_length_le, lzext_length]

/-- Entry `j` of a dropped list. -/
theorem getD_drop (S : List Nat) (j k : Nat) :
    (S.drop j).getD k 0 = S.getD (j + k) 0 := by
  simp [List.getD_eq_getElem?_getD, List.getElem?_drop]

/-- Entries of a taken list below the cut. -/
theorem getD_take (S : List Nat) (m k : Nat) (hk : k < m) :
    (S.take m).getD k 0 = S.getD k 0 := by
  simp [List.getD_eq_getElem?_getD, List.getElem?_take, hk]

/-- The self-overlapping forward copy of a matched source region reproduces
the input: if the `n` bytes from `r` agree with the `n` bytes from `i`, then
extending the first `i` bytes of `S` from source `r` yields the first `i + n`
bytes of `S`. -/
theorem lzext_match : ∀ (n i r : Nat) (S : List Nat), r < i → i + n ≤ S.length →
    (∀ k, k < n → S.getD (r + k) 0 = S.getD (i + k) 0) →
    lzext (S.take i) r n = S.take (i + n) := by
  intro n
  induction n with
  | zero => intro i r S _ _ _; simp [lzext]
  | succ n ih =>
    intro i r S hri hlen hagree
    rw [lzext]
    have hget : (S.take i).getD r 0 = S.getD r 0 := getD_take S i r hri
    have hri' : S.getD r 0 = S.getD i 0 := by
      have := hagree 0 (by omega)
      simpa using this
    have hstep : S.take i ++ [(S.take i).getD r 0] = S.take (i + 1) := by
      rw [hget, hri', List.take_succ]
      congr 1
      have hi : i < S.length := by omega
      simp [List.getD_eq_getElem?_getD, List.getElem?_eq_getElem hi]
    rw [hstep, ih (i + 1) (r + 1) S (by omega) (by omega) ?_]
    · rw [show i + 1 + n = i + (n + 1) by omega]
    · intro k hk
      have := hagree (k + 1) (by omega)
      rw [show r + 1 + k = r + (k + 1) by omega, show i + 1 + k = i + (k + 1) by omega]
      exact this

/-- Replaying a concatenation of record lists. -/
theorem play_append : ∀ (xs ys : List FRec) (v : List Nat),
    play v (xs ++ ys) = play (play v xs) ys := by
  intro xs
  induction xs with
  | nil => intro ys v; rfl
  | cons r rs ih =>
    intro ys v
    cases r with
    | lit l => rw [List.cons_append, play, play, ih]
    | ref d n => rw [List.cons_append, play, play, ih]

/-- Replaying advances the output length by `recsAdv`. -/
theorem play_length : ∀ (rs : List FRec) (v : List Nat),
    (play v rs).length = v.length + recsAdv rs := by
  intro rs
  induction rs with
  | nil => intro v; simp [play, recsAdv]
  | cons r rs ih =>
    intro v
    cases r with
    | lit l => rw [play, recsAdv, ih]; simp; omega
    | ref d n => rw [play, recsAdv, ih, lzext_length]; omega

/-- Well-formedness of a concatenation of record lists. -/
theorem recsOK_append : ∀ (xs ys : List FRec) (maxd p : Nat),
    recsOK maxd p xs → recsOK maxd (p + recsAdv xs) ys → recsOK maxd p (xs ++ ys) := by
  intro xs
  induction xs with
  | nil => intro ys maxd p _ hy; simpa [recsAdv] using hy
  | cons r rs ih =>
    intro ys maxd p hx hy
    cases r with
    | lit l =>
      simp only [recsOK] at hx ⊢
      refine ⟨hx.1, ih ys maxd (p + l.length) hx.2 ?_⟩
      rw [recsAdv] at hy
      rw [show p + l.length + recsAdv rs = p + (l.length + recsAdv rs) by omega]
      exact hy
    | ref d n =>
      simp only [recsOK] at hx ⊢
      refine ⟨hx.1, hx.2.1, hx.2.2.1, ih ys maxd (p + n) hx.2.2.2 ?_⟩
      rw [recsAdv] at hy
      rw [show p + n + recsAdv rs = p + (n + recsAdv rs) by omega]
      exact hy

/-- The greedy extension never exceeds either list's length. -/
theorem matchExt_le : ∀ (xs ys : List Nat),
    matchExt xs ys ≤ xs.length ∧ matchExt xs ys ≤ ys.length := by
  intro xs
  induction xs with
  | nil => intro ys; rw [matchExt.eq_def]; cases ys <;> simp
  | cons a as ih =>
    intro ys
    cases ys with
    | nil => rw [matchExt.eq_def]; simp
    | cons b bs =>
      rw [matchExt]
      by_cases hab : a = b
      · have := ih bs
        simp only [if_pos hab]
        constructor <;> simp <;> omega
      · simp [hab]

/-- Bytes under the greedy extension agree. -/
theorem matchExt_spec : ∀ (xs ys : List Nat) (k : Nat), k < matchExt xs ys →
    xs.getD k 0 = ys.getD k 0 := by
  intro xs
  induction xs with
  | nil => intro ys k hk; rw [matchExt.eq_def] at hk; cases ys <;> simp at hk
  | cons a as ih =>
    intro ys k hk
    cases ys with
    | nil => rw [matchExt.eq_def] at hk; simp at hk
    | cons b bs =>
      rw [matchExt] at hk
      by_cases hab : a = b
      · rw [if_pos hab] at hk
        cases k with
        | zero => simpa using hab
        | succ k => simpa using ih bs k (by omega)
      · rw [if_neg hab] at hk; omega

/-- Equal two-byte heads give a greedy extension of at least two. -/
theorem matchExt_two (xs ys : List Nat) (h2 : xs.take 2 = ys.take 2)
    (hl : 2 ≤ xs.length) : 2 ≤ matchExt xs ys := by
  match xs, hl with
  | a :: a' :: t, _ =>
    cases ys with
    | nil => simp at h2
    | cons b bs =>
      cases bs with
      | nil => simp at h2
      | cons b' bs' =>
        simp only [List.take_succ_cons, List.take_zero] at h2
        injection h2 with h1 h2'
        injection h2' with h2'' _
        subst h1; subst h2''
        rw [matchExt, if_pos rfl, matchExt, if_pos rfl]
        omega

/-- Setting the element just past a left append factor. -/
theorem set_append_mid : ∀ (v : List Nat) (x y : Nat) (t : List Nat),
    (v ++ y :: t).set v.length x = v ++ x :: t := by
  intro v
  induction v with
  | nil => intro x y t; rfl
  | cons a v ih =>
    intro x y t
    simp only [List.cons_append, List.length_cons, List.set_cons_succ, ih]

/-- The forward copy into the first region past `v` is `lzext` (the written
region only ever reads bytes already written). -/
theorem brCopy_append : ∀ (n : Nat) (v t : List Nat) (s : Nat), s < v.length → n ≤ t.length →
    brCopy (v ++ t) s v.length n = lzext v s n ++ t.drop n := by
  intro n
  induction n with
  | zero => intro v t s _ _; simp [brCopy, lzext]
  | succ n ih =>
    intro v t s hs hn
    cases t with
    | nil => simp at hn
    | cons y t' =>
      rw [brCopy]
      have hget : (v ++ y :: t').getD s 0 = v.getD s 0 := List.getD_append _ _ _ _ hs
      rw [hget, set_append_mid]
      have hcast : v ++ v.getD s 0 :: t' = (v ++ [v.getD s 0]) ++ t' := by simp
      have hlen1 : v.length + 1 = (v ++ [v.getD s 0]).length := by simp
      rw [hcast, hlen1, ih (v ++ [v.getD s 0]) t' (s + 1) (by simp; omega) (by simp at hn ⊢; omega)]
      rw [lzext]
      simp

/-- On the growable decompressor sink, an admissible backreference is exactly
the forward self-extending copy. -/
theorem vecPutBackref_lzext (v : List Nat) (d n : Nat) (hd : d + 1 ≤ v.length) :
    vecPutBackref v d n = (lzext v (v.length - d - 1) n, none) := by
  rw [vecPutBackref, if_neg (by omega)]
  rw [brCopy_append n v (List.replicate n 0) (v.length - d - 1) (by omega) (by simp)]
  rw [List.drop_replicate]
  simp

/-! ## Byte-level encodings of record lists -/

/-- The level-1 byte encoding of one record. -/
def encRec1 : FRec → List Nat
  | .lit l => litRunBytes l
  | .ref d n => l1RefBytes d n

/-- The level-1 byte encoding of a record list. -/
def encRecs1 : List FRec → List Nat
  | [] => []
  | r :: rs => encRec1 r ++ encRecs1 rs

/-- The level-2 byte encoding of one record. -/
def encRec2 : FRec → List Nat
  | .lit l => litRunBytes l
  | .ref d n => l2RefBytes d n

/-- The level-2 byte encoding of a record list. -/
def encRecs2 : List FRec → List Nat
  | [] => []
  | r :: rs => encRec2 r ++ encRecs2 rs

/-- Projection of the level-1 writer. -/
theorem l1Writer_put_lits (σ : Type) (K : CSink σ) : (l1Writer K).put_lits = writerPutLits K := rfl

/-- Projection of the level-1 writer. -/
theorem l1Writer_put_backref (σ : Type) (K : CSink σ) :
    (l1Writer K).put_backref = l1_put_backref K := rfl

/-- Projection of the level-2 writer. -/
theorem l2Writer_put_lits (σ : Type) (K : CSink σ) : (l2Writer K).put_lits = writerPutLits K := rfl

/-- Projection of the level-2 writer. -/
theorem l2Writer_put_backref (σ : Type) (K : CSink σ) :
    (l2Writer K).put_backref = l2_put_backref K := rfl

/-- Replaying records through the level-1 writer over the growable sink
appends the level-1 encoding and never fails. -/
theorem runRecs_vec1 : ∀ (rs : List FRec) (v : List Nat),
    runRecs (l1Writer vecCSink) v rs = (v ++ encRecs1 rs, none) := by
  intro rs
  induction rs with
  | nil => intro v; simp [runRecs, encRecs1]
  | cons r rs ih =>
    intro v
    rw [runRecs, encRecs1]
    cases r with
    | lit l =>
      rw [emitRec, l1Writer_put_lits, writerPutLits_vec l.length l le_rfl]
      simp only
      rw [ih, encRec1]
      simp
    | ref d n =>
      rw [emitRec, l1Writer_put_backref, l1_put_backref_vec]
      simp only
      rw [ih, encRec1]
      simp

/-- Replaying records through the level-2 writer over the growable sink
appends the level-2 encoding and never fails. -/
theorem runRecs_vec2 : ∀ (rs : List FRec) (v : List Nat),
    runRecs (l2Writer vecCSink) v rs = (v ++ encRecs2 rs, none) := by
  intro rs
  induction rs with
  | nil => intro v; simp [runRecs, encRecs2]
  | cons r rs ih =>
    intro v
    rw [runRecs, encRecs2]
    cases r with
    | lit l =>
      rw [emitRec, l2Writer_put_lits, writerPutLits_vec l.length l le_rfl]
      simp only
      rw [ih, encRec2]
      simp
    | ref d n =>
      rw [emitRec, l2Writer_put_backref, l2_put_backref_vec]
      simp only
      rw [ih, encRec2]
      simp

/-! ## Opcode bit-layout toolkit -/

/-- Reassembling a value from its high and low bytes. -/
theorem hiLo (d : Nat) : ((d >>> 8) <<< 8) ||| d % 256 = d := by
  rw [natOrShift8 _ _ (Nat.mod_lt _ (by omega)), natShr8]
  omega

/-- Packing a top-3-bits opcode field next to a 5-bit field. -/
theorem opByte (a q : Nat) (ha : a ≤ 7) (hq : q ≤ 31) :
    ((a <<< 5) ||| q) % 256 = 32 * a + q := by
  rw [natOrShift5 a q (by omega)]
  exact Nat.mod_eq_of_lt (by omega)

/-- The decoder's view of the top three bits of a packed opcode byte. -/
theorem opByte_hi (a q : Nat) (hq : q ≤ 31) : (32 * a + q) >>> 5 = a := by
  rw [natShr5]
  omega

/-- The decoder's view of the low five bits of a packed opcode byte. -/
theorem opByte_lo (a q : Nat) (hq : q ≤ 31) : (32 * a + q) &&& 31 = q := by
  rw [natAnd31]
  omega

/-- Displacements within the level-1 window have a 5-bit high byte. -/
theorem shr8_le31 (d : Nat) (hd : d ≤ 8191) : d >>> 8 ≤ 31 := by
  rw [natShr8]
  omega

/-- The long-match opcode `0xE0 | q` is the packed form `32 * 7 + q`. -/
theorem op224 (q : Nat) (hq : q ≤ 31) : 224 ||| q = 32 * 7 + q := by
  have h := natOrShift5 7 q (by omega)
  rw [show (7 : Nat) <<< 5 = 224 from by decide] at h
  rw [h]

/-- `readExtLen` inverts the saturated length-extension encoding. -/
theorem readExtLen_ext : ∀ (m : Nat) (rest : List Nat) (acc : Nat),
    readExtLen (extLenBytes m ++ rest) acc = some (acc + m, rest) := by
  intro m
  induction m using Nat.strong_induction_on with
  | _ m ih =>
    intro rest acc
    rw [extLenBytes]
    by_cases h : min m 255 ≠ 255
    · rw [if_pos h]
      have hm : min m 255 = m := by omega
      rw [hm]
      simp only [List.cons_append, readExtLen]
      rw [if_neg (by omega)]
      simp
    · rw [if_neg h]
      push_neg at h
      have hm : 255 ≤ m := by omega
      rw [h]
      simp only [List.cons_append, readExtLen, List.append_eq]
      rw [if_true, ih (m - 255) (by omega) rest (acc + 255)]
      rw [show acc + 255 + (m - 255) = acc + m by omega]

/-! ## Decoding the encoded records -/

/-- The level-1 decoder consumes one encoded literal run and appends it. -/
theorem dec1_lit : ∀ (fuel : Nat) (l : List Nat), l.length ≤ fuel → l ≠ [] →
    ∀ (rest v : List Nat),
    lv1Cont vecDSink (litRunBytes l ++ rest) v = lv1Cont vecDSink rest (v ++ l) := by
  intro fuel
  induction fuel with
  | zero =>
    intro l hl hne rest v
    exact absurd (List.length_eq_zero.mp (by omega)) hne
  | succ fuel ih =>
    intro l hl hne rest v
    have hge1 : 1 ≤ l.length := by
      cases l with
      | nil => simp at hne
      | cons a t => simp
    rw [litRunBytes]
    by_cases h32 : l.length > 32
    · rw [if_pos h32]
      simp only [List.cons_append, List.append_assoc]
      rw [lv1Cont]
      have h31 : (31 : Nat) >>> 5 = 0 := by decide
      have h31b : (31 : Nat) &&& 31 = 31 := by decide
      have htl : (l.take 32).length = 32 := by simp; omega
      rw [lv1Loop_lit vecDSink 31 _ v h31 (by rw [h31b]; simp; omega)]
      rw [h31b]
      have htake : (l.take 32 ++ (litRunBytes (l.drop 32) ++ rest)).take (31 + 1) = l.take 32 := by
        rw [List.take_append_eq_append_take, htl]
        simp
      have hdrop : (l.take 32 ++ (litRunBytes (l.drop 32) ++ rest)).drop (31 + 1)
          = litRunBytes (l.drop 32) ++ rest := by
        rw [List.drop_append_eq_append_drop, htl]
        simp
      rw [htake, hdrop, vecDSink_put_lits]
      simp only
      rw [ih (l.drop 32) (by simp; omega) (by simp; omega) rest (v ++ l.take 32)]
      rw [List.append_assoc, List.take_append_drop]
    · rw [if_neg h32]
      simp only [List.cons_append]
      rw [lv1Cont]
      have h0 : (l.length - 1) >>> 5 = 0 := by
        rw [natShr5]
        exact Nat.div_eq_of_lt (by omega)
      have ha : (l.length - 1) &&& 31 = l.length - 1 := by
        rw [natAnd31]
        exact Nat.mod_eq_of_lt (by omega)
      have hlen : l.length - 1 + 1 = l.length := by omega
      rw [lv1Loop_lit vecDSink _ _ v h0 (by rw [ha, hlen]; simp)]
      rw [ha, hlen, List.take_left, List.drop_left, vecDSink_put_lits]

/-- The level-1 decoder consumes one encoded backreference (including its
max-encodable chunking) and performs the forward self-extending copy. -/
theorem dec1_ref : ∀ (n d : Nat), 3 ≤ n → d ≤ 8191 → ∀ (rest v : List Nat), d + 1 ≤ v.length →
    lv1Cont vecDSink (l1RefBytes d n ++ rest) v
      = lv1Cont vecDSink rest (lzext v (v.length - d - 1) n) := by
  intro n
  induction n using Nat.strong_induction_on with
  | _ n ih =>
    intro d h3 hd rest v hv
    have hq : d >>> 8 ≤ 31 := shr8_le31 d hd
    have hqm : (d >>> 8) % 256 = d >>> 8 := Nat.mod_eq_of_lt (by omega)
    rw [l1RefBytes]
    by_cases hbig : n > 255 + 9
    · rw [if_pos hbig]
      simp only [List.cons_append]
      rw [lv1Cont, hqm, op224 _ hq]
      rw [lv1Loop_long vecDSink _ _ _ _ v (opByte_hi 7 _ hq)]
      rw [opByte_lo 7 _ hq, hiLo d, vecDSink_put_backref]
      rw [show (255 - 2 + 9 : Nat) = 262 from by norm_num]
      rw [vecPutBackref_lzext v d 262 hv]
      simp only
      rw [ih (n - 262) (by omega) d (by omega) hd rest (lzext v (v.length - d - 1) 262)
        (by rw [lzext_length]; omega)]
      rw [lzext_length]
      rw [show v.length + 262 - d - 1 = (v.length - d - 1) + 262 by omega]
      rw [lzext_comp]
      rw [show 262 + (n - 262) = n by omega]
    · rw [if_neg hbig]
      by_cases h8 : n ≤ 8
      · rw [if_pos h8]
        simp only [List.cons_append]
        rw [lv1Cont, opByte (n - 2) _ (by omega) hq]
        rw [lv1Loop_short vecDSink _ _ _ v
          (by rw [opByte_hi _ _ hq]; omega) (by rw [opByte_hi _ _ hq]; omega)]
        rw [opByte_hi _ _ hq, opByte_lo _ _ hq, hiLo d, vecDSink_put_backref]
        rw [show n - 2 + 2 = n by omega]
        rw [vecPutBackref_lzext v d n hv]
        simp
      · rw [if_neg h8]
        simp only [List.cons_append]
        rw [lv1Cont, hqm, op224 _ hq]
        rw [lv1Loop_long vecDSink _ _ _ _ v (opByte_hi 7 _ hq)]
        rw [opByte_lo 7 _ hq, hiLo d, vecDSink_put_backref]
        rw [show (n - 9) % 256 = n - 9 from Nat.mod_eq_of_lt (by omega)]
        rw [show n - 9 + 9 = n by omega]
        rw [vecPutBackref_lzext v d n hv]
        simp

/-- The level-2 decoder consumes one encoded literal run and appends it. -/
theorem dec2_lit : ∀ (fuel : Nat) (l : List Nat), l.length ≤ fuel → l ≠ [] →
    ∀ (rest v : List Nat),
    lv2Cont vecDSink (litRunBytes l ++ rest) v = lv2Cont vecDSink rest (v ++ l) := by
  intro fuel
  induction fuel with
  | zero =>
    intro l hl hne rest v
    exact absurd (List.length_eq_zero.mp (by omega)) hne
  | succ fuel ih =>
    intro l hl hne rest v
    have hge1 : 1 ≤ l.length := by
      cases l with
      | nil => simp at hne
      | cons a t => simp
    rw [litRunBytes]
    by_cases h32 : l.length > 32
    · rw [if_pos h32]
      simp only [List.cons_append, List.append_assoc]
      rw [lv2Cont]
      have h31 : (31 : Nat) >>> 5 = 0 := by decide
      have h31b : (31 : Nat) &&& 31 = 31 := by decide
      have htl : (l.take 32).length = 32 := by simp; omega
      rw [lv2Loop_lit vecDSink 31 _ v h31 (by rw [h31b]; simp; omega)]
      rw [h31b]
      have htake : (l.take 32 ++ (litRunBytes (l.drop 32) ++ rest)).take (31 + 1) = l.take 32 := by
        rw [List.take_append_eq_append_take, htl]
        simp
      have hdrop : (l.take 32 ++ (litRunBytes (l.drop 32) ++ rest)).drop (31 + 1)
          = litRunBytes (l.drop 32) ++ rest := by
        rw [List.drop_append_eq_append_drop, htl]
        simp
      rw [htake, hdrop, vecDSink_put_lits]
      simp only
      rw [ih (l.drop 32) (by simp; omega) (by simp; omega) rest (v ++ l.take 32)]
      rw [List.append_assoc, List.take_append_drop]
    · rw [if_neg h32]
      simp only [List.cons_append]
      rw [lv2Cont]
      have h0 : (l.length - 1) >>> 5 = 0 := by
        rw [natShr5]
        exact Nat.div_eq_of_lt (by omega)
      have ha : (l.length - 1) &&& 31 = l.length - 1 := by
        rw [natAnd31]
        exact Nat.mod_eq_of_lt (by omega)
      have hlen : l.length - 1 + 1 = l.length := by omega
      rw [lv2Loop_lit vecDSink _ _ v h0 (by rw [ha, hlen]; simp)]
      rw [ha, hlen, List.take_left, List.drop_left, vecDSink_put_lits]

/-- The level-2 decoder consumes one encoded backreference (short or long,
near or with the two displacement-extension bytes) and performs the forward
self-extending copy. -/
theorem dec2_ref (n d : Nat) (h3 : 3 ≤ n) (hd : d ≤ 8191 + 65535) (rest v : List Nat)
    (hv : d + 1 ≤ v.length) :
    lv2Cont vecDSink (l2RefBytes d n ++ rest) v
      = lv2Cont vecDSink rest (lzext v (v.length - d - 1) n) := by
  rw [l2RefBytes]
  by_cases h8 : n ≤ 8
  · have hmin : min (n - 2) 7 = n - 2 := by omega
    rw [hmin, if_neg (by omega : ¬n - 2 = 7)]
    by_cases hfar : d < 8191
    · have hdm : min d 8191 = d := by omega
      have hq : d >>> 8 ≤ 31 := shr8_le31 d (by omega)
      rw [hdm, if_neg (by omega : ¬d = 8191)]
      simp only [List.nil_append, List.cons_append, List.append_nil]
      rw [lv2Cont, opByte (n - 2) _ (by omega) hq]
      rw [lv2Loop_near vecDSink _ _ _ v
        (by rw [opByte_hi _ _ hq]; omega) (by rw [opByte_hi _ _ hq]; omega)
        (by rw [opByte_lo _ _ hq, hiLo d]; omega)]
      rw [opByte_hi _ _ hq, opByte_lo _ _ hq, hiLo d, vecDSink_put_backref]
      rw [show n - 2 + 2 = n by omega]
      rw [vecPutBackref_lzext v d n hv]
    · have hdm : min d 8191 = 8191 := by omega
      have h31 : (8191 : Nat) >>> 8 = 31 := by decide
      have h255 : (8191 : Nat) % 256 = 255 := by decide
      have he : d - 8191 ≤ 65535 := by omega
      have heq : (d - 8191) >>> 8 % 256 = (d - 8191) >>> 8 := by
        rw [natShr8]
        exact Nat.mod_eq_of_lt (by omega)
      rw [hdm, if_pos rfl, h31, h255]
      simp only [List.nil_append, List.cons_append, List.append_nil]
      rw [lv2Cont, opByte (n - 2) 31 (by omega) (by omega)]
      rw [lv2Loop_far vecDSink _ _ _ _ _ v
        (by rw [opByte_hi _ _ (by omega : (31:Nat) ≤ 31)]; omega)
        (by rw [opByte_hi _ _ (by omega : (31:Nat) ≤ 31)]; omega)
        (by rw [opByte_lo _ _ (by omega : (31:Nat) ≤ 31)]; decide)]
      rw [opByte_hi _ _ (by omega : (31:Nat) ≤ 31), heq, hiLo (d - 8191)]
      rw [show 8191 + (d - 8191) = d by omega, show n - 2 + 2 = n by omega]
      rw [vecDSink_put_backref, vecPutBackref_lzext v d n hv]
  · have hmin : min (n - 2) 7 = 7 := by omega
    rw [hmin, if_pos rfl]
    by_cases hfar : d < 8191
    · have hdm : min d 8191 = d := by omega
      have hq : d >>> 8 ≤ 31 := shr8_le31 d (by omega)
      rw [hdm, if_neg (by omega : ¬d = 8191)]
      simp only [List.cons_append, List.append_assoc, List.append_nil]
      rw [lv2Cont, opByte 7 _ (by omega) hq]
      have h75 : (32 * 7 + d >>> 8) >>> 5 = 7 := opByte_hi 7 _ hq
      have hext0 := readExtLen_ext (n - 2 - 7) (d % 256 :: rest) 9
      rw [show 9 + (n - 2 - 7) = n by omega] at hext0
      rw [lv2Loop_long vecDSink _ _ n _ rest v h75 (by rw [h75]; exact hext0)
        (by rw [opByte_lo _ _ hq, hiLo d]; omega)]
      rw [opByte_lo _ _ hq, hiLo d, vecDSink_put_backref]
      rw [vecPutBackref_lzext v d n hv]
    · have hdm : min d 8191 = 8191 := by omega
      have h31 : (8191 : Nat) >>> 8 = 31 := by decide
      have h255 : (8191 : Nat) % 256 = 255 := by decide
      have heq : (d - 8191) >>> 8 % 256 = (d - 8191) >>> 8 := by
        rw [natShr8]
        exact Nat.mod_eq_of_lt (by omega)
      rw [hdm, if_pos rfl, h31, h255]
      simp only [List.cons_append, List.append_assoc]
      rw [lv2Cont, opByte 7 31 (by omega) (by omega)]
      have h75 : (32 * 7 + 31 : Nat) >>> 5 = 7 := opByte_hi 7 31 (by omega)
      have hext0 := readExtLen_ext (n - 2 - 7)
        (255 :: ((d - 8191) >>> 8 % 256 :: ((d - 8191) % 256 :: rest))) 9
      rw [show 9 + (n - 2 - 7) = n by omega] at hext0
      rw [lv2Loop_long_far vecDSink _ _ _ _ n _ rest v h75 (by rw [h75]; exact hext0)
        (by rw [opByte_lo _ _ (by omega : (31:Nat) ≤ 31)]; decide)]
      rw [heq, hiLo (d - 8191)]
      rw [show 8191 + (d - 8191) = d by omega]
      rw [vecDSink_put_backref, vecPutBackref_lzext v d n hv]

/-- The level-1 decoder replays a whole well-formed encoded record list. -/
theorem lv1_runs : ∀ (rs : List FRec) (v rest : List Nat), recsOK 8191 v.length rs →
    lv1Cont vecDSink (encRecs1 rs ++ rest) v = lv1Cont vecDSink rest (play v rs) := by
  intro rs
  induction rs with
  | nil => intro v rest _; rw [encRecs1, play]; simp
  | cons r rs ih =>
    intro v rest hok
    cases r with
    | lit l =>
      simp only [recsOK] at hok
      rw [encRecs1, encRec1, play, List.append_assoc]
      rw [dec1_lit l.length l le_rfl hok.1]
      exact ih (v ++ l) rest (by simpa using hok.2)
    | ref d n =>
      simp only [recsOK] at hok
      rw [encRecs1, encRec1, play, List.append_assoc]
      rw [dec1_ref n d hok.1 hok.2.1 _ v hok.2.2.1]
      refine ih _ rest ?_
      rw [lzext_length]
      exact hok.2.2.2

/-- The level-2 decoder replays a whole well-formed encoded record list. -/
theorem lv2_runs : ∀ (rs : List FRec) (v rest : List Nat), recsOK (8191 + 65535) v.length rs →
    lv2Cont vecDSink (encRecs2 rs ++ rest) v = lv2Cont vecDSink rest (play v rs) := by
  intro rs
  induction rs with
  | nil => intro v rest _; rw [encRecs2, play]; simp
  | cons r rs ih =>
    intro v rest hok
    cases r with
    | lit l =>
      simp only [recsOK] at hok
      rw [encRecs2, encRec2, play, List.append_assoc]
      rw [dec2_lit l.length l le_rfl hok.1]
      exact ih (v ++ l) rest (by simpa using hok.2)
    | ref d n =>
      simp only [recsOK] at hok
      rw [encRecs2, encRec2, play, List.append_assoc]
      rw [dec2_ref n d hok.1 hok.2.1 _ v hok.2.2.1]
      refine ih _ rest ?_
      rw [lzext_length]
      exact hok.2.2.2

/-- The record writer never fails, so the main loop over it never fails. -/
theorem recLoop_noerr (maxd : Nat) (lv2 : Bool) (S : List Nat) :
    ∀ (m i a : Nat) (ht : Nat → Nat) (s : List FRec) (ok : Bool),
    S.length - i ≤ m →
    (compressLoop (recWriter maxd lv2) S i a ht s ok).2.1 = none := by
  intro m
  induction m with
  | zero =>
    intro i a ht s ok hm
    rw [compressLoop.eq_def, dif_neg (by omega : ¬i + 4 ≤ S.length)]
  | succ m ih =>
    intro i a ht s ok hm
    rw [compressLoop.eq_def]
    by_cases h4 : i + 4 ≤ S.length
    · rw [dif_pos h4]
      simp only [recWriter_put_lits, recWriter_put_backref, recWriter_maxDisp, recWriter_isLv2]
      set hashv := fastlz_hash (le4 S i &&& 16777215) with hhash
      set refp := ht hashv with hrefp
      generalize hM : 3 + matchExt (List.drop (i + 3) S) (List.drop (refp + 3) S) = len0v
      split
      · split
        · rfl
        · split
          · exact ih (i + 1) a _ s _ (by omega)
          · by_cases hla : i - a > 0
            · simp only [if_pos hla]
              split
              · split
                · exact ih _ _ _ _ _ (by omega)
                · rfl
              · split
                · exact ih _ _ _ _ _ (by omega)
                · rfl
            · simp only [if_neg hla]
              split
              · split
                · exact ih _ _ _ _ _ (by omega)
                · rfl
              · split
                · exact ih _ _ _ _ _ (by omega)
                · rfl
      · exact ih (i + 1) a _ s _ (by omega)
    · rw [dif_neg h4]

/-- Running the record writer from any accumulated record list prepends that
list to the records of a run from the empty list (the loop only ever appends
records). -/
theorem recLoop_acc (maxd : Nat) (lv2 : Bool) (S : List Nat) :
    ∀ (m i a : Nat) (ht : Nat → Nat) (s : List FRec) (ok : Bool),
    S.length - i ≤ m →
    compressLoop (recWriter maxd lv2) S i a ht s ok
      = (s ++ (compressLoop (recWriter maxd lv2) S i a ht [] ok).1,
         (compressLoop (recWriter maxd lv2) S i a ht [] ok).2) := by
  intro m
  induction m with
  | zero =>
    intro i a ht s ok hm
    rw [compressLoop.eq_def]
    conv_rhs => rw [compressLoop.eq_def]
    rw [dif_neg (by omega : ¬i + 4 ≤ S.length)]
    simp only [dif_neg (by omega : ¬i + 4 ≤ S.length)]
    simp
  | succ m ih =>
    intro i a ht s ok hm
    rw [compressLoop.eq_def]
    conv_rhs => rw [compressLoop.eq_def]
    by_cases h4 : i + 4 ≤ S.length
    · simp only [dif_pos h4, recWriter_put_lits, recWriter_put_backref,
        recWriter_maxDisp, recWriter_isLv2]
      set hashv := fastlz_hash (le4 S i &&& 16777215) with hhash
      set refp := ht hashv with hrefp
      generalize hM : 3 + matchExt (List.drop (i + 3) S) (List.drop (refp + 3) S) = len0v
      have hM3 : 3 ≤ len0v := by omega
      by_cases hacc : i - refp - 1 ≤ maxd ∧ (S.drop i).take 3 = (S.drop refp).take 3
      · simp only [if_pos hacc]
        by_cases hbrk : lv2 = true ∧ 8191 ≤ i - refp - 1 ∧ S.length < i + 5
        · simp only [if_pos hbrk]
          simp
        · simp only [if_neg hbrk]
          by_cases hgate : lv2 = true ∧ 8191 ≤ i - refp - 1 ∧
              ¬(S.drop (i + 3)).take 2 = (S.drop (refp + 3)).take 2
          · simp only [if_pos hgate]
            exact ih (i + 1) a _ s _ (by omega)
          · simp only [if_neg hgate]
            by_cases hdec : lv2 = true ∧ 8191 ≤ i - refp - 1 ∧ len0v = S.length - i
            · simp only [if_pos hdec]
              by_cases hla : i - a > 0
              · simp only [if_pos hla, List.nil_append]
                by_cases h4b : i + (len0v - 1) - 2 + 4 ≤ S.length
                · simp only [dif_pos h4b]
                  rw [ih _ _ _ _ _ (by omega : S.length - (i + (len0v - 1)) ≤ m)]
                  rw [ih _ _ _ ([FRec.lit ((S.drop a).take (i - a))] ++
                    [FRec.ref (i - refp - 1) (len0v - 1)]) _
                    (by omega : S.length - (i + (len0v - 1)) ≤ m)]
                  simp
                · simp only [dif_neg h4b]
                  simp
              · simp only [if_neg hla, List.nil_append]
                by_cases h4b : i + (len0v - 1) - 2 + 4 ≤ S.length
                · simp only [dif_pos h4b]
                  rw [ih _ _ _ _ _ (by omega : S.length - (i + (len0v - 1)) ≤ m)]
                  rw [ih _ _ _ [FRec.ref (i - refp - 1) (len0v - 1)] _
                    (by omega : S.length - (i + (len0v - 1)) ≤ m)]
                  simp
                · simp only [dif_neg h4b]
            · simp only [if_neg hdec]
              by_cases hla : i - a > 0
              · simp only [if_pos hla, List.nil_append]
                by_cases h4b : i + len0v - 2 + 4 ≤ S.length
                · simp only [dif_pos h4b]
                  rw [ih _ _ _ _ _ (by omega : S.length - (i + len0v) ≤ m)]
                  rw [ih _ _ _ ([FRec.lit ((S.drop a).take (i - a))] ++
                    [FRec.ref (i - refp - 1) len0v]) _
                    (by omega : S.length - (i + len0v) ≤ m)]
                  simp
                · simp only [dif_neg h4b]
                  simp
              · simp only [if_neg hla, List.nil_append]
                by_cases h4b : i + len0v - 2 + 4 ≤ S.length
                · simp only [dif_pos h4b]
                  rw [ih _ _ _ _ _ (by omega : S.length - (i + len0v) ≤ m)]
                  rw [ih _ _ _ [FRec.ref (i - refp - 1) len0v] _
                    (by omega : S.length - (i + len0v) ≤ m)]
                  simp
                · simp only [dif_neg h4b]
      · simp only [if_neg hacc]
        exact ih (i + 1) a _ s _ (by omega)
    · rw [dif_neg h4]
      simp only [dif_neg h4]
      simp

/-- The records logged by the main loop replay to exactly the input between
the starting anchor and the returned anchor, and are well formed: literal
runs are nonempty, backreferences are in-window, at least 3 long, and reach
only into already-produced output; moreover if any pending literals exist the
record list starts with a nonempty literal run. -/
theorem recLoop_plays (maxd : Nat) (lv2 : Bool) (S : List Nat) :
    ∀ (m i a : Nat) (ht : Nat → Nat) (ok : Bool),
    S.length - i ≤ m → 1 ≤ i → a ≤ i → i ≤ S.length → HtInv S i ht →
    ∀ rs e ok2 aout, compressLoop (recWriter maxd lv2) S i a ht [] ok = (rs, e, ok2, aout) →
    e = none ∧ a ≤ aout ∧ aout ≤ S.length ∧
    play (S.take a) rs = S.take aout ∧ recsOK maxd a rs ∧
    (rs = [] → aout = a) ∧
    (a < i → rs ≠ [] → ∃ l tl, rs = FRec.lit l :: tl ∧ l ≠ []) := by
  intro m
  induction m with
  | zero =>
    intro i a ht ok hm h1 hai hiS hinv rs e ok2 aout hrec
    rw [compressLoop.eq_def, dif_neg (by omega : ¬i + 4 ≤ S.length)] at hrec
    injection hrec with hh1 hrec
    injection hrec with hh2 hrec
    injection hrec with hh3 hh4
    subst hh1; subst hh2; subst hh3; subst hh4
    exact ⟨rfl, le_rfl, by omega, rfl, trivial, fun _ => rfl, fun _ h => absurd rfl h⟩
  | succ m ih =>
    intro i a ht ok hm h1 hai hiS hinv rs e ok2 aout hrec
    rw [compressLoop.eq_def] at hrec
    by_cases h4 : i + 4 ≤ S.length
    · simp only [dif_pos h4, recWriter_put_lits, recWriter_put_backref,
        recWriter_maxDisp, recWriter_isLv2] at hrec
      set hashv := fastlz_hash (le4 S i &&& 16777215) with hhash
      set refp := ht hashv with hrefp
      have href : ht hashv < i ∧ (ht hashv = 0 ∨ ht hashv + 3 ≤ S.length) := hinv hashv
      rw [← hrefp] at href
      have hinv1 : HtInv S (i + 1) (htUpd ht hashv i) :=
        HtInv_upd S ht i (i + 1) hashv i hinv (by omega) (by omega) (Or.inr (by omega))
      set len0v := 3 + matchExt (List.drop (i + 3) S) (List.drop (refp + 3) S) with hM
      have hM3 : 3 ≤ len0v := by rw [hM]; omega
      have hlen0 : len0v ≤ S.length - i := by
        rw [hM]
        have hmle := (matchExt_le (List.drop (i + 3) S) (List.drop (refp + 3) S)).1
        simp only [List.length_drop] at hmle
        omega
      by_cases hacc : i - refp - 1 ≤ maxd ∧ (S.drop i).take 3 = (S.drop refp).take 3
      · have hagree : ∀ k, k < len0v → S.getD (refp + k) 0 = S.getD (i + k) 0 := by
          intro k hk
          by_cases hk3 : k < 3
          · have hcg := congrArg (fun t => t.getD k 0) hacc.2
            simp only at hcg
            rw [getD_take _ _ _ hk3, getD_take _ _ _ hk3, getD_drop, getD_drop] at hcg
            exact hcg.symm
          · have hms := matchExt_spec (List.drop (i + 3) S) (List.drop (refp + 3) S) (k - 3)
              (by rw [hM] at hk; omega)
            rw [getD_drop, getD_drop] at hms
            rw [show i + 3 + (k - 3) = i + k by omega,
              show refp + 3 + (k - 3) = refp + k by omega] at hms
            exact hms.symm
        have hfar5 : i + 5 ≤ S.length →
            (S.drop (i + 3)).take 2 = (S.drop (refp + 3)).take 2 → 5 ≤ len0v := by
          intro h5 h2
          have := matchExt_two _ _ h2 (by simp; omega)
          rw [hM]
          omega
        simp only [if_pos hacc] at hrec
        by_cases hbrk : lv2 = true ∧ 8191 ≤ i - refp - 1 ∧ S.length < i + 5
        · simp only [if_pos hbrk] at hrec
          injection hrec with hh1 hrec
          injection hrec with hh2 hrec
          injection hrec with hh3 hh4
          subst hh1; subst hh2; subst hh3; subst hh4
          exact ⟨rfl, le_rfl, by omega, rfl, trivial, fun _ => rfl, fun _ h => absurd rfl h⟩
        · simp only [if_neg hbrk] at hrec
          by_cases hgate : lv2 = true ∧ 8191 ≤ i - refp - 1 ∧
              ¬(S.drop (i + 3)).take 2 = (S.drop (refp + 3)).take 2
          · simp only [if_pos hgate] at hrec
            obtain ⟨he, hb1, hb2, hpl, hro, hnil, hfst⟩ :=
              ih (i + 1) a _ _ (by omega) (by omega) (by omega) (by omega) hinv1
                rs e ok2 aout hrec
            exact ⟨he, hb1, hb2, hpl, hro, hnil, fun hlt => hfst (by omega)⟩
          · simp only [if_neg hgate] at hrec
            have hlne : (S.drop a).take (i - a) ≠ [] ∨ True := Or.inr trivial
            by_cases hdec : lv2 = true ∧ 8191 ≤ i - refp - 1 ∧ len0v = S.length - i
            · have hc2 : (S.drop (i + 3)).take 2 = (S.drop (refp + 3)).take 2 := by
                by_contra hc
                exact hgate ⟨hdec.1, hdec.2.1, hc⟩
              have h5S : i + 5 ≤ S.length := by
                by_contra h5c
                exact hbrk ⟨hdec.1, hdec.2.1, by omega⟩
              have h5v : 5 ≤ len0v := hfar5 h5S hc2
              simp only [if_pos hdec] at hrec
              by_cases hla : i - a > 0
              · simp only [if_pos hla, List.nil_append] at hrec
                have hl : ((S.drop a).take (i - a)).length = i - a := by simp; omega
                have hlits : S.take a ++ (S.drop a).take (i - a) = S.take i := by
                  rw [← List.take_add, show a + (i - a) = i by omega]
                have hlitne : (S.drop a).take (i - a) ≠ [] := by
                  intro hcon
                  rw [hcon] at hl
                  simp at hl
                  omega
                by_cases h4b : i + (len0v - 1) - 2 + 4 ≤ S.length
                · simp only [dif_pos h4b] at hrec
                  rw [recLoop_acc maxd lv2 S m _ _ _ _ _ (by omega)] at hrec
                  rcases hrec2 : compressLoop (recWriter maxd lv2) S (i + (len0v - 1))
                      (i + (len0v - 1))
                      (htUpd (htUpd (htUpd ht hashv i)
                        (fastlz_hash (le4 S (i + (len0v - 1) - 2) &&& 16777215))
                        (i + (len0v - 1) - 2))
                        (fastlz_hash (le4 S (i + (len0v - 1) - 2) >>> 8 &&& 16777215))
                        (i + (len0v - 1) - 2 + 1)) [] _
                    with ⟨rs2, e2, ok22, aout2⟩
                  rw [hrec2] at hrec
                  simp only at hrec
                  injection hrec with hh1 hrec
                  injection hrec with hh2 hrec
                  injection hrec with hh3 hh4
                  subst hh1; subst hh2; subst hh3; subst hh4
                  obtain ⟨he2, hb1', hb2', hpl', hro', hnil', _⟩ :=
                    ih (i + (len0v - 1)) (i + (len0v - 1)) _ _ (by omega) (by omega)
                      (by omega) (by omega)
                      (by
                        refine HtInv_upd S _ (i + (len0v - 1)) (i + (len0v - 1)) _ _ ?_
                          (by omega) (by omega) (Or.inr (by omega))
                        refine HtInv_upd S _ (i + (len0v - 1)) (i + (len0v - 1)) _ _ ?_
                          (by omega) (by omega) (Or.inr (by omega))
                        exact HtInv_mono S _ (i + 1) _ hinv1 (by omega))
                      rs2 e2 ok22 aout2 hrec2
                  refine ⟨he2, by omega, by omega, ?_, ?_, ?_, ?_⟩
                  · simp only [List.append_assoc, List.cons_append, List.nil_append]
                    rw [play, hlits, play]
                    rw [List.length_take, Nat.min_eq_left (by omega)]
                    rw [show i - (i - refp - 1) - 1 = refp by omega]
                    rw [lzext_match (len0v - 1) i refp S href.1 (by omega)
                      (fun k hk => hagree k (by omega))]
                    exact hpl'
                  · simp only [List.append_assoc, List.cons_append, List.nil_append,
                      recsOK]
                    refine ⟨hlitne, ?_⟩
                    rw [hl, show a + (i - a) = i by omega]
                    exact ⟨by omega, hacc.1, by omega, hro'⟩
                  · intro hcon
                    simp at hcon
                  · intro _ _
                    exact ⟨(S.drop a).take (i - a), [FRec.ref (i - refp - 1) (len0v - 1)] ++ rs2, by simp, hlitne⟩
                · simp only [dif_neg h4b] at hrec
                  injection hrec with hh1 hrec
                  injection hrec with hh2 hrec
                  injection hrec with hh3 hh4
                  subst hh1; subst hh2; subst hh3; subst hh4
                  refine ⟨rfl, by omega, by omega, ?_, ?_, ?_, ?_⟩
                  · simp only [List.append_assoc, List.cons_append, List.nil_append]
                    rw [play, hlits, play]
                    rw [List.length_take, Nat.min_eq_left (by omega)]
                    rw [show i - (i - refp - 1) - 1 = refp by omega]
                    rw [lzext_match (len0v - 1) i refp S href.1 (by omega)
                      (fun k hk => hagree k (by omega))]
                    rfl
                  · simp only [List.append_assoc, List.cons_append, List.nil_append,
                      recsOK]
                    refine ⟨hlitne, ?_⟩
                    rw [hl, show a + (i - a) = i by omega]
                    exact ⟨by omega, hacc.1, by omega, trivial⟩
                  · intro hcon
                    simp at hcon
                  · intro _ _
                    exact ⟨(S.drop a).take (i - a), [FRec.ref (i - refp - 1) (len0v - 1)], by simp, hlitne⟩
              · simp only [if_neg hla, List.nil_append] at hrec
                have haeq : a = i := by omega
                subst haeq
                by_cases h4b : a + (len0v - 1) - 2 + 4 ≤ S.length
                · simp only [dif_pos h4b] at hrec
                  rw [recLoop_acc maxd lv2 S m _ _ _ _ _ (by omega)] at hrec
                  rcases hrec2 : compressLoop (recWriter maxd lv2) S (a + (len0v - 1))
                      (a + (len0v - 1))
                      (htUpd (htUpd (htUpd ht hashv a)
                        (fastlz_hash (le4 S (a + (len0v - 1) - 2) &&& 16777215))
                        (a + (len0v - 1) - 2))
                        (fastlz_hash (le4 S (a + (len0v - 1) - 2) >>> 8 &&& 16777215))
                        (a + (len0v - 1) - 2 + 1)) [] _
                    with ⟨rs2, e2, ok22, aout2⟩
                  rw [hrec2] at hrec
                  simp only at hrec
                  injection hrec with hh1 hrec
                  injection hrec with hh2 hrec
                  injection hrec with hh3 hh4
                  subst hh1; subst hh2; subst hh3; subst hh4
                  obtain ⟨he2, hb1', hb2', hpl', hro', hnil', _⟩ :=
                    ih (a + (len0v - 1)) (a + (len0v - 1)) _ _ (by omega) (by omega)
                      (by omega) (by omega)
                      (by
                        refine HtInv_upd S _ (a + (len0v - 1)) (a + (len0v - 1)) _ _ ?_
                          (by omega) (by omega) (Or.inr (by omega))
                        refine HtInv_upd S _ (a + (len0v - 1)) (a + (len0v - 1)) _ _ ?_
                          (by omega) (by omega) (Or.inr (by omega))
                        exact HtInv_mono S _ (a + 1) _ hinv1 (by omega))
                      rs2 e2 ok22 aout2 hrec2
                  refine ⟨he2, by omega, by omega, ?_, ?_, ?_, ?_⟩
                  · simp only [List.cons_append, List.nil_append]
                    rw [play]
                    rw [List.length_take, Nat.min_eq_left (by omega)]
                    rw [show a - (a - refp - 1) - 1 = refp by omega]
                    rw [lzext_match (len0v - 1) a refp S href.1 (by omega)
                      (fun k hk => hagree k (by omega))]
                    exact hpl'
                  · simp only [List.cons_append, List.nil_append, recsOK]
                    exact ⟨by omega, hacc.1, by omega, hro'⟩
                  · intro hcon
                    exact absurd hcon (List.cons_ne_nil _ _)
                  · intro hlt _
                    omega
                · simp only [dif_neg h4b] at hrec
                  injection hrec with hh1 hrec
                  injection hrec with hh2 hrec
                  injection hrec with hh3 hh4
                  subst hh1; subst hh2; subst hh3; subst hh4
                  refine ⟨rfl, by omega, by omega, ?_, ?_, ?_, ?_⟩
                  · rw [play]
                    rw [List.length_take, Nat.min_eq_left (by omega)]
                    rw [show a - (a - refp - 1) - 1 = refp by omega]
                    rw [lzext_match (len0v - 1) a refp S href.1 (by omega)
                      (fun k hk => hagree k (by omega))]
                    rfl
                  · simp only [List.cons_append, List.nil_append, recsOK]
                    exact ⟨by omega, hacc.1, by omega, trivial⟩
                  · intro hcon
                    exact absurd hcon (List.cons_ne_nil _ _)
                  · intro hlt _
                    omega
            · simp only [if_neg hdec] at hrec
              by_cases hla : i - a > 0
              · simp only [if_pos hla, List.nil_append] at hrec
                have hl : ((S.drop a).take (i - a)).length = i - a := by simp; omega
                have hlits : S.take a ++ (S.drop a).take (i - a) = S.take i := by
                  rw [← List.take_add, show a + (i - a) = i by omega]
                have hlitne : (S.drop a).take (i - a) ≠ [] := by
                  intro hcon
                  rw [hcon] at hl
                  simp at hl
                  omega
                by_cases h4b : i + len0v - 2 + 4 ≤ S.length
                · simp only [dif_pos h4b] at hrec
                  rw [recLoop_acc maxd lv2 S m _ _ _ _ _ (by omega)] at hrec
                  rcases hrec2 : compressLoop (recWriter maxd lv2) S (i + len0v) (i + len0v)
                      (htUpd (htUpd (htUpd ht hashv i)
                        (fastlz_hash (le4 S (i + len0v - 2) &&& 16777215))
                        (i + len0v - 2))
                        (fastlz_hash (le4 S (i + len0v - 2) >>> 8 &&& 16777215))
                        (i + len0v - 2 + 1)) [] _
                    with ⟨rs2, e2, ok22, aout2⟩
                  rw [hrec2] at hrec
                  simp only at hrec
                  injection hrec with hh1 hrec
                  injection hrec with hh2 hrec
                  injection hrec with hh3 hh4
                  subst hh1; subst hh2; subst hh3; subst hh4
                  obtain ⟨he2, hb1', hb2', hpl', hro', hnil', _⟩ :=
                    ih (i + len0v) (i + len0v) _ _ (by omega) (by omega)
                      (by omega) (by omega)
                      (by
                        refine HtInv_upd S _ (i + len0v) (i + len0v) _ _ ?_
                          (by omega) (by omega) (Or.inr (by omega))
                        refine HtInv_upd S _ (i + len0v) (i + len0v) _ _ ?_
                          (by omega) (by omega) (Or.inr (by omega))
                        exact HtInv_mono S _ (i + 1) _ hinv1 (by omega))
                      rs2 e2 ok22 aout2 hrec2
                  refine ⟨he2, by omega, by omega, ?_, ?_, ?_, ?_⟩
                  · simp only [List.append_assoc, List.cons_append, List.nil_append]
                    rw [play, hlits, play]
                    rw [List.length_take, Nat.min_eq_left (by omega)]
                    rw [show i - (i - refp - 1) - 1 = refp by omega]
                    rw [lzext_match len0v i refp S href.1 (by omega)
                      (fun k hk => hagree k (by omega))]
                    exact hpl'
                  · simp only [List.append_assoc, List.cons_append, List.nil_append,
                      recsOK]
                    refine ⟨hlitne, ?_⟩
                    rw [hl, show a + (i - a) = i by omega]
                    exact ⟨by omega, hacc.1, by omega, hro'⟩
                  · intro hcon
                    simp at hcon
                  · intro _ _
                    exact ⟨(S.drop a).take (i - a), [FRec.ref (i - refp - 1) len0v] ++ rs2, by simp, hlitne⟩
                · simp only [dif_neg h4b] at hrec
                  injection hrec with hh1 hrec
                  injection hrec with hh2 hrec
                  injection hrec with hh3 hh4
                  subst hh1; subst hh2; subst hh3; subst hh4
                  refine ⟨rfl, by omega, by omega, ?_, ?_, ?_, ?_⟩
                  · simp only [List.append_assoc, List.cons_append, List.nil_append]
                    rw [play, hlits, play]
                    rw [List.length_take, Nat.min_eq_left (by omega)]
                    rw [show i - (i - refp - 1) - 1 = refp by omega]
                    rw [lzext_match len0v i refp S href.1 (by omega)
                      (fun k hk => hagree k (by omega))]
                    rfl
                  · simp only [List.append_assoc, List.cons_append, List.nil_append,
                      recsOK]
                    refine ⟨hlitne, ?_⟩
                    rw [hl, show a + (i - a) = i by omega]
                    exact ⟨by omega, hacc.1, by omega, trivial⟩
                  · intro hcon
                    simp at hcon
                  · intro _ _
                    exact ⟨(S.drop a).take (i - a), [FRec.ref (i - refp - 1) len0v], by simp, hlitne⟩
              · simp only [if_neg hla, List.nil_append] at hrec
                have haeq : a = i := by omega
                subst haeq
                by_cases h4b : a + len0v - 2 + 4 ≤ S.length
                · simp only [dif_pos h4b] at hrec
                  rw [recLoop_acc maxd lv2 S m _ _ _ _ _ (by omega)] at hrec
                  rcases hrec2 : compressLoop (recWriter maxd lv2) S (a + len0v) (a + len0v)
                      (htUpd (htUpd (htUpd ht hashv a)
                        (fastlz_hash (le4 S (a + len0v - 2) &&& 16777215))
                        (a + len0v - 2))
                        (fastlz_hash (le4 S (a + len0v - 2) >>> 8 &&& 16777215))
                        (a + len0v - 2 + 1)) [] _
                    with ⟨rs2, e2, ok22, aout2⟩
                  rw [hrec2] at hrec
                  simp only at hrec
                  injection hrec with hh1 hrec
                  injection hrec with hh2 hrec
                  injection hrec with hh3 hh4
                  subst hh1; subst hh2; subst hh3; subst hh4
                  obtain ⟨he2, hb1', hb2', hpl', hro', hnil', _⟩ :=
                    ih (a + len0v) (a + len0v) _ _ (by omega) (by omega)
                      (by omega) (by omega)
                      (by
                        refine HtInv_upd S _ (a + len0v) (a + len0v) _ _ ?_
                          (by omega) (by omega) (Or.inr (by omega))
                        refine HtInv_upd S _ (a + len0v) (a + len0v) _ _ ?_
                          (by omega) (by omega) (Or.inr (by omega))
                        exact HtInv_mono S _ (a + 1) _ hinv1 (by omega))
                      rs2 e2 ok22 aout2 hrec2
                  refine ⟨he2, by omega, by omega, ?_, ?_, ?_, ?_⟩
                  · simp only [List.cons_append, List.nil_append]
                    rw [play]
                    rw [List.length_take, Nat.min_eq_left (by omega)]
                    rw [show a - (a - refp - 1) - 1 = refp by omega]
                    rw [lzext_match len0v a refp S href.1 (by omega)
                      (fun k hk => hagree k (by omega))]
                    exact hpl'
                  · simp only [List.cons_append, List.nil_append, recsOK]
                    exact ⟨by omega, hacc.1, by omega, hro'⟩
                  · intro hcon
                    exact absurd hcon (List.cons_ne_nil _ _)
                  · intro hlt _
                    omega
                · simp only [dif_neg h4b] at hrec
                  injection hrec with hh1 hrec
                  injection hrec with hh2 hrec
                  injection hrec with hh3 hh4
                  subst hh1; subst hh2; subst hh3; subst hh4
                  refine ⟨rfl, by omega, by omega, ?_, ?_, ?_, ?_⟩
                  · rw [play]
                    rw [List.length_take, Nat.min_eq_left (by omega)]
                    rw [show a - (a - refp - 1) - 1 = refp by omega]
                    rw [lzext_match len0v a refp S href.1 (by omega)
                      (fun k hk => hagree k (by omega))]
                    rfl
                  · simp only [List.cons_append, List.nil_append, recsOK]
                    exact ⟨by omega, hacc.1, by omega, trivial⟩
                  · intro hcon
                    exact absurd hcon (List.cons_ne_nil _ _)
                  · intro hlt _
                    omega
      · simp only [if_neg hacc] at hrec
        obtain ⟨he, hb1, hb2, hpl, hro, hnil, hfst⟩ :=
          ih (i + 1) a _ _ (by omega) (by omega) (by omega) (by omega) hinv1
            rs e ok2 aout hrec
        exact ⟨he, hb1, hb2, hpl, hro, hnil, fun hlt => hfst (by omega)⟩
    · rw [dif_neg h4] at hrec
      injection hrec with hh1 hrec
      injection hrec with hh2 hrec
      injection hrec with hh3 hh4
      subst hh1; subst hh2; subst hh3; subst hh4
      exact ⟨rfl, le_rfl, by omega, rfl, trivial, fun _ => rfl, fun _ h => absurd rfl h⟩

/-- A whole compression run over the record writer on a nonempty input
produces a record list that replays to exactly the input, is well formed, and
starts with a nonempty literal run. -/
theorem compress_records (maxd : Nat) (lv2 : Bool) (S : List Nat) (hS : S ≠ []) :
    ∃ rs ok2, compress_impl (recWriter maxd lv2) S [] = (rs, none, ok2) ∧
      play [] rs = S ∧ recsOK maxd 0 rs ∧ ∃ l tl, rs = FRec.lit l :: tl ∧ l ≠ [] := by
  have hlen : 1 ≤ S.length := by
    cases S with
    | nil => simp at hS
    | cons a t => simp
  rw [compress_impl, if_neg (by omega)]
  rcases hrec : compressLoop (recWriter maxd lv2) S 1 0 (fun _ => 0) [] true
    with ⟨rs0, e, okv, an⟩
  obtain ⟨he, hb1, hb2, hpl, hro, hnil, hfst⟩ :=
    recLoop_plays maxd lv2 S S.length 1 0 (fun _ => 0) true (by omega) (by omega) (by omega)
      (by omega) (fun h => ⟨Nat.zero_lt_one, Or.inl rfl⟩) rs0 e okv an hrec
  subst he
  rw [List.take_zero] at hpl
  simp only
  by_cases htr : (S.drop an).length > 0
  · rw [if_pos htr]
    simp only [recWriter_put_lits]
    refine ⟨rs0 ++ [FRec.lit (S.drop an)], okv, rfl, ?_, ?_, ?_⟩
    · rw [play_append, hpl, play, play, List.take_append_drop]
    · refine recsOK_append rs0 _ maxd 0 hro ?_
      simp only [recsOK]
      refine ⟨?_, trivial⟩
      intro hcon
      rw [hcon] at htr
      simp at htr
    · by_cases h0 : rs0 = []
      · subst h0
        have han : an = 0 := hnil rfl
        subst han
        exact ⟨S.drop 0, [], by simp, by simpa using hS⟩
      · obtain ⟨l, tl, heq, hlne⟩ := hfst (by omega) h0
        exact ⟨l, tl ++ [FRec.lit (S.drop an)], by rw [heq]; simp, hlne⟩
  · rw [if_neg htr]
    have han : an = S.length := by
      simp at htr
      omega
    refine ⟨rs0, okv, rfl, ?_, hro, ?_⟩
    · rw [hpl, han, List.take_length]
    · have hne : rs0 ≠ [] := by
        intro hcon
        have := hnil hcon
        omega
      exact hfst (by omega) hne

/-- The main loop over any writer is the replay of the records that the
record writer logs on the same input: the final sink state and error are
those of replaying the records, and on success the instrumentation flag and
final anchor agree with the record run.  (The loop's control flow never
depends on the sink state, only on the writer's constants.) -/
theorem compressLoop_runRecs (σ : Type) (W : CWriter σ) (S : List Nat) :
    ∀ (m i a : Nat) (ht : Nat → Nat) (s : σ) (ok : Bool),
    S.length - i ≤ m →
    ∀ rs eR okR aR,
    compressLoop (recWriter W.maxDisp W.isLv2) S i a ht [] ok = (rs, eR, okR, aR) →
    (compressLoop W S i a ht s ok).1 = (runRecs W s rs).1 ∧
    (compressLoop W S i a ht s ok).2.1 = (runRecs W s rs).2 ∧
    ((runRecs W s rs).2 = none →
      compressLoop W S i a ht s ok = ((runRecs W s rs).1, none, okR, aR)) := by
  intro m
  induction m with
  | zero =>
    intro i a ht s ok hm rs eR okR aR hR
    rw [compressLoop.eq_def, dif_neg (by omega : ¬i + 4 ≤ S.length)] at hR
    injection hR with hh1 hR
    injection hR with hh2 hR
    injection hR with hh3 hh4
    subst hh1; subst hh2; subst hh3; subst hh4
    rw [compressLoop.eq_def, dif_neg (by omega : ¬i + 4 ≤ S.length)]
    exact ⟨rfl, rfl, fun _ => rfl⟩
  | succ m ih =>
    intro i a ht s ok hm rs eR okR aR hR
    rw [compressLoop.eq_def] at hR
    rw [compressLoop.eq_def]
    by_cases h4 : i + 4 ≤ S.length
    · simp only [dif_pos h4, recWriter_put_lits, recWriter_put_backref,
        recWriter_maxDisp, recWriter_isLv2] at hR
      simp only [dif_pos h4]
      set hashv := fastlz_hash (le4 S i &&& 16777215) with hhash
      set refp := ht hashv with hrefp
      set len0v := 3 + matchExt (List.drop (i + 3) S) (List.drop (refp + 3) S) with hM
      have hM3 : 3 ≤ len0v := by rw [hM]; omega
      have hlen0 : len0v ≤ S.length - i := by
        rw [hM]
        have hmle := (matchExt_le (List.drop (i + 3) S) (List.drop (refp + 3) S)).1
        simp only [List.length_drop] at hmle
        omega
      by_cases hacc : i - refp - 1 ≤ W.maxDisp ∧ (S.drop i).take 3 = (S.drop refp).take 3
      · simp only [if_pos hacc] at hR ⊢
        by_cases hbrk : W.isLv2 = true ∧ 8191 ≤ i - refp - 1 ∧ S.length < i + 5
        · simp only [if_pos hbrk] at hR ⊢
          injection hR with hh1 hR
          injection hR with hh2 hR
          injection hR with hh3 hh4
          subst hh1; subst hh2; subst hh3; subst hh4
          exact ⟨rfl, rfl, fun _ => rfl⟩
        · simp only [if_neg hbrk] at hR ⊢
          by_cases hgate : W.isLv2 = true ∧ 8191 ≤ i - refp - 1 ∧
              ¬(S.drop (i + 3)).take 2 = (S.drop (refp + 3)).take 2
          · simp only [if_pos hgate] at hR ⊢
            exact ih (i + 1) a _ s _ (by omega) rs eR okR aR hR
          · simp only [if_neg hgate] at hR ⊢
            set lenv := if W.isLv2 = true ∧ 8191 ≤ i - refp - 1 ∧ len0v = S.length - i
              then len0v - 1 else len0v with hlv
            have hlenv : 2 ≤ lenv ∧ lenv ≤ S.length - i := by
              rw [hlv]
              split
              · omega
              · omega
            by_cases hla : i - a > 0
            · simp only [if_pos hla, List.nil_append] at hR ⊢
              by_cases h4b : i + lenv - 2 + 4 ≤ S.length
              · simp only [dif_pos h4b] at hR ⊢
                rw [recLoop_acc W.maxDisp W.isLv2 S m _ _ _ _ _ (by omega)] at hR
                rcases hR2 : compressLoop (recWriter W.maxDisp W.isLv2) S (i + lenv)
                    (i + lenv)
                    (htUpd (htUpd (htUpd ht hashv i)
                      (fastlz_hash (le4 S (i + lenv - 2) &&& 16777215)) (i + lenv - 2))
                      (fastlz_hash (le4 S (i + lenv - 2) >>> 8 &&& 16777215))
                      (i + lenv - 2 + 1)) []
                    (ok && decide (refp < i ∧ refp + 3 ≤ S.length))
                  with ⟨rs2, e2, ok2, aout2⟩
                rw [hR2] at hR
                simp only at hR
                injection hR with hh1 hR
                injection hR with hh2 hR
                injection hR with hh3 hh4
                subst hh1; subst hh2; subst hh3; subst hh4
                simp only [List.append_assoc, List.cons_append, List.nil_append]
                rcases hput : W.put_lits s ((S.drop a).take (i - a)) with ⟨s1, e1⟩
                cases e1 with
                | some err =>
                  simp only
                  rw [runRecs, emitRec, hput]
                  simp
                | none =>
                  simp only
                  rw [runRecs, emitRec, hput]
                  simp only
                  rcases hput2 : W.put_backref s1 (i - refp - 1) lenv with ⟨s2, e2x⟩
                  cases e2x with
                  | some err =>
                    simp only
                    rw [runRecs, emitRec, hput2]
                    simp
                  | none =>
                    simp only
                    rw [runRecs, emitRec, hput2]
                    simp only
                    exact ih (i + lenv) (i + lenv) _ s2 _ (by omega) rs2 e2 ok2 aout2 hR2
              · simp only [dif_neg h4b] at hR ⊢
                injection hR with hh1 hR
                injection hR with hh2 hR
                injection hR with hh3 hh4
                subst hh1; subst hh2; subst hh3; subst hh4
                simp only [List.append_assoc, List.cons_append, List.nil_append]
                rcases hput : W.put_lits s ((S.drop a).take (i - a)) with ⟨s1, e1⟩
                cases e1 with
                | some err =>
                  simp only
                  rw [runRecs, emitRec, hput]
                  simp
                | none =>
                  simp only
                  rw [runRecs, emitRec, hput]
                  simp only
                  rcases hput2 : W.put_backref s1 (i - refp - 1) lenv with ⟨s2, e2x⟩
                  cases e2x with
                  | some err =>
                    simp only
                    rw [runRecs, emitRec, hput2]
                    simp
                  | none =>
                    simp only
                    rw [runRecs, emitRec, hput2]
                    simp [runRecs]
            · simp only [if_neg hla, List.nil_append] at hR ⊢
              by_cases h4b : i + lenv - 2 + 4 ≤ S.length
              · simp only [dif_pos h4b] at hR ⊢
                rw [recLoop_acc W.maxDisp W.isLv2 S m _ _ _ _ _ (by omega)] at hR
                rcases hR2 : compressLoop (recWriter W.maxDisp W.isLv2) S (i + lenv)
                    (i + lenv)
                    (htUpd (htUpd (htUpd ht hashv i)
                      (fastlz_hash (le4 S (i + lenv - 2) &&& 16777215)) (i + lenv - 2))
                      (fastlz_hash (le4 S (i + lenv - 2) >>> 8 &&& 16777215))
                      (i + lenv - 2 + 1)) []
                    (ok && decide (refp < i ∧ refp + 3 ≤ S.length))
                  with ⟨rs2, e2, ok2, aout2⟩
                rw [hR2] at hR
                simp only at hR
                injection hR with hh1 hR
                injection hR with hh2 hR
                injection hR with hh3 hh4
                subst hh1; subst hh2; subst hh3; subst hh4
                simp only [List.cons_append, List.nil_append]
                rcases hput2 : W.put_backref s (i - refp - 1) lenv with ⟨s2, e2x⟩
                cases e2x with
                | some err =>
                  simp only
                  rw [runRecs, emitRec, hput2]
                  simp
                | none =>
                  simp only
                  rw [runRecs, emitRec, hput2]
                  simp only
                  exact ih (i + lenv) (i + lenv) _ s2 _ (by omega) rs2 e2 ok2 aout2 hR2
              · simp only [dif_neg h4b] at hR ⊢
                injection hR with hh1 hR
                injection hR with hh2 hR
                injection hR with hh3 hh4
                subst hh1; subst hh2; subst hh3; subst hh4
                rcases hput2 : W.put_backref s (i - refp - 1) lenv with ⟨s2, e2x⟩
                cases e2x with
                | some err =>
                  simp only
                  rw [runRecs, emitRec, hput2]
                  simp
                | none =>
                  simp only
                  rw [runRecs, emitRec, hput2]
                  simp [runRecs]
      · simp only [if_neg hacc] at hR ⊢
        exact ih (i + 1) a _ s _ (by omega) rs eR okR aR hR
    · simp only [dif_neg h4] at hR ⊢
      injection hR with hh1 hR
      injection hR with hh2 hR
      injection hR with hh3 hh4
      subst hh1; subst hh2; subst hh3; subst hh4
      exact ⟨rfl, rfl, fun _ => rfl⟩

/-- Projection of the record writer's poke (it does nothing). -/
theorem recWriter_poke (maxd : Nat) (lv2 : Bool) (s : List FRec) :
    (recWriter maxd lv2).poke s = s := rfl

/-- A whole compression run over any writer is the replay of the records of
the whole record-writer run (including the trailing literal run), followed on
success by the level-2 poke; the instrumentation flag is always true. -/
theorem compress_impl_runRecs (σ : Type) (W : CWriter σ) (S : List Nat) (s : σ) :
    compress_impl W S s
      = (match runRecs W s (compress_impl (recWriter W.maxDisp W.isLv2) S []).1 with
         | (s1, some e) => (s1, some e, true)
         | (s1, none) => ((if S.length = 0 then s else W.poke s1), none, true)) := by
  rw [compress_impl, compress_impl]
  by_cases h0 : S.length = 0
  · simp only [if_pos h0]
    simp [runRecs]
  · simp only [if_neg h0]
    have hok := compressLoop_ok W S S.length 1 0 (fun _ => 0) s true (by omega) (by omega)
      (fun h => ⟨Nat.zero_lt_one, Or.inl rfl⟩)
    rcases hR : compressLoop (recWriter W.maxDisp W.isLv2) S 1 0 (fun _ => 0) [] true
      with ⟨rs0, eR, okR, aR⟩
    have hnoerr : eR = none := by
      have hne := recLoop_noerr W.maxDisp W.isLv2 S S.length 1 0 (fun _ => 0) [] true (by omega)
      rw [hR] at hne
      exact hne
    subst hnoerr
    obtain ⟨g1, g2, g3⟩ := compressLoop_runRecs σ W S S.length 1 0 (fun _ => 0) s true
      (by omega) rs0 none okR aR hR
    rcases hW : compressLoop W S 1 0 (fun _ => 0) s true with ⟨s1, e1, ok1, an1⟩
    rw [hW] at g1 g2 g3 hok
    simp only at g1 g2 g3 hok
    subst hok
    rcases hrr : runRecs W s rs0 with ⟨sr, er⟩
    rw [hrr] at g1 g2 g3
    simp only at g1 g2 g3
    cases er with
    | some e =>
      subst g1
      subst g2
      simp only
      by_cases htr : (S.drop aR).length > 0
      · rw [if_pos htr]
        simp only [recWriter_put_lits, recWriter_poke]
        rw [runRecs_append, hrr]
      · rw [if_neg htr]
        simp only [recWriter_poke]
        rw [hrr]
    | none =>
      have hg3 := g3 rfl
      injection hg3 with hh1 hg3
      injection hg3 with hh2 hg3
      injection hg3 with hh3 hh4
      subst hh1; subst hh2; subst hh3; subst hh4
      simp only
      by_cases htr : (S.drop an1).length > 0
      · simp only [if_pos htr]
        simp only [recWriter_put_lits, recWriter_poke]
        rw [runRecs_append, hrr]
        simp only
        rw [runRecs, emitRec]
        rcases hputt : W.put_lits s1 (S.drop an1) with ⟨s2, et⟩
        cases et with
        | some e2 =>
          simp only
        | none =>
          simp only [runRecs]
      · simp only [if_neg htr]
        simp only [recWriter_poke]
        rw [hrr]

/-- Projection of the level-1 writer's poke (it does nothing). -/
theorem l1Writer_poke (σ : Type) (K : CSink σ) (s : σ) : (l1Writer K).poke s = s := rfl

/-- Projection of the level-2 writer's poke (it delegates to the sink). -/
theorem l2Writer_poke (σ : Type) (K : CSink σ) (s : σ) : (l2Writer K).poke s = K.poke_l2 s := rfl

/-- The first byte of an encoded nonempty literal run is at most 31. -/
theorem litRunBytes_head (l : List Nat) (hl : l ≠ []) :
    ∃ b t, litRunBytes l = b :: t ∧ b ≤ 31 := by
  have hge1 : 1 ≤ l.length := by
    cases l with
    | nil => simp at hl
    | cons a t => simp
  rw [litRunBytes]
  by_cases h32 : l.length > 32
  · rw [if_pos h32]
    exact ⟨31, _, rfl, by omega⟩
  · rw [if_neg h32]
    exact ⟨l.length - 1, l, rfl, by omega⟩

/-- Level-1 compression to a growable buffer decompresses to the input. -/
theorem roundtrip_lv1 (S : List Nat) :
    decompress_to_vec (compress_impl (l1Writer vecCSink) S []).1 = (S, none) := by
  by_cases hS : S = []
  · subst hS
    rfl
  · have hlen : S.length ≠ 0 := by
      cases S with
      | nil => simp at hS
      | cons a t => simp
    obtain ⟨rs, ok2, himpl, hplay, hok, l0, tl, hrs, hl0⟩ := compress_records 8191 false S hS
    have hM := compress_impl_runRecs (List Nat) (l1Writer vecCSink) S []
    rw [show (l1Writer vecCSink).maxDisp = 8191 from rfl,
      show (l1Writer vecCSink).isLv2 = false from rfl, himpl] at hM
    simp only at hM
    rw [runRecs_vec1] at hM
    simp only [List.nil_append, if_neg hlen, l1Writer_poke] at hM
    rw [hM]
    subst hrs
    obtain ⟨b, t, hbt, hb31⟩ := litRunBytes_head l0 hl0
    have henc : encRecs1 (FRec.lit l0 :: tl) = b :: (t ++ encRecs1 tl) := by
      rw [encRecs1, encRec1, hbt]
      simp
    rw [henc, decompress_to_vec, decompress_impl]
    have hb0 : b >>> 5 = 0 := by
      rw [natShr5]
      exact Nat.div_eq_of_lt (by omega)
    rw [if_pos hb0, decompress_lv1]
    have hba : b &&& 31 = b := by
      rw [natAnd31]
      exact Nat.mod_eq_of_lt (by omega)
    rw [hba]
    show lv1Cont vecDSink (b :: (t ++ encRecs1 tl)) [] = (S, none)
    rw [← henc, show encRecs1 (FRec.lit l0 :: tl)
      = encRecs1 (FRec.lit l0 :: tl) ++ [] from (List.append_nil _).symm]
    rw [lv1_runs (FRec.lit l0 :: tl) [] [] hok]
    rw [lv1Cont, hplay]

/-- Level-2 compression to a growable buffer decompresses to the input. -/
theorem roundtrip_lv2 (S : List Nat) :
    decompress_to_vec (compress_impl (l2Writer vecCSink) S []).1 = (S, none) := by
  by_cases hS : S = []
  · subst hS
    rfl
  · have hlen : S.length ≠ 0 := by
      cases S with
      | nil => simp at hS
      | cons a t => simp
    obtain ⟨rs, ok2, himpl, hplay, hok, l0, tl, hrs, hl0⟩ :=
      compress_records (8191 + 65535) true S hS
    have hM := compress_impl_runRecs (List Nat) (l2Writer vecCSink) S []
    rw [show (l2Writer vecCSink).maxDisp = 8191 + 65535 from rfl,
      show (l2Writer vecCSink).isLv2 = true from rfl, himpl] at hM
    simp only at hM
    rw [runRecs_vec2] at hM
    simp only [List.nil_append, if_neg hlen] at hM
    rw [show ∀ v, (l2Writer vecCSink).poke v = vecPokeL2 v from fun _ => rfl] at hM
    rw [hM]
    subst hrs
    obtain ⟨b, t, hbt, hb31⟩ := litRunBytes_head l0 hl0
    have henc : encRecs2 (FRec.lit l0 :: tl) = b :: (t ++ encRecs2 tl) := by
      rw [encRecs2, encRec2, hbt]
      simp
    rw [henc, vecPokeL2, decompress_to_vec, decompress_impl]
    have hor : b ||| 32 = 32 + b := by
      have := natOr32 b (by omega)
      omega
    have hb1 : (b ||| 32) >>> 5 = 1 := by
      rw [hor, show 32 + b = 32 * 1 + b by omega]
      exact opByte_hi 1 b (by omega)
    rw [if_neg (by rw [hb1]; omega), if_pos hb1, decompress_lv2]
    have hba : (b ||| 32) &&& 31 = b := by
      rw [hor, show 32 + b = 32 * 1 + b by omega]
      exact opByte_lo 1 b (by omega)
    rw [hba]
    show lv2Cont vecDSink (b :: (t ++ encRecs2 tl)) [] = (S, none)
    rw [← henc, show encRecs2 (FRec.lit l0 :: tl)
      = encRecs2 (FRec.lit l0 :: tl) ++ [] from (List.append_nil _).symm]
    rw [lv2_runs (FRec.lit l0 :: tl) [] [] hok]
    rw [lv2Cont, hplay]

/-- C1: for every byte sequence and every compression level (Level1, Level2,
or Default, which resolves by input size), decompressing the compressed
output recovers exactly the input with no error: the round-trip through the
growable output sinks is the identity. -/
theorem c1_round_trip (S : List Nat) (L : CompressionLevel) :
    decompress_to_vec (compress_to_vec S L).1 = (S, none) := by
  rw [compress_to_vec]
  split
  · split
    · exact roundtrip_lv1 S
    · exact roundtrip_lv2 S
  · split
    · exact roundtrip_lv1 S
    · exact roundtrip_lv2 S

/-! ## Claim C2: bounded sinks write a truncated copy of the growable run -/

/-- The bounded-buffer state that mirrors a growable sink holding `v`, over
an initial buffer `b0`. -/
def bufSt (b0 v : List Nat) : BufOutput :=
  ⟨v.length, v ++ b0.drop v.length⟩

/-- The mirrored buffer always has the initial buffer's length. -/
theorem bufSt_len (b0 v : List Nat) (hv : v.length ≤ b0.length) :
    (bufSt b0 v).buf.length = b0.length := by
  rw [bufSt]
  simp
  omega

/-- The bounded decompressor sink's `put_lits` mirrors appending, truncated
at capacity. -/
theorem bufPutLits_rel (b0 v l : List Nat) (hv : v.length ≤ b0.length) :
    BufOutput.put_lits (bufSt b0 v) l
      = if v.length + l.length ≤ b0.length
        then (bufSt b0 (v ++ l), none)
        else (⟨b0.length, (v ++ l).take b0.length⟩, some DecompressError.OutputTooSmall) := by
  have hbl : (v ++ b0.drop v.length).length = b0.length := by
    simp
    omega
  have htk : (v ++ b0.drop v.length).take v.length = v := by
    rw [List.take_append_eq_append_take]
    simp
  rw [BufOutput.put_lits]
  simp only [bufSt, hbl]
  by_cases hfit : v.length + l.length ≤ b0.length
  · rw [if_neg (by omega), setRange, htk]
    have hdr : (v ++ b0.drop v.length).drop (v.length + l.length)
        = b0.drop (v.length + l.length) := by
      rw [List.drop_append_eq_append_drop,
        List.drop_eq_nil_of_le (by omega : v.length ≤ v.length + l.length),
        show v.length + l.length - v.length = l.length by omega,
        List.drop_drop, List.nil_append]
    rw [hdr, if_pos hfit]
    simp
  · rw [if_pos (by omega), setRange, htk]
    have hlt : (l.take (b0.length - v.length)).length = b0.length - v.length := by
      simp
      omega
    have hdr2 : (v ++ b0.drop v.length).drop
        (v.length + (l.take (b0.length - v.length)).length) = [] := by
      apply List.drop_eq_nil_of_le
      rw [hbl, hlt]
      omega
    rw [hdr2, if_neg hfit]
    have hbuf : v ++ (l.take (b0.length - v.length) ++ []) = (v ++ l).take b0.length := by
      rw [List.append_nil, List.take_append_eq_append_take,
        List.take_of_length_le (by omega : v.length ≤ b0.length)]
    rw [List.append_assoc, hbuf, show v.length + (b0.length - v.length) = b0.length by omega]

/-- The bounded decompressor sink's `put_backref` mirrors the forward
self-extending copy, truncated at capacity, with the same displacement
check. -/
theorem bufPutBackref_rel (b0 v : List Nat) (d n : Nat) (hv : v.length ≤ b0.length) :
    BufOutput.put_backref (bufSt b0 v) d n
      = if d + 1 > v.length then
          (bufSt b0 v, some DecompressError.InvalidBackreference)
        else if v.length + n ≤ b0.length
        then (bufSt b0 (lzext v (v.length - d - 1) n), none)
        else (⟨b0.length, (lzext v (v.length - d - 1) n).take b0.length⟩,
              some DecompressError.OutputTooSmall) := by
  have hbl : (v ++ b0.drop v.length).length = b0.length := by
    simp
    omega
  rw [BufOutput.put_backref]
  simp only [bufSt, hbl]
  by_cases hd : d + 1 > v.length
  · rw [if_pos hd, if_pos hd]
  · rw [if_neg hd, if_neg hd]
    have hs : v.length - d - 1 < v.length := by omega
    by_cases hfit : v.length + n ≤ b0.length
    · rw [if_neg (by omega), if_pos hfit]
      rw [brCopy_append n v (b0.drop v.length) (v.length - d - 1) hs (by simp; omega)]
      rw [List.drop_drop]
      have hlz : (lzext v (v.length - d - 1) n).length = v.length + n := lzext_length n v _
      rw [hlz]
    · rw [if_pos (by omega), if_neg hfit]
      rw [brCopy_append (b0.length - v.length) v (b0.drop v.length) (v.length - d - 1) hs
        (by simp)]
      have hdr : (b0.drop v.length).drop (b0.length - v.length) = [] := by
        apply List.drop_eq_nil_of_le
        simp
      rw [hdr, List.append_nil]
      rw [← lzext_take n (b0.length - v.length) v (v.length - d - 1) (by omega)]
      rw [show v.length + (b0.length - v.length) = b0.length by omega]

/-- Projection of `put_lits` for the bounded decoder sink. -/
theorem bufDSink_put_lits (s : BufOutput) (l : List Nat) :
    bufDSink.put_lits s l = BufOutput.put_lits s l := rfl

/-- Projection of `put_backref` for the bounded decoder sink. -/
theorem bufDSink_put_backref (s : BufOutput) (d n : Nat) :
    bufDSink.put_backref s d n = BufOutput.put_backref s d n := rfl

/-- The growable level-1 decoder only ever appends to its output. -/
theorem lv1_vec_mono : ∀ (m : Nat) (inp : List Nat), inp.length ≤ m →
    ∀ (ctrl : Nat) (v v' : List Nat) (e : Option DecompressError),
    lv1Loop vecDSink ctrl inp v = (v', e) → ∃ w, v' = v ++ w := by
  intro m
  induction m with
  | zero =>
    intro inp hm ctrl v v' e hvec
    have hnil : inp = [] := List.length_eq_zero.mp (by omega)
    subst hnil
    rw [lv1Loop.eq_def] at hvec
    by_cases h0 : ctrl >>> 5 = 0
    · rw [if_pos h0, if_pos (by simp)] at hvec
      injection hvec with hh1 hh2
      exact ⟨[], by simp [← hh1]⟩
    · rw [if_neg h0] at hvec
      by_cases h7 : ctrl >>> 5 = 7
      · rw [if_pos h7] at hvec
        simp only at hvec
        injection hvec with hh1 hh2
        exact ⟨[], by simp [← hh1]⟩
      · rw [if_neg h7] at hvec
        simp only at hvec
        injection hvec with hh1 hh2
        exact ⟨[], by simp [← hh1]⟩
  | succ m ih =>
    intro inp hm ctrl v v' e hvec
    by_cases h0 : ctrl >>> 5 = 0
    · by_cases hl : inp.length < (ctrl &&& 31) + 1
      · rw [lv1Loop_lit_trunc vecDSink ctrl inp v h0 hl] at hvec
        injection hvec with hh1 hh2
        exact ⟨[], by simp [← hh1]⟩
      · rw [lv1Loop_lit vecDSink ctrl inp v h0 (by omega), vecDSink_put_lits] at hvec
        simp only at hvec
        rcases hdrop : inp.drop ((ctrl &&& 31) + 1) with _ | ⟨c, rest⟩
        · rw [hdrop, lv1Cont] at hvec
          injection hvec with hh1 hh2
          exact ⟨v.take 0 ++ inp.take ((ctrl &&& 31) + 1), by rw [← hh1]; simp⟩
        · rw [hdrop, lv1Cont] at hvec
          obtain ⟨w, hw⟩ := ih rest (by
            have := congrArg List.length hdrop
            simp at this
            omega) c _ v' e hvec
          exact ⟨inp.take ((ctrl &&& 31) + 1) ++ w, by rw [hw]; simp⟩
    · by_cases h7 : ctrl >>> 5 = 7
      · rcases inp with _ | ⟨b, inp1⟩
        · rw [lv1Loop.eq_def, if_neg h0, if_pos h7] at hvec
          simp only at hvec
          injection hvec with hh1 hh2
          exact ⟨[], by simp [← hh1]⟩
        · rcases inp1 with _ | ⟨lo, rest⟩
          · rw [lv1Loop.eq_def, if_neg h0, if_pos h7] at hvec
            simp only at hvec
            injection hvec with hh1 hh2
            exact ⟨[], by simp [← hh1]⟩
          · rw [lv1Loop_long vecDSink ctrl b lo rest v h7, vecDSink_put_backref] at hvec
            rw [vecPutBackref] at hvec
            by_cases hd : (((ctrl &&& 31) <<< 8) ||| lo) + 1 > v.length
            · rw [if_pos hd] at hvec
              simp only at hvec
              injection hvec with hh1 hh2
              exact ⟨[], by simp [← hh1]⟩
            · rw [if_neg hd] at hvec
              rw [brCopy_append (b + 9) v (List.replicate (b + 9) 0) _ (by omega) (by simp),
                List.drop_replicate, Nat.sub_self, List.replicate_zero, List.append_nil]
                at hvec
              simp only at hvec
              obtain ⟨w0, hw0⟩ := lzext_ext (b + 9) v (v.length - (((ctrl &&& 31) <<< 8) ||| lo) - 1)
              rcases rest with _ | ⟨c, rest2⟩
              · rw [lv1Cont] at hvec
                injection hvec with hh1 hh2
                exact ⟨w0, by rw [← hh1, hw0]⟩
              · rw [lv1Cont] at hvec
                obtain ⟨w, hw⟩ := ih rest2 (by simp at hm ⊢; omega) c _ v' e hvec
                exact ⟨w0 ++ w, by rw [hw, hw0, List.append_assoc]⟩
      · rcases inp with _ | ⟨lo, rest⟩
        · rw [lv1Loop.eq_def, if_neg h0, if_neg h7] at hvec
          simp only at hvec
          injection hvec with hh1 hh2
          exact ⟨[], by simp [← hh1]⟩
        · rw [lv1Loop_short vecDSink ctrl lo rest v h0 h7, vecDSink_put_backref] at hvec
          rw [vecPutBackref] at hvec
          by_cases hd : (((ctrl &&& 31) <<< 8) ||| lo) + 1 > v.length
          · rw [if_pos hd] at hvec
            simp only at hvec
            injection hvec with hh1 hh2
            exact ⟨[], by simp [← hh1]⟩
          · rw [if_neg hd] at hvec
            rw [brCopy_append ((ctrl >>> 5) + 2) v (List.replicate ((ctrl >>> 5) + 2) 0) _
              (by omega) (by simp),
              List.drop_replicate, Nat.sub_self, List.replicate_zero, List.append_nil]
              at hvec
            simp only at hvec
            obtain ⟨w0, hw0⟩ := lzext_ext ((ctrl >>> 5) + 2) v
              (v.length - (((ctrl &&& 31) <<< 8) ||| lo) - 1)
            rcases rest with _ | ⟨c, rest2⟩
            · rw [lv1Cont] at hvec
              injection hvec with hh1 hh2
              exact ⟨w0, by rw [← hh1, hw0]⟩
            · rw [lv1Cont] at hvec
              obtain ⟨w, hw⟩ := ih rest2 (by simp at hm ⊢; omega) c _ v' e hvec
              exact ⟨w0 ++ w, by rw [hw, hw0, List.append_assoc]⟩

/-- The bounded level-1 decoder mirrors the growable one: as long as the
output fits it tracks it exactly (same bytes, same error), and as soon as the
growable output would exceed the capacity it stops with `OutputTooSmall`
holding exactly the capacity-truncated bytes of the growable output. -/
theorem lv1Loop_buf (b0 : List Nat) : ∀ (m : Nat) (inp : List Nat), inp.length ≤ m →
    ∀ (ctrl : Nat) (v v' : List Nat) (e : Option DecompressError), v.length ≤ b0.length →
    lv1Loop vecDSink ctrl inp v = (v', e) →
    (v'.length ≤ b0.length → lv1Loop bufDSink ctrl inp (bufSt b0 v) = (bufSt b0 v', e)) ∧
    (b0.length < v'.length → lv1Loop bufDSink ctrl inp (bufSt b0 v)
        = (⟨b0.length, v'.take b0.length⟩, some DecompressError.OutputTooSmall)) := by
  intro m
  induction m with
  | zero =>
    intro inp hm ctrl v v' e hv hvec
    have hnil : inp = [] := List.length_eq_zero.mp (by omega)
    subst hnil
    rw [lv1Loop.eq_def] at hvec
    rw [lv1Loop.eq_def]
    by_cases h0 : ctrl >>> 5 = 0
    · rw [if_pos h0, if_pos (by simp)] at hvec
      rw [if_pos h0, if_pos (by simp)]
      injection hvec with hh1 hh2
      subst hh1; subst hh2
      exact ⟨fun _ => rfl, fun h => absurd h (by omega)⟩
    · rw [if_neg h0] at hvec ⊢
      by_cases h7 : ctrl >>> 5 = 7
      · rw [if_pos h7] at hvec ⊢
        simp only at hvec ⊢
        injection hvec with hh1 hh2
        subst hh1; subst hh2
        exact ⟨fun _ => rfl, fun h => absurd h (by omega)⟩
      · rw [if_neg h7] at hvec ⊢
        simp only at hvec ⊢
        injection hvec with hh1 hh2
        subst hh1; subst hh2
        exact ⟨fun _ => rfl, fun h => absurd h (by omega)⟩
  | succ m ih =>
    intro inp hm ctrl v v' e hv hvec
    by_cases h0 : ctrl >>> 5 = 0
    · by_cases hl : inp.length < (ctrl &&& 31) + 1
      · rw [lv1Loop_lit_trunc vecDSink ctrl inp v h0 hl] at hvec
        injection hvec with hh1 hh2
        subst hh1; subst hh2
        rw [lv1Loop_lit_trunc bufDSink ctrl inp _ h0 hl]
        exact ⟨fun _ => rfl, fun h => absurd h (by omega)⟩
      · rw [lv1Loop_lit vecDSink ctrl inp v h0 (by omega), vecDSink_put_lits] at hvec
        simp only at hvec
        have hbufstep := lv1Loop_lit bufDSink ctrl inp (bufSt b0 v) h0 (by omega)
        rw [bufDSink_put_lits, bufPutLits_rel b0 v _ hv] at hbufstep
        rcases hdrop : inp.drop ((ctrl &&& 31) + 1) with _ | ⟨c, rest⟩
        · rw [hdrop, lv1Cont] at hvec
          injection hvec with hh1 hh2
          subst hh1; subst hh2
          rw [hdrop] at hbufstep
          constructor
          · intro hfits
            rw [if_pos (by rw [List.length_append] at hfits; omega)] at hbufstep
            simp only at hbufstep
            rw [lv1Cont] at hbufstep
            exact hbufstep
          · intro hover
            rw [if_neg (by rw [List.length_append] at hover; omega)] at hbufstep
            simp only at hbufstep
            exact hbufstep
        · rw [hdrop, lv1Cont] at hvec
          obtain ⟨w, hw⟩ := lv1_vec_mono rest.length rest le_rfl c _ v' e hvec
          have hrl : rest.length ≤ m := by
            have hc := congrArg List.length hdrop
            simp at hc
            omega
          by_cases hmid : (v ++ inp.take ((ctrl &&& 31) + 1)).length ≤ b0.length
          · obtain ⟨g2, g3⟩ := ih rest hrl c _ v' e hmid hvec
            rw [if_pos (by rw [List.length_append] at hmid; omega), hdrop] at hbufstep
            simp only at hbufstep
            rw [lv1Cont] at hbufstep
            exact ⟨fun hfits => by rw [hbufstep, g2 hfits],
              fun hover => by rw [hbufstep, g3 hover]⟩
          · push_neg at hmid
            rw [if_neg (by rw [List.length_append] at hmid; omega), hdrop] at hbufstep
            simp only at hbufstep
            have hvlen : b0.length < v'.length := by
              have hlw := congrArg List.length hw
              rw [List.length_append] at hlw
              omega
            have htl : b0.length ≤ (v ++ List.take ((ctrl &&& 31) + 1) inp).length := by
              omega
            refine ⟨fun hfits => absurd hfits (by omega), fun _ => ?_⟩
            rw [hbufstep, hw, List.take_append_of_le_length htl]
    · by_cases h7 : ctrl >>> 5 = 7
      · rcases inp with _ | ⟨b, inp1⟩
        · rw [lv1Loop.eq_def, if_neg h0, if_pos h7] at hvec
          rw [lv1Loop.eq_def, if_neg h0, if_pos h7]
          simp only at hvec ⊢
          injection hvec with hh1 hh2
          subst hh1; subst hh2
          exact ⟨fun _ => rfl, fun h => absurd h (by omega)⟩
        · rcases inp1 with _ | ⟨lo, rest⟩
          · rw [lv1Loop.eq_def, if_neg h0, if_pos h7] at hvec
            rw [lv1Loop.eq_def, if_neg h0, if_pos h7]
            simp only at hvec ⊢
            injection hvec with hh1 hh2
            subst hh1; subst hh2
            exact ⟨fun _ => rfl, fun h => absurd h (by omega)⟩
          · rw [lv1Loop_long vecDSink ctrl b lo rest v h7, vecDSink_put_backref] at hvec
            have hbufstep := lv1Loop_long bufDSink ctrl b lo rest (bufSt b0 v) h7
            rw [bufDSink_put_backref, bufPutBackref_rel b0 v _ _ hv] at hbufstep
            by_cases hd : (((ctrl &&& 31) <<< 8) ||| lo) + 1 > v.length
            · rw [vecPutBackref, if_pos hd] at hvec
              simp only at hvec
              injection hvec with hh1 hh2
              subst hh1; subst hh2
              rw [if_pos hd] at hbufstep
              simp only at hbufstep
              exact ⟨fun _ => hbufstep, fun h => absurd h (by omega)⟩
            · rw [vecPutBackref_lzext v _ _ (by omega)] at hvec
              simp only at hvec
              rw [if_neg hd] at hbufstep
              have hlz : (lzext v (v.length - (((ctrl &&& 31) <<< 8) ||| lo) - 1)
                  (b + 9)).length = v.length + (b + 9) :=
                lzext_length _ v _
              rcases rest with _ | ⟨c, rest2⟩
              · rw [lv1Cont] at hvec
                injection hvec with hh1 hh2
                subst hh1; subst hh2
                constructor
                · intro hfits
                  rw [if_pos (by rw [hlz] at hfits; omega)] at hbufstep
                  simp only at hbufstep
                  rw [lv1Cont] at hbufstep
                  exact hbufstep
                · intro hover
                  rw [if_neg (by rw [hlz] at hover; omega)] at hbufstep
                  simp only at hbufstep
                  exact hbufstep
              · rw [lv1Cont] at hvec
                obtain ⟨w, hw⟩ := lv1_vec_mono rest2.length rest2 le_rfl c _ v' e hvec
                have hrl : rest2.length ≤ m := by
                  simp at hm
                  omega
                by_cases hmid : (lzext v (v.length - (((ctrl &&& 31) <<< 8) ||| lo) - 1)
                    (b + 9)).length ≤ b0.length
                · obtain ⟨g2, g3⟩ := ih rest2 hrl c _ v' e hmid hvec
                  rw [if_pos (by rw [hlz] at hmid; omega)] at hbufstep
                  simp only at hbufstep
                  rw [lv1Cont] at hbufstep
                  exact ⟨fun hfits => by rw [hbufstep, g2 hfits],
                    fun hover => by rw [hbufstep, g3 hover]⟩
                · push_neg at hmid
                  rw [if_neg (by rw [hlz] at hmid; omega)] at hbufstep
                  simp only at hbufstep
                  have hvlen : b0.length < v'.length := by
                    rw [hw]
                    simp
                    omega
                  have htl : b0.length ≤ (lzext v
                      (v.length - (((ctrl &&& 31) <<< 8) ||| lo) - 1) (b + 9)).length := by
                    omega
                  refine ⟨fun hfits => absurd hfits (by omega), fun _ => ?_⟩
                  rw [hbufstep, hw, List.take_append_of_le_length htl]
      · rcases inp with _ | ⟨lo, rest⟩
        · rw [lv1Loop.eq_def, if_neg h0, if_neg h7] at hvec
          rw [lv1Loop.eq_def, if_neg h0, if_neg h7]
          simp only at hvec ⊢
          injection hvec with hh1 hh2
          subst hh1; subst hh2
          exact ⟨fun _ => rfl, fun h => absurd h (by omega)⟩
        · rw [lv1Loop_short vecDSink ctrl lo rest v h0 h7, vecDSink_put_backref] at hvec
          have hbufstep := lv1Loop_short bufDSink ctrl lo rest (bufSt b0 v) h0 h7
          rw [bufDSink_put_backref, bufPutBackref_rel b0 v _ _ hv] at hbufstep
          by_cases hd : (((ctrl &&& 31) <<< 8) ||| lo) + 1 > v.length
          · rw [vecPutBackref, if_pos hd] at hvec
            simp only at hvec
            injection hvec with hh1 hh2
            subst hh1; subst hh2
            rw [if_pos hd] at hbufstep
            simp only at hbufstep
            exact ⟨fun _ => hbufstep, fun h => absurd h (by omega)⟩
          · rw [vecPutBackref_lzext v _ _ (by omega)] at hvec
            simp only at hvec
            rw [if_neg hd] at hbufstep
            have hlz : (lzext v (v.length - (((ctrl &&& 31) <<< 8) ||| lo) - 1)
                ((ctrl >>> 5) + 2)).length = v.length + ((ctrl >>> 5) + 2) :=
              lzext_length _ v _
            rcases rest with _ | ⟨c, rest2⟩
            · rw [lv1Cont] at hvec
              injection hvec with hh1 hh2
              subst hh1; subst hh2
              constructor
              · intro hfits
                rw [if_pos (by rw [hlz] at hfits; omega)] at hbufstep
                simp only at hbufstep
                rw [lv1Cont] at hbufstep
                exact hbufstep
              · intro hover
                rw [if_neg (by rw [hlz] at hover; omega)] at hbufstep
                simp only at hbufstep
                exact hbufstep
            · rw [lv1Cont] at hvec
              obtain ⟨w, hw⟩ := lv1_vec_mono rest2.length rest2 le_rfl c _ v' e hvec
              have hrl : rest2.length ≤ m := by
                simp at hm
                omega
              by_cases hmid : (lzext v (v.length - (((ctrl &&& 31) <<< 8) ||| lo) - 1)
                  ((ctrl >>> 5) + 2)).length ≤ b0.length
              · obtain ⟨g2, g3⟩ := ih rest2 hrl c _ v' e hmid hvec
                rw [if_pos (by rw [hlz] at hmid; omega)] at hbufstep
                simp only at hbufstep
                rw [lv1Cont] at hbufstep
                exact ⟨fun hfits => by rw [hbufstep, g2 hfits],
                  fun hover => by rw [hbufstep, g3 hover]⟩
              · push_neg at hmid
                rw [if_neg (by rw [hlz] at hmid; omega)] at hbufstep
                simp only at hbufstep
                have hvlen : b0.length < v'.length := by
                  rw [hw]
                  simp
                  omega
                have htl : b0.length ≤ (lzext v
                    (v.length - (((ctrl &&& 31) <<< 8) ||| lo) - 1) ((ctrl >>> 5) + 2)).length := by
                  omega
                refine ⟨fun hfits => absurd hfits (by omega), fun _ => ?_⟩
                rw [hbufstep, hw, List.take_append_of_le_length htl]

/-- A long level-2 record whose length-extension bytes run off the end of the
input fails with `InputTruncated`. -/
theorem lv2Loop_ext_trunc (σ : Type) (D : DSink σ) (ctrl : Nat) (inp : List Nat) (s : σ)
    (h7 : ctrl >>> 5 = 7) (hext : readExtLen inp ((ctrl >>> 5) + 2) = none) :
    lv2Loop D ctrl inp s = (s, some DecompressError.InputTruncated) := by
  rw [lv2Loop.eq_def]
  simp only [if_neg (by omega : ¬ctrl >>> 5 = 0)]
  split
  · rfl
  · rename_i len inp1 hx
    rw [if_pos h7, hext] at hx
    exact absurd hx (by simp)

/-- A short level-2 backreference with no remaining input fails with
`InputTruncated` (the low displacement byte is missing). -/
theorem lv2Loop_short_nil (σ : Type) (D : DSink σ) (ctrl : Nat) (s : σ)
    (h1 : ctrl >>> 5 ≠ 0) (h7 : ctrl >>> 5 ≠ 7) :
    lv2Loop D ctrl [] s = (s, some DecompressError.InputTruncated) := by
  rw [lv2Loop.eq_def]
  simp only [if_neg h1]
  split
  · rename_i hx
    rw [if_neg h7] at hx
  · rename_i len inp1 hx
    rw [if_neg h7] at hx
    injection hx with hpair
    injection hpair with hlen hinp
    subst hlen
    subst hinp
    rfl

/-- A long level-2 record whose input ends right after the length-extension
bytes fails with `InputTruncated` (the low displacement byte is missing). -/
theorem lv2Loop_long_nil (σ : Type) (D : DSink σ) (ctrl len : Nat) (inp : List Nat) (s : σ)
    (h7 : ctrl >>> 5 = 7) (hext : readExtLen inp ((ctrl >>> 5) + 2) = some (len, [])) :
    lv2Loop D ctrl inp s = (s, some DecompressError.InputTruncated) := by
  rw [lv2Loop.eq_def]
  simp only [if_neg (by omega : ¬ctrl >>> 5 = 0)]
  split
  · rename_i hx
    rw [if_pos h7, hext] at hx
  · rename_i len1 inp1 hx
    rw [if_pos h7, hext] at hx
    injection hx with hpair
    injection hpair with hlen hinp
    subst hlen
    subst hinp
    rfl

/-- A long level-2 record with saturated displacement field but fewer than
two bytes after the low displacement byte fails with `InputTruncated`. -/
theorem lv2Loop_long_far_trunc (σ : Type) (D : DSink σ) (ctrl len lo : Nat)
    (inp inp2 : List Nat) (s : σ)
    (h7 : ctrl >>> 5 = 7) (hext : readExtLen inp ((ctrl >>> 5) + 2) = some (len, lo :: inp2))
    (hd : ((ctrl &&& 31) <<< 8) ||| lo = 8191) (hlen : inp2.length < 2) :
    lv2Loop D ctrl inp s = (s, some DecompressError.InputTruncated) := by
  rw [lv2Loop.eq_def]
  simp only [if_neg (by omega : ¬ctrl >>> 5 = 0)]
  split
  · rename_i hx
    rw [if_pos h7, hext] at hx
  · rename_i len1 inp1 hx
    rw [if_pos h7, hext] at hx
    injection hx with hpair
    injection hpair with hlen2 hinp
    subst hlen2
    subst hinp
    simp only [if_pos hd]
    cases inp2 with
    | nil => simp
    | cons hi t =>
      cases t with
      | nil => simp
      | cons lo2 t2 => exact absurd hlen (by simp)

/-- A truncated level-2 literal run fails with `InputTruncated`. -/
theorem lv2Loop_lit_trunc (σ : Type) (D : DSink σ) (ctrl : Nat) (inp : List Nat) (s : σ)
    (h0 : ctrl >>> 5 = 0) (hl : inp.length < (ctrl &&& 31) + 1) :
    lv2Loop D ctrl inp s = (s, some DecompressError.InputTruncated) := by
  rw [lv2Loop.eq_def, if_pos h0, if_pos hl]

/-- The growable level-2 decoder only ever appends to its output. -/
theorem lv2_vec_mono : ∀ (m : Nat) (inp : List Nat), inp.length ≤ m →
    ∀ (ctrl : Nat) (v v' : List Nat) (e : Option DecompressError),
    lv2Loop vecDSink ctrl inp v = (v', e) → ∃ w, v' = v ++ w := by
  intro m
  induction m with
  | zero =>
    intro inp hm ctrl v v' e hvec
    have hnil : inp = [] := List.length_eq_zero.mp (by omega)
    subst hnil
    by_cases h0 : ctrl >>> 5 = 0
    · rw [lv2Loop_lit_trunc _ vecDSink ctrl [] v h0 (by simp)] at hvec
      injection hvec with hh1 hh2
      exact ⟨[], by simp [← hh1]⟩
    · by_cases h7 : ctrl >>> 5 = 7
      · rw [lv2Loop_ext_trunc _ vecDSink ctrl [] v h7 rfl] at hvec
        injection hvec with hh1 hh2
        exact ⟨[], by simp [← hh1]⟩
      · rw [lv2Loop_short_nil _ vecDSink ctrl v h0 h7] at hvec
        injection hvec with hh1 hh2
        exact ⟨[], by simp [← hh1]⟩
  | succ m ih =>
    intro inp hm ctrl v v' e hvec
    by_cases h0 : ctrl >>> 5 = 0
    · by_cases hl : inp.length < (ctrl &&& 31) + 1
      · rw [lv2Loop_lit_trunc _ vecDSink ctrl inp v h0 hl] at hvec
        injection hvec with hh1 hh2
        exact ⟨[], by simp [← hh1]⟩
      · rw [lv2Loop_lit vecDSink ctrl inp v h0 (by omega), vecDSink_put_lits] at hvec
        simp only at hvec
        rcases hdrop : inp.drop ((ctrl &&& 31) + 1) with _ | ⟨c, rest⟩
        · rw [hdrop, lv2Cont] at hvec
          injection hvec with hh1 hh2
          exact ⟨inp.take ((ctrl &&& 31) + 1), by rw [← hh1]⟩
        · rw [hdrop, lv2Cont] at hvec
          obtain ⟨w, hw⟩ := ih rest (by
            have hc := congrArg List.length hdrop
            simp at hc
            omega) c _ v' e hvec
          exact ⟨inp.take ((ctrl &&& 31) + 1) ++ w, by rw [hw]; simp⟩
    · by_cases h7 : ctrl >>> 5 = 7
      · rcases hext : readExtLen inp ((ctrl >>> 5) + 2) with _ | ⟨len, inp1⟩
        · rw [lv2Loop_ext_trunc _ vecDSink ctrl inp v h7 hext] at hvec
          injection hvec with hh1 hh2
          exact ⟨[], by simp [← hh1]⟩
        · have hlen1 := readExtLen_length inp ((ctrl >>> 5) + 2) len inp1 hext
          rcases inp1 with _ | ⟨lo, inp2⟩
          · rw [lv2Loop_long_nil _ vecDSink ctrl len inp v h7 hext] at hvec
            injection hvec with hh1 hh2
            exact ⟨[], by simp [← hh1]⟩
          · by_cases hdf : ((ctrl &&& 31) <<< 8) ||| lo = 8191
            · rcases inp2 with _ | ⟨hi, inp3⟩
              · rw [lv2Loop_long_far_trunc _ vecDSink ctrl len lo inp [] v h7 hext hdf
                  (by simp)] at hvec
                injection hvec with hh1 hh2
                exact ⟨[], by simp [← hh1]⟩
              · rcases inp3 with _ | ⟨lo2, inp4⟩
                · rw [lv2Loop_long_far_trunc _ vecDSink ctrl len lo inp [hi] v h7 hext hdf
                    (by simp)] at hvec
                  injection hvec with hh1 hh2
                  exact ⟨[], by simp [← hh1]⟩
                · rw [lv2Loop_long_far vecDSink ctrl lo hi lo2 len inp inp4 v h7 hext hdf,
                    vecDSink_put_backref, vecPutBackref] at hvec
                  by_cases hd : 8191 + ((hi <<< 8) ||| lo2) + 1 > v.length
                  · rw [if_pos hd] at hvec
                    simp only at hvec
                    injection hvec with hh1 hh2
                    exact ⟨[], by simp [← hh1]⟩
                  · rw [if_neg hd] at hvec
                    rw [brCopy_append len v (List.replicate len 0) _ (by omega) (by simp),
                      List.drop_replicate, Nat.sub_self, List.replicate_zero,
                      List.append_nil] at hvec
                    simp only at hvec
                    obtain ⟨w0, hw0⟩ := lzext_ext len v
                      (v.length - (8191 + ((hi <<< 8) ||| lo2)) - 1)
                    rcases inp4 with _ | ⟨c, rest2⟩
                    · rw [lv2Cont] at hvec
                      injection hvec with hh1 hh2
                      exact ⟨w0, by rw [← hh1, hw0]⟩
                    · rw [lv2Cont] at hvec
                      obtain ⟨w, hw⟩ := ih rest2 (by simp at hlen1; omega) c _ v' e hvec
                      exact ⟨w0 ++ w, by rw [hw, hw0, List.append_assoc]⟩
            · rw [lv2Loop_long vecDSink ctrl lo len inp inp2 v h7 hext hdf,
                vecDSink_put_backref, vecPutBackref] at hvec
              by_cases hd : (((ctrl &&& 31) <<< 8) ||| lo) + 1 > v.length
              · rw [if_pos hd] at hvec
                simp only at hvec
                injection hvec with hh1 hh2
                exact ⟨[], by simp [← hh1]⟩
              · rw [if_neg hd] at hvec
                rw [brCopy_append len v (List.replicate len 0) _ (by omega) (by simp),
                  List.drop_replicate, Nat.sub_self, List.replicate_zero,
                  List.append_nil] at hvec
                simp only at hvec
                obtain ⟨w0, hw0⟩ := lzext_ext len v
                  (v.length - (((ctrl &&& 31) <<< 8) ||| lo) - 1)
                rcases inp2 with _ | ⟨c, rest2⟩
                · rw [lv2Cont] at hvec
                  injection hvec with hh1 hh2
                  exact ⟨w0, by rw [← hh1, hw0]⟩
                · rw [lv2Cont] at hvec
                  obtain ⟨w, hw⟩ := ih rest2 (by simp at hlen1; omega) c _ v' e hvec
                  exact ⟨w0 ++ w, by rw [hw, hw0, List.append_assoc]⟩
      · rcases inp with _ | ⟨lo, rest⟩
        · rw [lv2Loop_short_nil _ vecDSink ctrl v h0 h7] at hvec
          injection hvec with hh1 hh2
          exact ⟨[], by simp [← hh1]⟩
        · by_cases hdf : ((ctrl &&& 31) <<< 8) ||| lo = 8191
          · rcases rest with _ | ⟨hi, rest1⟩
            · rw [lv2Loop_far_trunc vecDSink ctrl lo [] v h0 h7 hdf (by simp)] at hvec
              injection hvec with hh1 hh2
              exact ⟨[], by simp [← hh1]⟩
            · rcases rest1 with _ | ⟨lo2, rest2⟩
              · rw [lv2Loop_far_trunc vecDSink ctrl lo [hi] v h0 h7 hdf (by simp)] at hvec
                injection hvec with hh1 hh2
                exact ⟨[], by simp [← hh1]⟩
              · rw [lv2Loop_far vecDSink ctrl lo hi lo2 rest2 v h0 h7 hdf,
                  vecDSink_put_backref, vecPutBackref] at hvec
                by_cases hd : 8191 + ((hi <<< 8) ||| lo2) + 1 > v.length
                · rw [if_pos hd] at hvec
                  simp only at hvec
                  injection hvec with hh1 hh2
                  exact ⟨[], by simp [← hh1]⟩
                · rw [if_neg hd] at hvec
                  rw [brCopy_append ((ctrl >>> 5) + 2) v
                    (List.replicate ((ctrl >>> 5) + 2) 0) _ (by omega) (by simp),
                    List.drop_replicate, Nat.sub_self, List.replicate_zero,
                    List.append_nil] at hvec
                  simp only at hvec
                  obtain ⟨w0, hw0⟩ := lzext_ext ((ctrl >>> 5) + 2) v
                    (v.length - (8191 + ((hi <<< 8) ||| lo2)) - 1)
                  rcases rest2 with _ | ⟨c, rest3⟩
                  · rw [lv2Cont] at hvec
                    injection hvec with hh1 hh2
                    exact ⟨w0, by rw [← hh1, hw0]⟩
                  · rw [lv2Cont] at hvec
                    obtain ⟨w, hw⟩ := ih rest3 (by simp at hm; omega) c _ v' e hvec
                    exact ⟨w0 ++ w, by rw [hw, hw0, List.append_assoc]⟩
          · rw [lv2Loop_near vecDSink ctrl lo rest v h0 h7 hdf,
              vecDSink_put_backref, vecPutBackref] at hvec
            by_cases hd : (((ctrl &&& 31) <<< 8) ||| lo) + 1 > v.length
            · rw [if_pos hd] at hvec
              simp only at hvec
              injection hvec with hh1 hh2
              exact ⟨[], by simp [← hh1]⟩
            · rw [if_neg hd] at hvec
              rw [brCopy_append ((ctrl >>> 5) + 2) v
                (List.replicate ((ctrl >>> 5) + 2) 0) _ (by omega) (by simp),
                List.drop_replicate, Nat.sub_self, List.replicate_zero,
                List.append_nil] at hvec
              simp only at hvec
              obtain ⟨w0, hw0⟩ := lzext_ext ((ctrl >>> 5) + 2) v
                (v.length - (((ctrl &&& 31) <<< 8) ||| lo) - 1)
              rcases rest with _ | ⟨c, rest2⟩
              · rw [lv2Cont] at hvec
                injection hvec with hh1 hh2
                exact ⟨w0, by rw [← hh1, hw0]⟩
              · rw [lv2Cont] at hvec
                obtain ⟨w, hw⟩ := ih rest2 (by simp at hm; omega) c _ v' e hvec
                exact ⟨w0 ++ w, by rw [hw, hw0, List.append_assoc]⟩

/-- The bounded level-2 decoder mirrors the growable one: while the output
fits it tracks it exactly, and as soon as the growable output would exceed
the capacity it stops with `OutputTooSmall` holding the capacity-truncated
bytes of the growable output. -/
theorem lv2Loop_buf (b0 : List Nat) : ∀ (m : Nat) (inp : List Nat), inp.length ≤ m →
    ∀ (ctrl : Nat) (v v' : List Nat) (e : Option DecompressError), v.length ≤ b0.length →
    lv2Loop vecDSink ctrl inp v = (v', e) →
    (v'.length ≤ b0.length → lv2Loop bufDSink ctrl inp (bufSt b0 v) = (bufSt b0 v', e)) ∧
    (b0.length < v'.length → lv2Loop bufDSink ctrl inp (bufSt b0 v)
        = (⟨b0.length, v'.take b0.length⟩, some DecompressError.OutputTooSmall)) := by
  intro m
  induction m with
  | zero =>
    intro inp hm ctrl v v' e hv hvec
    have hnil : inp = [] := List.length_eq_zero.mp (by omega)
    subst hnil
    by_cases h0 : ctrl >>> 5 = 0
    · rw [lv2Loop_lit_trunc _ vecDSink ctrl [] v h0 (by simp)] at hvec
      injection hvec with hh1 hh2
      subst hh1; subst hh2
      rw [lv2Loop_lit_trunc _ bufDSink ctrl [] _ h0 (by simp)]
      exact ⟨fun _ => rfl, fun h => absurd h (by omega)⟩
    · by_cases h7 : ctrl >>> 5 = 7
      · rw [lv2Loop_ext_trunc _ vecDSink ctrl [] v h7 rfl] at hvec
        injection hvec with hh1 hh2
        subst hh1; subst hh2
        rw [lv2Loop_ext_trunc _ bufDSink ctrl [] _ h7 rfl]
        exact ⟨fun _ => rfl, fun h => absurd h (by omega)⟩
      · rw [lv2Loop_short_nil _ vecDSink ctrl v h0 h7] at hvec
        injection hvec with hh1 hh2
        subst hh1; subst hh2
        rw [lv2Loop_short_nil _ bufDSink ctrl _ h0 h7]
        exact ⟨fun _ => rfl, fun h => absurd h (by omega)⟩
  | succ m ih =>
    intro inp hm ctrl v v' e hv hvec
    by_cases h0 : ctrl >>> 5 = 0
    · by_cases hl : inp.length < (ctrl &&& 31) + 1
      · rw [lv2Loop_lit_trunc _ vecDSink ctrl inp v h0 hl] at hvec
        injection hvec with hh1 hh2
        subst hh1; subst hh2
        rw [lv2Loop_lit_trunc _ bufDSink ctrl inp _ h0 hl]
        exact ⟨fun _ => rfl, fun h => absurd h (by omega)⟩
      · rw [lv2Loop_lit vecDSink ctrl inp v h0 (by omega), vecDSink_put_lits] at hvec
        simp only at hvec
        have hbufstep := lv2Loop_lit bufDSink ctrl inp (bufSt b0 v) h0 (by omega)
        rw [bufDSink_put_lits, bufPutLits_rel b0 v _ hv] at hbufstep
        rcases hdrop : inp.drop ((ctrl &&& 31) + 1) with _ | ⟨c, rest⟩
        · rw [hdrop, lv2Cont] at hvec
          injection hvec with hh1 hh2
          subst hh1; subst hh2
          rw [hdrop] at hbufstep
          constructor
          · intro hfits
            rw [if_pos (by rw [List.length_append] at hfits; omega)] at hbufstep
            simp only at hbufstep
            rw [lv2Cont] at hbufstep
            exact hbufstep
          · intro hover
            rw [if_neg (by rw [List.length_append] at hover; omega)] at hbufstep
            simp only at hbufstep
            exact hbufstep
        · rw [hdrop, lv2Cont] at hvec
          obtain ⟨w, hw⟩ := lv2_vec_mono rest.length rest le_rfl c _ v' e hvec
          have hrl : rest.length ≤ m := by
            have hc := congrArg List.length hdrop
            simp at hc
            omega
          by_cases hmid : (v ++ inp.take ((ctrl &&& 31) + 1)).length ≤ b0.length
          · obtain ⟨g2, g3⟩ := ih rest hrl c _ v' e hmid hvec
            rw [if_pos (by rw [List.length_append] at hmid; omega), hdrop] at hbufstep
            simp only at hbufstep
            rw [lv2Cont] at hbufstep
            exact ⟨fun hfits => by rw [hbufstep, g2 hfits],
              fun hover => by rw [hbufstep, g3 hover]⟩
          · push_neg at hmid
            rw [if_neg (by rw [List.length_append] at hmid; omega), hdrop] at hbufstep
            simp only at hbufstep
            have hvlen : b0.length < v'.length := by
              have hlw := congrArg List.length hw
              rw [List.length_append] at hlw
              omega
            have htl : b0.length ≤ (v ++ List.take ((ctrl &&& 31) + 1) inp).length := by
              omega
            refine ⟨fun hfits => absurd hfits (by omega), fun _ => ?_⟩
            rw [hbufstep, hw, List.take_append_of_le_length htl]
    · by_cases h7 : ctrl >>> 5 = 7
      · rcases hext : readExtLen inp ((ctrl >>> 5) + 2) with _ | ⟨len, inp1⟩
        · rw [lv2Loop_ext_trunc _ vecDSink ctrl inp v h7 hext] at hvec
          injection hvec with hh1 hh2
          subst hh1; subst hh2
          rw [lv2Loop_ext_trunc _ bufDSink ctrl inp _ h7 hext]
          exact ⟨fun _ => rfl, fun h => absurd h (by omega)⟩
        · have hlen1 := readExtLen_length inp ((ctrl >>> 5) + 2) len inp1 hext
          rcases inp1 with _ | ⟨lo, inp2⟩
          · rw [lv2Loop_long_nil _ vecDSink ctrl len inp v h7 hext] at hvec
            injection hvec with hh1 hh2
            subst hh1; subst hh2
            rw [lv2Loop_long_nil _ bufDSink ctrl len inp _ h7 hext]
            exact ⟨fun _ => rfl, fun h => absurd h (by omega)⟩
          · by_cases hdf : ((ctrl &&& 31) <<< 8) ||| lo = 8191
            · rcases inp2 with _ | ⟨hi, inp3⟩
              · rw [lv2Loop_long_far_trunc _ vecDSink ctrl len lo inp [] v h7 hext hdf
                  (by simp)] at hvec
                injection hvec with hh1 hh2
                subst hh1; subst hh2
                rw [lv2Loop_long_far_trunc _ bufDSink ctrl len lo inp [] _ h7 hext hdf
                  (by simp)]
                exact ⟨fun _ => rfl, fun h => absurd h (by omega)⟩
              · rcases inp3 with _ | ⟨lo2, inp4⟩
                · rw [lv2Loop_long_far_trunc _ vecDSink ctrl len lo inp [hi] v h7 hext hdf
                    (by simp)] at hvec
                  injection hvec with hh1 hh2
                  subst hh1; subst hh2
                  rw [lv2Loop_long_far_trunc _ bufDSink ctrl len lo inp [hi] _ h7 hext hdf
                    (by simp)]
                  exact ⟨fun _ => rfl, fun h => absurd h (by omega)⟩
                · rw [lv2Loop_long_far vecDSink ctrl lo hi lo2 len inp inp4 v h7 hext hdf,
                    vecDSink_put_backref] at hvec
                  have hbufstep := lv2Loop_long_far bufDSink ctrl lo hi lo2 len inp inp4
                    (bufSt b0 v) h7 hext hdf
                  rw [bufDSink_put_backref, bufPutBackref_rel b0 v _ _ hv] at hbufstep
                  by_cases hd : 8191 + ((hi <<< 8) ||| lo2) + 1 > v.length
                  · rw [vecPutBackref, if_pos hd] at hvec
                    simp only at hvec
                    injection hvec with hh1 hh2
                    subst hh1; subst hh2
                    rw [if_pos hd] at hbufstep
                    simp only at hbufstep
                    exact ⟨fun _ => hbufstep, fun h => absurd h (by omega)⟩
                  · rw [vecPutBackref_lzext v _ _ (by omega)] at hvec
                    simp only at hvec
                    rw [if_neg hd] at hbufstep
                    have hlz : (lzext v (v.length - (8191 + ((hi <<< 8) ||| lo2)) - 1)
                        len).length = v.length + len := lzext_length _ v _
                    rcases inp4 with _ | ⟨c, rest2⟩
                    · rw [lv2Cont] at hvec
                      injection hvec with hh1 hh2
                      subst hh1; subst hh2
                      constructor
                      · intro hfits
                        rw [if_pos (by rw [hlz] at hfits; omega)] at hbufstep
                        simp only at hbufstep
                        rw [lv2Cont] at hbufstep
                        exact hbufstep
                      · intro hover
                        rw [if_neg (by rw [hlz] at hover; omega)] at hbufstep
                        simp only at hbufstep
                        exact hbufstep
                    · rw [lv2Cont] at hvec
                      obtain ⟨w, hw⟩ := lv2_vec_mono rest2.length rest2 le_rfl c _ v' e hvec
                      have hrl : rest2.length ≤ m := by
                        simp at hlen1
                        omega
                      by_cases hmid : (lzext v
                          (v.length - (8191 + ((hi <<< 8) ||| lo2)) - 1) len).length
                          ≤ b0.length
                      · obtain ⟨g2, g3⟩ := ih rest2 hrl c _ v' e hmid hvec
                        rw [if_pos (by rw [hlz] at hmid; omega)] at hbufstep
                        simp only at hbufstep
                        rw [lv2Cont] at hbufstep
                        exact ⟨fun hfits => by rw [hbufstep, g2 hfits],
                          fun hover => by rw [hbufstep, g3 hover]⟩
                      · push_neg at hmid
                        rw [if_neg (by rw [hlz] at hmid; omega)] at hbufstep
                        simp only at hbufstep
                        have hvlen : b0.length < v'.length := by
                          have hlw := congrArg List.length hw
                          rw [List.length_append] at hlw
                          omega
                        have htl : b0.length ≤ (lzext v
                            (v.length - (8191 + ((hi <<< 8) ||| lo2)) - 1) len).length := by
                          omega
                        refine ⟨fun hfits => absurd hfits (by omega), fun _ => ?_⟩
                        rw [hbufstep, hw, List.take_append_of_le_length htl]
            · rw [lv2Loop_long vecDSink ctrl lo len inp inp2 v h7 hext hdf,
                vecDSink_put_backref] at hvec
              have hbufstep := lv2Loop_long bufDSink ctrl lo len inp inp2
                (bufSt b0 v) h7 hext hdf
              rw [bufDSink_put_backref, bufPutBackref_rel b0 v _ _ hv] at hbufstep
              by_cases hd : (((ctrl &&& 31) <<< 8) ||| lo) + 1 > v.length
              · rw [vecPutBackref, if_pos hd] at hvec
                simp only at hvec
                injection hvec with hh1 hh2
                subst hh1; subst hh2
                rw [if_pos hd] at hbufstep
                simp only at hbufstep
                exact ⟨fun _ => hbufstep, fun h => absurd h (by omega)⟩
              · rw [vecPutBackref_lzext v _ _ (by omega)] at hvec
                simp only at hvec
                rw [if_neg hd] at hbufstep
                have hlz : (lzext v (v.length - (((ctrl &&& 31) <<< 8) ||| lo) - 1)
                    len).length = v.length + len := lzext_length _ v _
                rcases inp2 with _ | ⟨c, rest2⟩
                · rw [lv2Cont] at hvec
                  injection hvec with hh1 hh2
                  subst hh1; subst hh2
                  constructor
                  · intro hfits
                    rw [if_pos (by rw [hlz] at hfits; omega)] at hbufstep
                    simp only at hbufstep
                    rw [lv2Cont] at hbufstep
                    exact hbufstep
                  · intro hover
                    rw [if_neg (by rw [hlz] at hover; omega)] at hbufstep
                    simp only at hbufstep
                    exact hbufstep
                · rw [lv2Cont] at hvec
                  obtain ⟨w, hw⟩ := lv2_vec_mono rest2.length rest2 le_rfl c _ v' e hvec
                  have hrl : rest2.length ≤ m := by
                    simp at hlen1
                    omega
                  by_cases hmid : (lzext v
                      (v.length - (((ctrl &&& 31) <<< 8) ||| lo) - 1) len).length
                      ≤ b0.length
                  · obtain ⟨g2, g3⟩ := ih rest2 hrl c _ v' e hmid hvec
                    rw [if_pos (by rw [hlz] at hmid; omega)] at hbufstep
                    simp only at hbufstep
                    rw [lv2Cont] at hbufstep
                    exact ⟨fun hfits => by rw [hbufstep, g2 hfits],
                      fun hover => by rw [hbufstep, g3 hover]⟩
                  · push_neg at hmid
                    rw [if_neg (by rw [hlz] at hmid; omega)] at hbufstep
                    simp only at hbufstep
                    have hvlen : b0.length < v'.length := by
                      have hlw := congrArg List.length hw
                      rw [List.length_append] at hlw
                      omega
                    have htl : b0.length ≤ (lzext v
                        (v.length - (((ctrl &&& 31) <<< 8) ||| lo) - 1) len).length := by
                      omega
                    refine ⟨fun hfits => absurd hfits (by omega), fun _ => ?_⟩
                    rw [hbufstep, hw, List.take_append_of_le_length htl]
      · rcases inp with _ | ⟨lo, rest⟩
        · rw [lv2Loop_short_nil _ vecDSink ctrl v h0 h7] at hvec
          injection hvec with hh1 hh2
          subst hh1; subst hh2
          rw [lv2Loop_short_nil _ bufDSink ctrl _ h0 h7]
          exact ⟨fun _ => rfl, fun h => absurd h (by omega)⟩
        · by_cases hdf : ((ctrl &&& 31) <<< 8) ||| lo = 8191
          · rcases rest with _ | ⟨hi, rest1⟩
            · rw [lv2Loop_far_trunc vecDSink ctrl lo [] v h0 h7 hdf (by simp)] at hvec
              injection hvec with hh1 hh2
              subst hh1; subst hh2
              rw [lv2Loop_far_trunc bufDSink ctrl lo [] _ h0 h7 hdf (by simp)]
              exact ⟨fun _ => rfl, fun h => absurd h (by omega)⟩
            · rcases rest1 with _ | ⟨lo2, rest2⟩
              · rw [lv2Loop_far_trunc vecDSink ctrl lo [hi] v h0 h7 hdf (by simp)] at hvec
                injection hvec with hh1 hh2
                subst hh1; subst hh2
                rw [lv2Loop_far_trunc bufDSink ctrl lo [hi] _ h0 h7 hdf (by simp)]
                exact ⟨fun _ => rfl, fun h => absurd h (by omega)⟩
              · rw [lv2Loop_far vecDSink ctrl lo hi lo2 rest2 v h0 h7 hdf,
                  vecDSink_put_backref] at hvec
                have hbufstep := lv2Loop_far bufDSink ctrl lo hi lo2 rest2
                  (bufSt b0 v) h0 h7 hdf
                rw [bufDSink_put_backref, bufPutBackref_rel b0 v _ _ hv] at hbufstep
                by_cases hd : 8191 + ((hi <<< 8) ||| lo2) + 1 > v.length
                · rw [vecPutBackref, if_pos hd] at hvec
                  simp only at hvec
                  injection hvec with hh1 hh2
                  subst hh1; subst hh2
                  rw [if_pos hd] at hbufstep
                  simp only at hbufstep
                  exact ⟨fun _ => hbufstep, fun h => absurd h (by omega)⟩
                · rw [vecPutBackref_lzext v _ _ (by omega)] at hvec
                  simp only at hvec
                  rw [if_neg hd] at hbufstep
                  have hlz : (lzext v (v.length - (8191 + ((hi <<< 8) ||| lo2)) - 1)
                      ((ctrl >>> 5) + 2)).length = v.length + ((ctrl >>> 5) + 2) :=
                    lzext_length _ v _
                  rcases rest2 with _ | ⟨c, rest3⟩
                  · rw [lv2Cont] at hvec
                    injection hvec with hh1 hh2
                    subst hh1; subst hh2
                    constructor
                    · intro hfits
                      rw [if_pos (by rw [hlz] at hfits; omega)] at hbufstep
                      simp only at hbufstep
                      rw [lv2Cont] at hbufstep
                      exact hbufstep
                    · intro hover
                      rw [if_neg (by rw [hlz] at hover; omega)] at hbufstep
                      simp only at hbufstep
                      exact hbufstep
                  · rw [lv2Cont] at hvec
                    obtain ⟨w, hw⟩ := lv2_vec_mono rest3.length rest3 le_rfl c _ v' e hvec
                    have hrl : rest3.length ≤ m := by
                      simp at hm
                      omega
                    by_cases hmid : (lzext v
                        (v.length - (8191 + ((hi <<< 8) ||| lo2)) - 1)
                        ((ctrl >>> 5) + 2)).length ≤ b0.length
                    · obtain ⟨g2, g3⟩ := ih rest3 hrl c _ v' e hmid hvec
                      rw [if_pos (by rw [hlz] at hmid; omega)] at hbufstep
                      simp only at hbufstep
                      rw [lv2Cont] at hbufstep
                      exact ⟨fun hfits => by rw [hbufstep, g2 hfits],
                        fun hover => by rw [hbufstep, g3 hover]⟩
                    · push_neg at hmid
                      rw [if_neg (by rw [hlz] at hmid; omega)] at hbufstep
                      simp only at hbufstep
                      have hvlen : b0.length < v'.length := by
                        have hlw := congrArg List.length hw
                        rw [List.length_append] at hlw
                        omega
                      have htl : b0.length ≤ (lzext v
                          (v.length - (8191 + ((hi <<< 8) ||| lo2)) - 1)
                          ((ctrl >>> 5) + 2)).length := by
                        omega
                      refine ⟨fun hfits => absurd hfits (by omega), fun _ => ?_⟩
                      rw [hbufstep, hw, List.take_append_of_le_length htl]
          · rw [lv2Loop_near vecDSink ctrl lo rest v h0 h7 hdf,
              vecDSink_put_backref] at hvec
            have hbufstep := lv2Loop_near bufDSink ctrl lo rest (bufSt b0 v) h0 h7 hdf
            rw [bufDSink_put_backref, bufPutBackref_rel b0 v _ _ hv] at hbufstep
            by_cases hd : (((ctrl &&& 31) <<< 8) ||| lo) + 1 > v.length
            · rw [vecPutBackref, if_pos hd] at hvec
              simp only at hvec
              injection hvec with hh1 hh2
              subst hh1; subst hh2
              rw [if_pos hd] at hbufstep
              simp only at hbufstep
              exact ⟨fun _ => hbufstep, fun h => absurd h (by omega)⟩
            · rw [vecPutBackref_lzext v _ _ (by omega)] at hvec
              simp only at hvec
              rw [if_neg hd] at hbufstep
              have hlz : (lzext v (v.length - (((ctrl &&& 31) <<< 8) ||| lo) - 1)
                  ((ctrl >>> 5) + 2)).length = v.length + ((ctrl >>> 5) + 2) :=
                lzext_length _ v _
              rcases rest with _ | ⟨c, rest2⟩
              · rw [lv2Cont] at hvec
                injection hvec with hh1 hh2
                subst hh1; subst hh2
                constructor
                · intro hfits
                  rw [if_pos (by rw [hlz] at hfits; omega)] at hbufstep
                  simp only at hbufstep
                  rw [lv2Cont] at hbufstep
                  exact hbufstep
                · intro hover
                  rw [if_neg (by rw [hlz] at hover; omega)] at hbufstep
                  simp only at hbufstep
                  exact hbufstep
              · rw [lv2Cont] at hvec
                obtain ⟨w, hw⟩ := lv2_vec_mono rest2.length rest2 le_rfl c _ v' e hvec
                have hrl : rest2.length ≤ m := by
                  simp at hm
                  omega
                by_cases hmid : (lzext v
                    (v.length - (((ctrl &&& 31) <<< 8) ||| lo) - 1)
                    ((ctrl >>> 5) + 2)).length ≤ b0.length
                · obtain ⟨g2, g3⟩ := ih rest2 hrl c _ v' e hmid hvec
                  rw [if_pos (by rw [hlz] at hmid; omega)] at hbufstep
                  simp only at hbufstep
                  rw [lv2Cont] at hbufstep
                  exact ⟨fun hfits => by rw [hbufstep, g2 hfits],
                    fun hover => by rw [hbufstep, g3 hover]⟩
                · push_neg at hmid
                  rw [if_neg (by rw [hlz] at hmid; omega)] at hbufstep
                  simp only at hbufstep
                  have hvlen : b0.length < v'.length := by
                    have hlw := congrArg List.length hw
                    rw [List.length_append] at hlw
                    omega
                  have htl : b0.length ≤ (lzext v
                      (v.length - (((ctrl &&& 31) <<< 8) ||| lo) - 1)
                      ((ctrl >>> 5) + 2)).length := by
                    omega
                  refine ⟨fun hfits => absurd hfits (by omega), fun _ => ?_⟩
                  rw [hbufstep, hw, List.take_append_of_le_length htl]

/-- Whole-call form of the bounded/growable decoder correspondence: a
bounded decompression call tracks the growable one exactly while its output
fits, and on overflow reports `OutputTooSmall` holding exactly the
capacity-truncated bytes of the growable output. -/
theorem decompress_buf_of_vec (inp b0 V : List Nat) (e : Option DecompressError)
    (hvec : decompress_to_vec inp = (V, e)) :
    (V.length ≤ b0.length → decompress_to_buf inp b0 = (bufSt b0 V, e)) ∧
    (b0.length < V.length → decompress_to_buf inp b0
        = (⟨b0.length, V.take b0.length⟩, some DecompressError.OutputTooSmall)) := by
  have hst : (⟨0, b0⟩ : BufOutput) = bufSt b0 [] := by
    simp [bufSt]
  rw [decompress_to_vec] at hvec
  rw [decompress_to_buf, hst]
  cases inp with
  | nil =>
    rw [decompress_impl] at hvec ⊢
    injection hvec with hh1 hh2
    subst hh1; subst hh2
    exact ⟨fun _ => rfl, fun h => absurd h (by simp at h)⟩
  | cons c rest =>
    rw [decompress_impl] at hvec ⊢
    by_cases hc0 : c >>> 5 = 0
    · rw [if_pos hc0] at hvec ⊢
      rw [decompress_lv1] at hvec ⊢
      exact lv1Loop_buf b0 rest.length rest le_rfl (c &&& 31) [] V e (by simp) hvec
    · rw [if_neg hc0] at hvec ⊢
      by_cases hc1 : c >>> 5 = 1
      · rw [if_pos hc1] at hvec ⊢
        rw [decompress_lv2] at hvec ⊢
        exact lv2Loop_buf b0 rest.length rest le_rfl (c &&& 31) [] V e (by simp) hvec
      · rw [if_neg hc1] at hvec ⊢
        injection hvec with hh1 hh2
        subst hh1; subst hh2
        exact ⟨fun _ => rfl, fun h => absurd h (by simp at h)⟩

/-- The uniform behaviour of every bounded compressor-sink operation: append
the operation's bytes if they fit, else write exactly what fits and report
`OutputTooSmall`. -/
def bufTrunc (b0 v bytes : List Nat) : BufOutput × Option CompressError :=
  if v.length + bytes.length ≤ b0.length then (bufSt b0 (v ++ bytes), none)
  else (⟨b0.length, (v ++ bytes).take b0.length⟩, some CompressError.OutputTooSmall)

/-- Truncated takes past the capacity ignore everything after the point where
the capacity was exceeded. -/
theorem takeB_eq (b0 u w1 w2 : List Nat) (h : b0.length ≤ u.length) :
    ((u ++ w1).take b0.length : List Nat) = (u ++ w2).take b0.length := by
  rw [List.take_append_of_le_length h, List.take_append_of_le_length h]

/-- The bounded compressor sink's `putc` in uniform truncation form. -/
theorem bufPutc_relT (b0 v : List Nat) (c : Nat) (hv : v.length ≤ b0.length) :
    BufOutput.putc (bufSt b0 v) c = bufTrunc b0 v [c] := by
  have hbl : (v ++ b0.drop v.length).length = b0.length := by
    simp
    omega
  rw [BufOutput.putc, bufTrunc]
  simp only [bufSt, hbl]
  by_cases hfit : v.length + 1 ≤ b0.length
  · rw [if_pos hfit, if_pos (by simp; omega)]
    have hvl : v.length < b0.length := by omega
    rw [List.drop_eq_getElem_cons (by omega : v.length < b0.length), set_append_mid]
    simp [bufSt]
  · rw [if_neg hfit, if_neg (by simp; omega)]
    have hveq : v.length = b0.length := by omega
    have hdr : b0.drop v.length = [] := by
      apply List.drop_eq_nil_of_le
      omega
    rw [hdr, List.append_nil]
    rw [List.take_append_of_le_length (by omega), List.take_of_length_le (by omega)]
    rw [hveq]
